import Mathlib

/-!
# gonutz/dawg: incremental construction of a minimal word graph

A shallow embedding of `src/dawg.go`.

* A Go `string` is a list of bytes (`List Nat`); `==` is list equality and `<`
  is the byte-wise lexicographic order (`strLt`).
* `[]rune(s)` and `for _, r := range s` decode UTF-8 the way the Go runtime
  does: an ill-formed byte yields `U+FFFD` and consumes one byte (`runes`).
* `string(r)` for a rune and `string(rs)` for a rune slice encode UTF-8, a
  value that is not a Unicode scalar value being written as `U+FFFD`
  (`encodeRune`, `encodeRunes`).
* `*node` is an index into the list of allocated nodes (`heap`); `&node{}`
  appends a node and returns its index, which also serves as the address
  printed by `buildNodeHash`.  An index outside the heap stands for `nil`.
* `map[string]*node` is an association list with unique keys.
* a Go runtime panic is an `Except` error.
-/

namespace Dawg

/-! ## Go strings and UTF-8 -/

/-- A Go string: its bytes. -/
abbrev GoString := List Nat

/-- The Go operator `<` on strings: byte-wise lexicographic order. -/
def strLt : GoString → GoString → Bool
  | [], [] => false
  | [], _ :: _ => true
  | _ :: _, [] => false
  | x :: a, y :: b => decide (x < y) || (decide (x = y) && strLt a b)

/-- The replacement character `utf8.RuneError`. -/
def RuneError : Nat := 0xFFFD

/-- Unicode scalar values: what `string(r)` encodes as itself. -/
def validRune (r : Nat) : Prop := r < 0xD800 ∨ (0xDFFF < r ∧ r ≤ 0x10FFFF)

instance (r : Nat) : Decidable (validRune r) := by
  unfold validRune; infer_instance

/-- The Go conversion `string(r)` of one rune (`utf8.AppendRune`). -/
def encodeRune (r : Nat) : GoString :=
  if r < 0x80 then [r]
  else if r < 0x800 then [0xC0 + r / 64, 0x80 + r % 64]
  else if 0x10FFFF < r ∨ (0xD800 ≤ r ∧ r ≤ 0xDFFF) then [0xEF, 0xBF, 0xBD]
  else if r < 0x10000 then [0xE0 + r / 4096, 0x80 + r / 64 % 64, 0x80 + r % 64]
  else [0xF0 + r / 262144, 0x80 + r / 4096 % 64, 0x80 + r / 64 % 64, 0x80 + r % 64]

/-- The Go conversion `string(rs)` of a rune slice. -/
def encodeRunes : List Nat → GoString
  | [] => []
  | r :: rs => encodeRune r ++ encodeRunes rs

/-- A continuation byte `10xxxxxx`. -/
def isCont (b : Nat) : Bool := decide (0x80 ≤ b) && decide (b ≤ 0xBF)

/-- The Go function `utf8.DecodeRuneInString` on a non-empty string with first
byte `s0` and remaining bytes `t`: the rune and the number of bytes consumed. -/
def decodeRune (s0 : Nat) (t : GoString) : Nat × Nat :=
  if s0 < 0x80 then (s0, 1)
  else if s0 < 0xC2 then (RuneError, 1)
  else if s0 < 0xE0 then
    match t with
    | s1 :: _ => if isCont s1 then (s0 % 32 * 64 + s1 % 64, 2) else (RuneError, 1)
    | _ => (RuneError, 1)
  else if s0 < 0xF0 then
    match t with
    | s1 :: s2 :: _ =>
      if decide ((if s0 = 0xE0 then 0xA0 else 0x80) ≤ s1)
          && decide (s1 ≤ (if s0 = 0xED then 0x9F else 0xBF)) && isCont s2 then
        (s0 % 16 * 4096 + s1 % 64 * 64 + s2 % 64, 3)
      else (RuneError, 1)
    | _ => (RuneError, 1)
  else if s0 < 0xF5 then
    match t with
    | s1 :: s2 :: s3 :: _ =>
      if decide ((if s0 = 0xF0 then 0x90 else 0x80) ≤ s1)
          && decide (s1 ≤ (if s0 = 0xF4 then 0x8F else 0xBF)) && isCont s2 && isCont s3 then
        (s0 % 8 * 262144 + s1 % 64 * 4096 + s2 % 64 * 64 + s3 % 64, 4)
      else (RuneError, 1)
    | _ => (RuneError, 1)
  else (RuneError, 1)

/-- Decoding loop of `[]rune(s)`; `fuel` bounds the number of runes. -/
def runesAux : Nat → GoString → List Nat
  | 0, _ => []
  | _, [] => []
  | fuel + 1, s0 :: t =>
    (decodeRune s0 t).1 :: runesAux fuel (t.drop ((decodeRune s0 t).2 - 1))

/-- The Go conversion `[]rune(s)`, also the runes visited by `range s`. -/
def runes (s : GoString) : List Nat := runesAux s.length s

/-- Well-formed UTF-8: the string is the encoding of the runes it decodes to. -/
def validUTF8 (s : GoString) : Prop := encodeRunes (runes s) = s

instance (s : GoString) : Decidable (validUTF8 s) := by
  unfold validUTF8; infer_instance

/-- The Go function `strings.HasPrefix`. -/
def hasPrefix : GoString → GoString → Bool
  | _, [] => true
  | [], _ :: _ => false
  | x :: s, y :: p => decide (x = y) && hasPrefix s p

/-- The Go function `strings.TrimPrefix`. -/
def trimPrefix (s p : GoString) : GoString :=
  if hasPrefix s p then s.drop p.length else s

/-- Decimal digits of `n`, most significant first; `fuel` bounds their number. -/
def itoaAux : Nat → Nat → GoString
  | 0, _ => []
  | fuel + 1, n => if n < 10 then [48 + n] else itoaAux fuel (n / 10) ++ [48 + n % 10]

/-- The Go function `strconv.Itoa` on a non-negative integer. -/
def itoa (n : Nat) : GoString := itoaAux (n + 1) n

/-! ## Nodes, edges and the builder -/

/-- The Go struct `edge`; `dest` is a pointer, an index into the heap. -/
structure edge where
  letter : Nat
  dest : Nat
  deriving DecidableEq, Repr

/-- The Go struct `node`. -/
structure node where
  final : Bool
  registered : Bool
  edges : List edge
  deriving DecidableEq, Repr

/-- The Go struct `dawgBuilder` together with the memory its pointers refer to. -/
structure dawgBuilder where
  heap : List node
  root : Nat
  lastWord : GoString
  register : List (GoString × Nat)
  deriving DecidableEq, Repr

/-- Run-time failures of the Go program. -/
inductive Fault where
  | ordering
  | indexOutOfRange
  | nilDereference
  | stackOverflow
  deriving DecidableEq, Repr

/-- Dereference a pointer. -/
def deref (h : List node) (p : Nat) : Except Fault node :=
  match h[p]? with
  | some n => .ok n
  | none => .error .nilDereference

/-- The Go expression `n.edges[len(n.edges)-1]`. -/
def lastEdge (n : node) : Except Fault edge :=
  match n.edges.getLast? with
  | some e => .ok e
  | none => .error .indexOutOfRange

/-- The Go function `newDawgBuilder`. -/
def newDawgBuilder : dawgBuilder :=
  { heap := [⟨false, false, []⟩], root := 0, lastWord := [], register := [] }

/-- The loop of the Go function `commonPrefix` on the two rune slices. -/
def commonPrefixLoop : List Nat → List Nat → List Nat
  | x :: a, y :: b => if x ≠ y then [] else x :: commonPrefixLoop a b
  | a, [] => a
  | [], _ => []

/-- The Go function `commonPrefix`. -/
def commonPrefix (s1 s2 : GoString) : List Nat :=
  if s1.length > s2.length then commonPrefixLoop (runes s2) (runes s1)
  else commonPrefixLoop (runes s1) (runes s2)

/-- The Go function `buildNodeHash`. -/
def buildNodeHash (n : node) : GoString :=
  n.edges.foldl (fun hash e => hash ++ (encodeRune e.letter ++ [124] ++ itoa e.dest))
    ((if n.final then [33] else []) ++ itoa n.edges.length)

/-- Read a Go map. -/
def mapGet (m : List (GoString × Nat)) (k : GoString) : Option Nat :=
  match m with
  | [] => none
  | (k1, v) :: rest => if k1 = k then some v else mapGet rest k

/-- Write a Go map. -/
def mapSet (m : List (GoString × Nat)) (k : GoString) (v : Nat) : List (GoString × Nat) :=
  (k, v) :: m.filter (fun kv => decide (kv.1 ≠ k))

/-- The Go method `findRegistered`. -/
def findRegistered (b : dawgBuilder) (n : node) : Option Nat :=
  mapGet b.register (buildNodeHash n)

/-- The Go method `addToRegister`. -/
def addToRegister (b : dawgBuilder) (p : Nat) (n : node) : dawgBuilder :=
  { b with register := mapSet b.register (buildNodeHash n) p }

/-- The Go assignment `n.edges[len(n.edges)-1].dest = q` on the node value. -/
def setLastDest (n : node) (q : Nat) : node :=
  { n with edges := n.edges.dropLast ++ (n.edges.getLast?.map (fun e => { e with dest := q })).toList }

/-- The Go method `replaceOrRegister`; `fuel` bounds the recursion depth. -/
def replaceOrRegister : Nat → dawgBuilder → Nat → Except Fault dawgBuilder
  | 0, _, _ => .error .stackOverflow
  | fuel + 1, b, n => do
    let nn ← deref b.heap n
    let e ← lastEdge nn
    let child := e.dest
    let c ← deref b.heap child
    if !c.registered then
      let b1 ← (if c.edges.length > 0 then replaceOrRegister fuel b child else pure b)
      let c1 ← deref b1.heap child
      match findRegistered b1 c1 with
      | some q =>
        let n1 ← deref b1.heap n
        let _ ← lastEdge n1
        pure { b1 with heap := b1.heap.set n (setLastDest n1 q) }
      | none =>
        let b2 := addToRegister b1 child c1
        pure { b2 with heap := b2.heap.set child { c1 with registered := true } }
    else pure b

/-- The Go method `addSuffix` on the heap. -/
def addSuffix (h : List node) (n : Nat) : List Nat → Except Fault (List node)
  | [] => do
    let nn ← deref h n
    pure (h.set n { nn with final := true })
  | r :: rest => do
    let nn ← deref h n
    let m := h.length
    let h1 := h ++ [⟨false, false, []⟩]
    addSuffix (h1.set n { nn with edges := nn.edges ++ [⟨r, m⟩] }) m rest

/-- The loop `for range pre { lastState = lastState.edges[len-1].dest }` of `add`. -/
def walkLast (h : List node) (p : Nat) : Nat → Except Fault Nat
  | 0 => pure p
  | k + 1 => do
    let n ← deref h p
    let e ← lastEdge n
    walkLast h e.dest k

/-- The Go method `add`.  The recursion of `replaceOrRegister` descends along
last edges without writing, so a descent deeper than the number of allocated
nodes never ends; that is the fuel given to it. -/
def add (b : dawgBuilder) (word : GoString) : Except Fault dawgBuilder :=
  if word = b.lastWord then pure b
  else if !(strLt b.lastWord word) then .error .ordering
  else do
    let pre := commonPrefix word b.lastWord
    let suffix := runes (trimPrefix word (encodeRunes pre))
    let lastState ← walkLast b.heap b.root pre.length
    let ls ← deref b.heap lastState
    let b1 ← (if ls.edges.length > 0 then replaceOrRegister (b.heap.length + 1) b lastState
      else pure b)
    let h2 ← addSuffix b1.heap lastState suffix
    pure { b1 with heap := h2, lastWord := word }

/-- The Go method `finish`. -/
def finish (b : dawgBuilder) : Except Fault dawgBuilder :=
  replaceOrRegister (b.heap.length + 1) b b.root

/-- The binary search loop of `findEdge`, with `left` and `right` as integers.
Every iteration shrinks the interval, so `fuel`, one more than the number of
edges, is never used up. -/
def findEdgeLoop (es : List edge) (r : Nat) : Nat → Int → Int → Except Fault (Option edge)
  | 0, _, _ => .error .stackOverflow
  | fuel + 1, left, right =>
    if left ≤ right then
      let m := (left + right) / 2
      match es[m.toNat]? with
      | none => .error .indexOutOfRange
      | some e =>
        if e.letter < r then findEdgeLoop es r fuel (m + 1) right
        else if e.letter > r then findEdgeLoop es r fuel left (m - 1)
        else pure (some e)
    else pure none

/-- The Go closure `findEdge` of `containsWord`. -/
def findEdge (n : node) (r : Nat) : Except Fault (Option edge) :=
  findEdgeLoop n.edges r (n.edges.length + 1) 0 ((n.edges.length : Int) - 1)

/-- The loop of `containsWord` over the runes of the word. -/
def containsRunes (h : List node) (p : Nat) : List Nat → Except Fault Bool
  | [] => do
    let n ← deref h p
    pure n.final
  | r :: rs => do
    let n ← deref h p
    match ← findEdge n r with
    | none => pure false
    | some e => containsRunes h e.dest rs

/-- The Go function `containsWord`. -/
def containsWord (h : List node) (p : Nat) (word : GoString) : Except Fault Bool :=
  containsRunes h p (runes word)

/-- All the `add` calls of a run, in order. -/
def addAll (b : dawgBuilder) : List GoString → Except Fault dawgBuilder
  | [] => pure b
  | w :: ws => do
    let b1 ← add b w
    addAll b1 ws

/-- The body of `main`: a new builder, every word added, then `finish`. -/
def build (ws : List GoString) : Except Fault dawgBuilder := do
  let b ← addAll newDawgBuilder ws
  finish b

/-! ## Reference semantics and the notions the properties are stated with -/

/-- Linear scan of an edge list for the edge that carries letter `r`. -/
def lookupEdge (es : List edge) (r : Nat) : Option edge :=
  es.find? (fun e => decide (e.letter = r))

/-- The reference run of the query: follow, for each rune in turn, the edge found
by linear scan; reject when there is none; answer the final flag at the end. -/
def refRun (h : List node) (p : Nat) : List Nat → Except Fault Bool
  | [] => do
    let n ← deref h p
    pure n.final
  | r :: rs => do
    let n ← deref h p
    match lookupEdge n.edges r with
    | none => pure false
    | some e => refRun h e.dest rs

/-- The reference query on a Go string. -/
def referenceContains (h : List node) (p : Nat) (word : GoString) : Except Fault Bool :=
  refRun h p (runes word)

/-- The language of a state, as a total Boolean function of the rune sequence. -/
def acc (h : List node) (p : Nat) : List Nat → Bool
  | [] =>
    match h[p]? with
    | some n => n.final
    | none => false
  | r :: rs =>
    match h[p]? with
    | some n =>
      match lookupEdge n.edges r with
      | some e => acc h e.dest rs
      | none => false
    | none => false

/-- State `q` can be reached from state `p` by following edges. -/
inductive Reach (h : List node) : Nat → Nat → Prop
  | refl (p : Nat) : Reach h p p
  | step (p : Nat) (n : node) (e : edge) (q : Nat) :
      h[p]? = some n → e ∈ n.edges → Reach h e.dest q → Reach h p q

/-- Edge letters strictly increase along the edge list. -/
def sortedEdges (es : List edge) : Prop :=
  es.Pairwise (fun a b => a.letter < b.letter)

instance (es : List edge) : Decidable (sortedEdges es) := by
  unfold sortedEdges; infer_instance

/-- Words in non-decreasing order: each is equal to or greater than the one
before it (the check `add` makes against `lastWord`). -/
def nonDecreasingB : List GoString → Bool
  | a :: b :: rest => (decide (a = b) || strLt a b) && nonDecreasingB (b :: rest)
  | _ => true

/-- Words in non-decreasing order. -/
def nonDecreasing (ws : List GoString) : Prop := nonDecreasingB ws = true

instance (ws : List GoString) : Decidable (nonDecreasing ws) := by
  unfold nonDecreasing; infer_instance

/-- Words in strictly increasing order, as a Boolean. -/
def strictlyIncreasingB : List GoString → Bool
  | a :: b :: rest => strLt a b && strictlyIncreasingB (b :: rest)
  | _ => true

/-- Words in strictly increasing order. -/
def strictlyIncreasing (ws : List GoString) : Prop := strictlyIncreasingB ws = true

instance (ws : List GoString) : Decidable (strictlyIncreasing ws) := by
  unfold strictlyIncreasing; infer_instance

/-- The state behind a pointer is marked registered. -/
def isReg (h : List node) (p : Nat) : Prop :=
  ∃ n, h[p]? = some n ∧ n.registered = true

/-- The right-most path: from `p`, following the last edge of each state, the
letters `cs` lead to `q`; the states before `q` are unregistered, were allocated
in order, and their other edges lead to registered states. -/
def Spine (h : List node) : Nat → List Nat → Nat → Prop
  | p, [], q => p = q
  | p, c :: cs, q => ∃ n init nx, h[p]? = some n ∧ n.registered = false ∧
      n.edges = init ++ [⟨c, nx⟩] ∧ (∀ e ∈ init, isReg h e.dest) ∧ p < nx ∧ Spine h nx cs q

/-- The register, newest entry first: every entry is keyed by the fingerprint of
its state, keys are unique, and the edges of a state lead to states registered
before it. -/
def RegOK (h : List node) : List (GoString × Nat) → Prop
  | [] => True
  | (k, p) :: post => RegOK h post ∧ mapGet post k = none ∧
      ∃ n, h[p]? = some n ∧ n.registered = true ∧ k = buildNodeHash n ∧
        (n.edges = [] → n.final = true) ∧ ∀ e ∈ n.edges, e.dest ∈ post.map Prod.snd

/-- The invariant of the memory and the register. -/
structure Good (h : List node) (R : List (GoString × Nat)) : Prop where
  dests : ∀ (p : Nat) (n : node), h[p]? = some n → ∀ e ∈ n.edges, e.dest < h.length
  letters : ∀ (p : Nat) (n : node), h[p]? = some n → ∀ e ∈ n.edges, validRune e.letter
  sorted : ∀ (p : Nat) (n : node), h[p]? = some n → sortedEdges n.edges
  regIn : ∀ (p : Nat) (n : node), h[p]? = some n → n.registered = true → p ∈ R.map Prod.snd
  regOK : RegOK h R

/-- The invariant of the builder between two calls of `add`: `W` lists the rune
sequences of the non-empty words added so far. -/
structure Inv (b : dawgBuilder) (W : List (List Nat)) : Prop where
  good : Good b.heap b.register
  validLast : validUTF8 b.lastWord
  spine : ∃ q, Spine b.heap b.root (runes b.lastWord) q ∧
    b.heap[q]? = some ⟨decide (runes b.lastWord ≠ []), false, []⟩
  lang : ∀ rs, acc b.heap b.root rs = true ↔ rs ∈ W
  lastIn : runes b.lastWord ≠ [] → runes b.lastWord ∈ W
  lastNe : W ≠ [] → runes b.lastWord ≠ []

/-- The part of `replaceOrRegister` after the recursive call. -/
def sealStep (b1 : dawgBuilder) (n child : Nat) : Except Fault dawgBuilder := do
  let c1 ← deref b1.heap child
  match findRegistered b1 c1 with
  | some q =>
    let n1 ← deref b1.heap n
    let _ ← lastEdge n1
    pure { b1 with heap := b1.heap.set n (setLastDest n1 q) }
  | none =>
    let b2 := addToRegister b1 child c1
    pure { b2 with heap := b2.heap.set child { c1 with registered := true } }

/-- The chain of fresh states that `addSuffix` appends for the letters `ss`. -/
def Chain (h : List node) : Nat → List Nat → Prop
  | m, [] => h[m]? = some ⟨true, false, []⟩
  | m, s :: ss => h[m]? = some ⟨false, false, [⟨s, m + 1⟩]⟩ ∧ Chain h (m + 1) ss

/-- A decimal digit byte. -/
def isDigit (b : Nat) : Prop := 48 ≤ b ∧ b ≤ 57

/-- The value of a string of decimal digits. -/
def digitsVal (l : GoString) : Nat := l.foldl (fun a d => a * 10 + (d - 48)) 0

/-- The text that follows a decimal number in a fingerprint: nothing, or an edge. -/
def Shaped (x : GoString) : Prop :=
  x = [] ∨ ∃ l d y, x = encodeRune l ++ ([124] ++ (itoa d ++ y))

/-- The text that the loop of `buildNodeHash` appends. -/
def hashBody : List edge → GoString
  | [] => []
  | e :: es => encodeRune e.letter ++ ([124] ++ (itoa e.dest ++ hashBody es))

/-- What `replaceOrRegister` and its parts preserve. -/
structure Pres (b b1 : dawgBuilder) : Prop where
  root : b1.root = b.root
  lastWord : b1.lastWord = b.lastWord
  len : b1.heap.length = b.heap.length
  good : Good b1.heap b1.register
  regKeep : ∀ (x : Nat) (nd : node), b.heap[x]? = some nd → nd.registered = true → b1.heap[x]? = some nd
  accEq : ∀ x rs, acc b1.heap x rs = acc b.heap x rs
  regExt : ∃ ext, b1.register = ext ++ b.register

/-- Two states have the same language on well-formed rune sequences. -/
def LangEq (h : List node) (p q : Nat) : Prop :=
  ∀ rs, (∀ r ∈ rs, validRune r) → acc h p rs = acc h q rs

/-- The words of `smallTest`: "tap", "taps", "top", "tops". -/
def smallWords : List GoString :=
  [[116, 97, 112], [116, 97, 112, 115], [116, 111, 112], [116, 111, 112, 115]]

/-- The memory after `smallTest`. -/
def smallHeap : List node :=
  [⟨false, false, [⟨116, 1⟩]⟩,
   ⟨false, true, [⟨97, 2⟩, ⟨111, 2⟩]⟩,
   ⟨false, true, [⟨112, 3⟩]⟩,
   ⟨true, true, [⟨115, 4⟩]⟩,
   ⟨true, true, []⟩,
   ⟨false, false, [⟨112, 3⟩]⟩,
   ⟨true, false, [⟨115, 4⟩]⟩,
   ⟨true, false, []⟩]

/-- Three words in strictly increasing byte order that are not well-formed
UTF-8: "a\xfe", "\xfe\xfe", "\xffa". -/
def brokenWords : List GoString := [[97, 0xFE], [0xFE, 0xFE], [0xFF, 97]]

/-- The memory after the three ill-formed words and `finish`. -/
def brokenHeap : List node :=
  [⟨false, false, [⟨97, 1⟩, ⟨65533, 3⟩]⟩,
   ⟨false, true, [⟨65533, 2⟩]⟩,
   ⟨true, true, []⟩,
   ⟨false, true, [⟨65533, 2⟩, ⟨65533, 5⟩]⟩,
   ⟨true, false, []⟩,
   ⟨false, true, [⟨97, 2⟩]⟩,
   ⟨true, false, []⟩]

/-! ## Notions for the invariants of a run -/

/-- Following the last edge of each state `k` times from `p`: the letters read,
the states left behind, and the state reached. -/
def lastPath (h : List node) : Nat → Nat → Except Fault (List Nat × List Nat × Nat)
  | p, 0 => pure ([], [], p)
  | p, k + 1 => do
    let n ← deref h p
    let e ← lastEdge n
    let r ← lastPath h e.dest k
    pure (e.letter :: r.1, p :: r.2.1, r.2.2)

/-- State `q` can be reached from state `p` by following one or more edges. -/
def ReachPlus (h : List node) (p q : Nat) : Prop :=
  ∃ n e, h[p]? = some n ∧ e ∈ n.edges ∧ Reach h e.dest q

/-- The graph reachable from `root` is acyclic. -/
def acyclicFrom (h : List node) (root : Nat) : Prop :=
  ∀ p, Reach h root p → ¬ ReachPlus h p p

/-- The entries `ext` were written to the register `R` one after the other (the
newest first), each under a key that was not present when it was written. -/
def FreshExt (R : List (GoString × Nat)) : List (GoString × Nat) → Prop
  | [] => True
  | (k, _) :: ext => mapGet (ext ++ R) k = none ∧ FreshExt R ext

/-- Every registered state can be reached from `root`. -/
def RegReach (h : List node) (root : Nat) : Prop :=
  ∀ x, isReg h x → Reach h root x

/-- One call on the builder. -/
inductive Op where
  | add (w : GoString)
  | finish
  deriving DecidableEq, Repr

/-- One call on the builder, run. -/
def runOp (b : dawgBuilder) : Op → Except Fault dawgBuilder
  | .add w => add b w
  | .finish => finish b

/-- A sequence of `add` and `finish` calls, run in order. -/
def runOps (b : dawgBuilder) : List Op → Except Fault dawgBuilder
  | [] => pure b
  | o :: os => do
    let b1 ← runOp b o
    runOps b1 os

/-- What holds of the memory whatever bytes the words are made of: pointers are
valid, no edge and no register entry leads to the root, the root is neither
final nor registered, register entries are registered states, and an edge to
an unregistered state leads to a state allocated later. -/
structure Basic (b : dawgBuilder) : Prop where
  rootLt : b.root < b.heap.length
  dests : ∀ (p : Nat) (n : node), b.heap[p]? = some n → ∀ e ∈ n.edges,
    e.dest < b.heap.length ∧ e.dest ≠ b.root
  regVals : ∀ kv ∈ b.register, kv.2 ≠ b.root ∧ isReg b.heap kv.2
  later : ∀ (p : Nat) (n : node), b.heap[p]? = some n → ∀ e ∈ n.edges,
    ¬ isReg b.heap e.dest → p < e.dest
  rootNode : ∃ n, b.heap[b.root]? = some n ∧ n.final = false ∧ n.registered = false
  rootEdges : b.lastWord ≠ [] →
    ∃ n, b.heap[b.root]? = some n ∧ n.edges ≠ []

/-- Memory `h1` has the states of `h` with the same final flags and as many edges
each; what was registered is registered. -/
def Shape (h h1 : List node) : Prop :=
  h1.length = h.length ∧
  ∀ (x : Nat) (n : node), h[x]? = some n →
    ∃ n1, h1[x]? = some n1 ∧ n1.final = n.final ∧ n1.edges.length = n.edges.length ∧
      (n.registered = true → n1.registered = true)

/-- Every edge letter of every state in memory is a Unicode scalar value. -/
def Letters (h : List node) : Prop :=
  ∀ (p : Nat) (n : node), h[p]? = some n → ∀ e ∈ n.edges, validRune e.letter

/-- The longest common prefix of two rune sequences. -/
def longestCommonPrefix : List Nat → List Nat → List Nat
  | x :: a, y :: b => if x = y then x :: longestCommonPrefix a b else []
  | _, _ => []

theorem runesAux_fuel : ∀ (f1 f2 : Nat) (s : GoString), s.length ≤ f1 → s.length ≤ f2 →
    runesAux f1 s = runesAux f2 s := by
  intro f1
  induction f1 with
  | zero =>
    intro f2 s h1 _
    have : s = [] := List.length_eq_zero.mp (Nat.le_zero.mp h1)
    subst this
    cases f2 <;> rfl
  | succ n ih =>
    intro f2 s h1 h2
    cases s with
    | nil => cases f2 <;> rfl
    | cons s0 t =>
      cases f2 with
      | zero => simp at h2
      | succ m =>
        simp only [runesAux]
        congr 1
        apply ih
        · simp at h1 ⊢; omega
        · simp at h2 ⊢; omega

theorem runes_cons (s0 : Nat) (t : GoString) :
    runes (s0 :: t) = (decodeRune s0 t).1 :: runes (t.drop ((decodeRune s0 t).2 - 1)) := by
  unfold runes
  simp only [List.length_cons, runesAux]
  congr 1
  apply runesAux_fuel
  · simp
  · exact Nat.le_refl _

theorem decodeRune_encodeRune (r : Nat) (hr : validRune r) (s : GoString) :
    ∃ s0 t, encodeRune r = s0 :: t ∧ decodeRune s0 (t ++ s) = (r, t.length + 1) := by
  unfold validRune at hr
  unfold encodeRune
  split_ifs with h1 h2 h3 h4
  · exact ⟨r, [], rfl, by simp [decodeRune, h1]⟩
  · refine ⟨_, _, rfl, ?_⟩
    have a1 : ¬ (0xC0 + r / 64 < 0x80) := by omega
    have a2 : ¬ (0xC0 + r / 64 < 0xC2) := by omega
    have a3 : (0xC0 + r / 64 < 0xE0) := by omega
    simp only [decodeRune, a1, a2, a3, if_true, if_false, List.cons_append, isCont]
    have c1 : (0x80 ≤ 0x80 + r % 64) := by omega
    have c2 : (0x80 + r % 64 ≤ 0xBF) := by omega
    simp only [c1, c2, decide_True, Bool.and_self, if_true, List.length_singleton]
    congr 1
    omega
  · omega
  · refine ⟨_, _, rfl, ?_⟩
    have a1 : ¬ (0xE0 + r / 4096 < 0x80) := by omega
    have a2 : ¬ (0xE0 + r / 4096 < 0xC2) := by omega
    have a3 : ¬ (0xE0 + r / 4096 < 0xE0) := by omega
    have a4 : (0xE0 + r / 4096 < 0xF0) := by omega
    simp only [decodeRune, a1, a2, a3, a4, if_true, if_false, List.cons_append, isCont]
    have c1 : ((if 0xE0 + r / 4096 = 0xE0 then 0xA0 else 0x80) ≤ 0x80 + r / 64 % 64) := by
      split_ifs <;> omega
    have c2 : (0x80 + r / 64 % 64 ≤ (if 0xE0 + r / 4096 = 0xED then 0x9F else 0xBF)) := by
      split_ifs <;> omega
    have c3 : (0x80 ≤ 0x80 + r % 64) := by omega
    have c4 : (0x80 + r % 64 ≤ 0xBF) := by omega
    simp only [c1, c2, c3, c4, decide_True, Bool.and_self, if_true, List.length_cons,
      List.length_singleton, List.length_nil]
    congr 1
    omega
  · refine ⟨_, _, rfl, ?_⟩
    have a1 : ¬ (0xF0 + r / 262144 < 0x80) := by omega
    have a2 : ¬ (0xF0 + r / 262144 < 0xC2) := by omega
    have a3 : ¬ (0xF0 + r / 262144 < 0xE0) := by omega
    have a4 : ¬ (0xF0 + r / 262144 < 0xF0) := by omega
    have a5 : (0xF0 + r / 262144 < 0xF5) := by omega
    simp only [decodeRune, a1, a2, a3, a4, a5, if_true, if_false, List.cons_append, isCont]
    have c1 : ((if 0xF0 + r / 262144 = 0xF0 then 0x90 else 0x80) ≤ 0x80 + r / 4096 % 64) := by
      split_ifs <;> omega
    have c2 : (0x80 + r / 4096 % 64 ≤ (if 0xF0 + r / 262144 = 0xF4 then 0x8F else 0xBF)) := by
      split_ifs <;> omega
    have c3 : (0x80 ≤ 0x80 + r % 64) := by omega
    have c4 : (0x80 + r % 64 ≤ 0xBF) := by omega
    have c5 : (0x80 ≤ 0x80 + r / 64 % 64) := by omega
    have c6 : (0x80 + r / 64 % 64 ≤ 0xBF) := by omega
    simp only [c1, c2, c3, c4, c5, c6, decide_True, Bool.and_self, if_true, List.length_cons,
      List.length_singleton, List.length_nil]
    congr 1
    omega

theorem runes_encodeRune_append (r : Nat) (hr : validRune r) (s : GoString) :
    runes (encodeRune r ++ s) = r :: runes s := by
  obtain ⟨s0, t, he, hd⟩ := decodeRune_encodeRune r hr s
  rw [he, List.cons_append, runes_cons, hd]
  simp

theorem runes_encodeRunes_append (rs : List Nat) (hr : ∀ r ∈ rs, validRune r) (s : GoString) :
    runes (encodeRunes rs ++ s) = rs ++ runes s := by
  induction rs with
  | nil => rfl
  | cons r rs ih =>
    simp only [encodeRunes, List.append_assoc, List.cons_append]
    rw [runes_encodeRune_append r (hr r (List.mem_cons_self _ _))]
    rw [ih (fun x hx => hr x (List.mem_cons_of_mem _ hx))]

theorem runes_encodeRunes (rs : List Nat) (hr : ∀ r ∈ rs, validRune r) :
    runes (encodeRunes rs) = rs := by
  have := runes_encodeRunes_append rs hr []
  simpa [runes, runesAux] using this

theorem validRune_decodeRune (s0 : Nat) (t : GoString) : validRune (decodeRune s0 t).1 := by
  unfold decodeRune validRune RuneError isCont
  repeat' split
  all_goals simp only [Bool.and_eq_true, decide_eq_true_eq] at *
  all_goals omega

theorem validRune_runesAux : ∀ (fuel : Nat) (s : GoString), ∀ r ∈ runesAux fuel s, validRune r := by
  intro fuel
  induction fuel with
  | zero => intro s r hr; simp [runesAux] at hr
  | succ n ih =>
    intro s r hr
    cases s with
    | nil => simp [runesAux] at hr
    | cons s0 t =>
      simp only [runesAux, List.mem_cons] at hr
      rcases hr with h | h
      · rw [h]; exact validRune_decodeRune s0 t
      · exact ih _ r h

theorem validRune_runes (s : GoString) : ∀ r ∈ runes s, validRune r :=
  validRune_runesAux _ s

theorem strLt_cons (x y : Nat) (a b : GoString) :
    strLt (x :: a) (y :: b) = true ↔ x < y ∨ (x = y ∧ strLt a b = true) := by
  simp [strLt]

theorem strLt_irrefl : ∀ a : GoString, strLt a a = false := by
  intro a
  induction a with
  | nil => rfl
  | cons x a ih => simp [strLt, ih]

theorem strLt_asymm : ∀ a b : GoString, strLt a b = true → strLt b a = false := by
  intro a
  induction a with
  | nil => intro b _; cases b <;> rfl
  | cons x a ih =>
    intro b h
    cases b with
    | nil => simp [strLt] at h
    | cons y b =>
      rw [strLt_cons] at h
      rw [Bool.eq_false_iff]
      intro h2
      rw [strLt_cons] at h2
      rcases h with h | ⟨h, h'⟩ <;> rcases h2 with h2 | ⟨h2, h2'⟩
      · omega
      · omega
      · omega
      · rw [ih b h'] at h2'; exact Bool.noConfusion h2'

theorem strLt_append_left : ∀ p a b : GoString, strLt (p ++ a) (p ++ b) = strLt a b := by
  intro p
  induction p with
  | nil => intro a b; rfl
  | cons x p ih => intro a b; simp [strLt, ih]

theorem strLt_nil_right : ∀ a : GoString, strLt a [] = false := by
  intro a; cases a <;> rfl

theorem encodeRune_ne_nil (r : Nat) : encodeRune r ≠ [] := by
  unfold encodeRune; split_ifs <;> simp

theorem encodeRune_length_pos (r : Nat) : 0 < (encodeRune r).length :=
  List.length_pos.mpr (encodeRune_ne_nil r)

theorem strLt_encodeRune (c d : Nat) (hc : validRune c) (hd : validRune d) (hlt : c < d)
    (x y : GoString) : strLt (encodeRune c ++ x) (encodeRune d ++ y) = true := by
  unfold validRune at hc hd
  unfold encodeRune
  split_ifs with h1 h2 h3 h4 h5 h6 h7 h8 h9 h10 h11 h12 h13 h14 h15 h16
  all_goals first
    | omega
    | (simp only [List.cons_append, List.nil_append, strLt_cons]; left; omega)
    | (simp only [List.cons_append, List.nil_append, strLt_cons]
       have e0 : c / 64 < d / 64 ∨ c / 64 = d / 64 := by omega
       rcases e0 with e0 | e0
       · left; omega
       · right; refine ⟨by omega, ?_⟩; left; omega)
    | (simp only [List.cons_append, List.nil_append, strLt_cons]
       have e0 : c / 4096 < d / 4096 ∨ c / 4096 = d / 4096 := by omega
       rcases e0 with e0 | e0
       · left; omega
       · right; refine ⟨by omega, ?_⟩
         have e1 : c / 64 % 64 < d / 64 % 64 ∨ c / 64 % 64 = d / 64 % 64 := by omega
         rcases e1 with e1 | e1
         · left; omega
         · right; refine ⟨by omega, ?_⟩; left; omega)
    | (simp only [List.cons_append, List.nil_append, strLt_cons]
       have e0 : c / 262144 < d / 262144 ∨ c / 262144 = d / 262144 := by omega
       rcases e0 with e0 | e0
       · left; omega
       · right; refine ⟨by omega, ?_⟩
         have e1 : c / 4096 % 64 < d / 4096 % 64 ∨ c / 4096 % 64 = d / 4096 % 64 := by omega
         rcases e1 with e1 | e1
         · left; omega
         · right; refine ⟨by omega, ?_⟩
           have e2 : c / 64 % 64 < d / 64 % 64 ∨ c / 64 % 64 = d / 64 % 64 := by omega
           rcases e2 with e2 | e2
           · left; omega
           · right; refine ⟨by omega, ?_⟩; left; omega)

theorem encodeRunes_append (a b : List Nat) :
    encodeRunes (a ++ b) = encodeRunes a ++ encodeRunes b := by
  induction a with
  | nil => rfl
  | cons r a ih => simp [encodeRunes, ih]

theorem order_decomp : ∀ (lr wr : List Nat), (∀ r ∈ lr, validRune r) → (∀ r ∈ wr, validRune r) →
    strLt (encodeRunes lr) (encodeRunes wr) = true →
    ∃ p c rest tail, wr = p ++ c :: rest ∧ lr = p ++ tail ∧
      (tail = [] ∨ ∃ d t, tail = d :: t ∧ d < c) := by
  intro lr
  induction lr with
  | nil =>
    intro wr _ _ h
    cases wr with
    | nil => simp [encodeRunes, strLt] at h
    | cons c rest => exact ⟨[], c, rest, [], rfl, rfl, Or.inl rfl⟩
  | cons d lt ih =>
    intro wr hl hw h
    cases wr with
    | nil => simp [encodeRunes, strLt_nil_right] at h
    | cons c wt =>
      have hd : validRune d := hl d (List.mem_cons_self _ _)
      have hc : validRune c := hw c (List.mem_cons_self _ _)
      rcases Nat.lt_trichotomy d c with hlt | heq | hgt
      · exact ⟨[], c, wt, d :: lt, rfl, rfl, Or.inr ⟨d, lt, rfl, hlt⟩⟩
      · subst heq
        simp only [encodeRunes, strLt_append_left] at h
        obtain ⟨p, c, rest, tail, e1, e2, e3⟩ :=
          ih wt (fun r hr => hl r (List.mem_cons_of_mem _ hr))
            (fun r hr => hw r (List.mem_cons_of_mem _ hr)) h
        exact ⟨d :: p, c, rest, tail, by simp [e1], by simp [e2], e3⟩
      · have := strLt_encodeRune c d hc hd hgt (encodeRunes wt) (encodeRunes lt)
        have := strLt_asymm _ _ this
        simp only [encodeRunes] at h
        rw [this] at h
        exact Bool.noConfusion h

theorem commonPrefixLoop_diff (p : List Nat) (c d : Nat) (rest t : List Nat) (h : c ≠ d) :
    commonPrefixLoop (p ++ c :: rest) (p ++ d :: t) = p := by
  induction p with
  | nil => simp [commonPrefixLoop, h]
  | cons x p ih => simp [commonPrefixLoop, ih]

theorem commonPrefixLoop_left (p rest : List Nat) :
    commonPrefixLoop p (p ++ rest) = p := by
  induction p with
  | nil => cases rest <;> simp [commonPrefixLoop]
  | cons x p ih => simp [commonPrefixLoop, ih]

theorem hasPrefix_append (p x : GoString) : hasPrefix (p ++ x) p = true := by
  induction p with
  | nil => cases x <;> rfl
  | cons y p ih => simp [hasPrefix, ih]

theorem trimPrefix_append (p x : GoString) : trimPrefix (p ++ x) p = x := by
  simp [trimPrefix, hasPrefix_append]

theorem encodeRunes_length_cons (c : Nat) (rest : List Nat) :
    0 < (encodeRunes (c :: rest)).length := by
  simp only [encodeRunes, List.length_append]
  have := encodeRune_length_pos c
  omega

/-- What `add` computes from a well-formed word that follows a well-formed last word. -/
theorem add_strings (lw w : GoString) (hl : validUTF8 lw) (hw : validUTF8 w)
    (h : strLt lw w = true) :
    ∃ p c rest tail, runes w = p ++ c :: rest ∧ runes lw = p ++ tail ∧
      (tail = [] ∨ ∃ d t, tail = d :: t ∧ d < c) ∧
      commonPrefix w lw = p ∧ runes (trimPrefix w (encodeRunes p)) = c :: rest := by
  unfold validUTF8 at hl hw
  have h' := h
  rw [← hl, ← hw] at h'
  obtain ⟨p, c, rest, tail, e1, e2, e3⟩ :=
    order_decomp (runes lw) (runes w) (validRune_runes lw) (validRune_runes w) h'
  refine ⟨p, c, rest, tail, e1, e2, e3, ?_, ?_⟩
  · unfold commonPrefix
    rcases e3 with e3 | ⟨d, t, e3, hdc⟩
    · subst e3
      have hlen : w.length > lw.length := by
        rw [← hl, ← hw, e1, e2, List.append_nil, encodeRunes_append, List.length_append]
        have := encodeRunes_length_cons c rest
        omega
      rw [if_pos hlen, e1, e2, List.append_nil]
      exact commonPrefixLoop_left p (c :: rest)
    · subst e3
      rw [e1, e2]
      split_ifs
      · exact commonPrefixLoop_diff p d c t rest (by omega)
      · exact commonPrefixLoop_diff p c d rest t (by omega)
  · have hv : ∀ r ∈ c :: rest, validRune r := by
      intro r hr
      apply validRune_runes w
      rw [e1]; exact List.mem_append_right _ hr
    have : w = encodeRunes p ++ encodeRunes (c :: rest) := by
      rw [← encodeRunes_append, ← e1, hw]
    rw [this, trimPrefix_append, runes_encodeRunes _ hv]

/-! ## The ordering check of `add` -/

theorem bind_ok {α β : Type} (x : Except Fault α) (f : α → Except Fault β) (y : β) :
    (x >>= f) = .ok y ↔ ∃ a, x = .ok a ∧ f a = .ok y := by
  cases x with
  | error e => simp [bind, Except.bind]
  | ok a => simp [bind, Except.bind]

theorem add_lastWord (b b1 : dawgBuilder) (w : GoString) (h : add b w = .ok b1) :
    b1.lastWord = w := by
  unfold add at h
  by_cases h1 : w = b.lastWord
  · rw [if_pos h1] at h; cases h; exact h1.symm
  · rw [if_neg h1] at h
    by_cases h2 : (!strLt b.lastWord w) = true
    · rw [if_pos h2] at h; cases h
    · rw [if_neg h2] at h
      obtain ⟨ls, _, h⟩ := (bind_ok _ _ _).mp h
      obtain ⟨lsn, _, h⟩ := (bind_ok _ _ _).mp h
      obtain ⟨b2, _, h⟩ := (bind_ok _ _ _).mp h
      obtain ⟨h2, _, h⟩ := (bind_ok _ _ _).mp h
      cases h; rfl

/-! ## Binary search -/

theorem lookupEdge_none (es : List edge) (r : Nat) (h : ∀ e ∈ es, e.letter ≠ r) :
    lookupEdge es r = none := by
  unfold lookupEdge
  rw [List.find?_eq_none]
  intro e he
  simpa using h e he

theorem lookupEdge_some (es : List edge) (hs : sortedEdges es) (e : edge) (he : e ∈ es) :
    lookupEdge es e.letter = some e := by
  unfold lookupEdge
  induction es with
  | nil => cases he
  | cons x t ih =>
    unfold sortedEdges at hs
    rw [List.pairwise_cons] at hs
    rcases List.mem_cons.mp he with h | h
    · subst h; simp
    · have : x.letter < e.letter := hs.1 e h
      have hne : ¬ (x.letter = e.letter) := by omega
      rw [List.find?_cons_of_neg]
      · exact ih hs.2 h
      · simpa using hne

theorem sortedEdges_get_lt (es : List edge) (hs : sortedEdges es) (i j : Nat) (ei ej : edge)
    (hi : es[i]? = some ei) (hj : es[j]? = some ej) (hij : i < j) :
    ei.letter < ej.letter := by
  unfold sortedEdges at hs
  rw [List.pairwise_iff_getElem] at hs
  obtain ⟨h1, e1⟩ := List.getElem?_eq_some_iff.mp hi
  obtain ⟨h2, e2⟩ := List.getElem?_eq_some_iff.mp hj
  have := hs i j h1 h2 hij
  rw [e1, e2] at this
  exact this

theorem findEdgeLoop_spec (es : List edge) (hs : sortedEdges es) (r : Nat) :
    ∀ (fuel : Nat) (left right : Int), 0 ≤ left → right < es.length → left ≤ right + 1 →
      right - left + 1 < fuel →
      (∀ (i : Nat) (e : edge), es[i]? = some e → (i : Int) < left → e.letter < r) →
      (∀ (i : Nat) (e : edge), es[i]? = some e → right < (i : Int) → r < e.letter) →
      findEdgeLoop es r fuel left right = .ok (lookupEdge es r) := by
  intro fuel
  induction fuel with
  | zero => intro left right h0 h1 h3 h2; omega
  | succ f ih =>
    intro left right h0 h1 h3 h2 hl hr
    unfold findEdgeLoop
    split_ifs with hle
    · have hm0 : 0 ≤ (left + right) / 2 := by omega
      have hmlt : ((left + right) / 2).toNat < es.length := by omega
      have hget : es[((left + right) / 2).toNat]? = some (es.get ⟨_, hmlt⟩) :=
        List.getElem?_eq_getElem hmlt
      simp only [hget]
      have hcast : ((((left + right) / 2).toNat : Nat) : Int) = (left + right) / 2 :=
        Int.toNat_of_nonneg hm0
      split_ifs with c1 c2
      · apply ih
        · omega
        · exact h1
        · omega
        · omega
        · intro i e hie hlt
          rcases Nat.lt_or_ge i ((left + right) / 2).toNat with hh | hh
          · have := sortedEdges_get_lt es hs _ _ _ _ hie hget hh
            omega
          · have : i = ((left + right) / 2).toNat := by omega
            subst this
            rw [hget] at hie
            cases hie
            exact c1
        · exact hr
      · apply ih
        · exact h0
        · omega
        · omega
        · omega
        · exact hl
        · intro i e hie hlt
          rcases Nat.lt_or_ge ((left + right) / 2).toNat i with hh | hh
          · have := sortedEdges_get_lt es hs _ _ _ _ hget hie hh
            omega
          · have : i = ((left + right) / 2).toNat := by omega
            subst this
            rw [hget] at hie
            cases hie
            exact c2
      · have heq : (es.get ⟨_, hmlt⟩).letter = r := by omega
        have hmem : es.get ⟨_, hmlt⟩ ∈ es := List.get_mem _ _ _
        rw [← heq, lookupEdge_some es hs _ hmem]
        rfl
    · rw [lookupEdge_none]
      · rfl
      · intro e he
        obtain ⟨i, hi⟩ := List.mem_iff_getElem?.mp he
        rcases Int.lt_or_le (i : Int) left with hh | hh
        · have := hl i e hi hh
          omega
        · have := hr i e hi (by omega)
          omega

theorem findEdge_spec (n : node) (hs : sortedEdges n.edges) (r : Nat) :
    findEdge n r = .ok (lookupEdge n.edges r) := by
  unfold findEdge
  apply findEdgeLoop_spec n.edges hs r
  · omega
  · omega
  · omega
  · omega
  · intro i e _ hlt; omega
  · intro i e hie hlt
    have := (List.getElem?_eq_some_iff.mp hie).1
    omega

theorem containsRunes_eq_refRun (h : List node) :
    ∀ (rs : List Nat) (p : Nat),
      (∀ q n, Reach h p q → h[q]? = some n → sortedEdges n.edges) →
      containsRunes h p rs = refRun h p rs := by
  intro rs
  induction rs with
  | nil => intro p _; rfl
  | cons r rs ih =>
    intro p hp
    unfold containsRunes refRun
    unfold deref
    cases hg : h[p]? with
    | none => rfl
    | some n =>
      have hsn := hp p n (Reach.refl p) hg
      simp only [bind, Except.bind]
      rw [findEdge_spec n hsn r]
      simp only
      cases hl : lookupEdge n.edges r with
      | none => rfl
      | some e =>
        simp only
        apply ih
        intro q m hq hm
        apply hp q m _ hm
        have hmem : e ∈ n.edges := by
          unfold lookupEdge at hl
          exact List.mem_of_find?_eq_some hl
        exact Reach.step p n e q hg hmem hq

/-! ## The fingerprint -/

theorem itoaAux_digits : ∀ (fuel n : Nat), ∀ d ∈ itoaAux fuel n, isDigit d := by
  intro fuel
  induction fuel with
  | zero => intro n d hd; simp [itoaAux] at hd
  | succ f ih =>
    intro n d hd
    unfold itoaAux at hd
    split_ifs at hd with h
    · simp at hd; subst hd; unfold isDigit; omega
    · rcases List.mem_append.mp hd with h1 | h1
      · exact ih _ d h1
      · simp at h1; subst h1; unfold isDigit; omega

theorem itoaAux_ne_nil : ∀ (fuel n : Nat), itoaAux (fuel + 1) n ≠ [] := by
  intro fuel n
  unfold itoaAux
  split_ifs <;> simp

theorem digitsVal_append (l : GoString) (d : Nat) :
    digitsVal (l ++ [d]) = digitsVal l * 10 + (d - 48) := by
  simp [digitsVal, List.foldl_append]

theorem digitsVal_itoaAux : ∀ (fuel n : Nat), n < fuel → digitsVal (itoaAux fuel n) = n := by
  intro fuel
  induction fuel with
  | zero => intro n h; omega
  | succ f ih =>
    intro n h
    unfold itoaAux
    split_ifs with h1
    · simp [digitsVal]
    · rw [digitsVal_append, ih (n / 10) (by omega)]
      omega

theorem itoa_injective (n m : Nat) (h : itoa n = itoa m) : n = m := by
  have h1 := digitsVal_itoaAux (n + 1) n (by omega)
  have h2 := digitsVal_itoaAux (m + 1) m (by omega)
  unfold itoa at h
  rw [h] at h1
  omega

theorem itoa_digits (n : Nat) : ∀ d ∈ itoa n, isDigit d := itoaAux_digits _ n

theorem itoa_ne_nil (n : Nat) : itoa n ≠ [] := itoaAux_ne_nil _ n

theorem itoa_head (n : Nat) : ∃ d t, itoa n = d :: t ∧ isDigit d := by
  cases h : itoa n with
  | nil => exact absurd h (itoa_ne_nil n)
  | cons d t => exact ⟨d, t, rfl, itoa_digits n d (by rw [h]; exact List.mem_cons_self _ _)⟩

/-- An encoded rune that starts with an ASCII byte is that byte alone. -/
theorem encodeRune_ascii (l b : Nat) (t : GoString) (h : encodeRune l = b :: t) (hb : b < 128) :
    l = b ∧ t = [] := by
  unfold encodeRune at h
  split_ifs at h
  all_goals simp only [List.cons.injEq] at h
  all_goals (obtain ⟨h1, h2⟩ := h; constructor <;> first | omega | exact h2.symm)

theorem shaped_digit (x : GoString) (hx : Shaped x) (z0 : Nat) (t : GoString)
    (h : x = z0 :: t) (hz : isDigit z0) : ∃ d y, t = 124 :: (itoa d ++ y) := by
  rcases hx with hx | ⟨l, d, y, hx⟩
  · rw [hx] at h; cases h
  · cases he : encodeRune l with
    | nil => exact absurd he (encodeRune_ne_nil l)
    | cons b t' =>
      rw [he, h] at hx
      simp only [List.cons_append, List.cons.injEq] at hx
      obtain ⟨hb, ht⟩ := hx
      subst hb
      have := encodeRune_ascii l z0 t' he (by unfold isDigit at hz; omega)
      rw [this.2] at ht
      exact ⟨d, y, by simpa using ht⟩

theorem shaped_bar (x : GoString) (hx : Shaped x) (t : GoString)
    (h : x = 124 :: t) : ∃ y, t = 124 :: y := by
  rcases hx with hx | ⟨l, d, y, hx⟩
  · rw [hx] at h; cases h
  · cases he : encodeRune l with
    | nil => exact absurd he (encodeRune_ne_nil l)
    | cons b t' =>
      rw [he, h] at hx
      simp only [List.cons_append, List.cons.injEq] at hx
      obtain ⟨hb, ht⟩ := hx
      subst hb
      have := encodeRune_ascii l 124 t' he (by omega)
      rw [this.2] at ht
      exact ⟨itoa d ++ y, by simpa using ht⟩

/-- A longer decimal number cannot be read where a shorter one stands. -/
theorem itoa_parse_aux (n m : Nat) (x y z : GoString) (hx : Shaped x) (hy : Shaped y)
    (hz : z ≠ []) (h1 : itoa m = itoa n ++ z) (h2 : x = z ++ y) : False := by
  cases z with
  | nil => exact hz rfl
  | cons z0 z' =>
    have hz0 : isDigit z0 := itoa_digits m z0 (by rw [h1]; simp)
    obtain ⟨d, y0, ht⟩ := shaped_digit x hx z0 (z' ++ y) (by simpa using h2) hz0
    cases z' with
    | cons z1 z'' =>
      have hz1 : isDigit z1 := itoa_digits m z1 (by rw [h1]; simp)
      simp only [List.cons_append, List.cons.injEq] at ht
      unfold isDigit at hz1
      omega
    | nil =>
      simp only [List.nil_append] at ht
      obtain ⟨y1, hy1⟩ := shaped_bar y hy _ ht
      obtain ⟨d0, t0, hd0, hdig⟩ := itoa_head d
      rw [hd0] at hy1
      simp only [List.cons_append, List.cons.injEq] at hy1
      unfold isDigit at hdig
      omega

theorem itoa_parse (n m : Nat) (x y : GoString) (hx : Shaped x) (hy : Shaped y)
    (h : itoa n ++ x = itoa m ++ y) : n = m ∧ x = y := by
  rcases List.append_eq_append_iff.mp h with ⟨z, h1, h2⟩ | ⟨z, h1, h2⟩
  · by_cases hz : z = []
    · subst hz
      simp only [List.append_nil] at h1
      simp only [List.nil_append] at h2
      exact ⟨itoa_injective n m h1.symm, h2⟩
    · exact (itoa_parse_aux n m x y z hx hy hz h1 h2).elim
  · by_cases hz : z = []
    · subst hz
      simp only [List.append_nil] at h1
      simp only [List.nil_append] at h2
      exact ⟨itoa_injective n m h1, h2.symm⟩
    · exact (itoa_parse_aux m n y x z hy hx hz h1 h2).elim

theorem hashBody_foldl (es : List edge) (init : GoString) :
    es.foldl (fun hash e => hash ++ (encodeRune e.letter ++ [124] ++ itoa e.dest)) init
      = init ++ hashBody es := by
  induction es generalizing init with
  | nil => simp [hashBody]
  | cons e es ih =>
    rw [List.foldl_cons, ih]
    simp [hashBody, List.append_assoc]

theorem buildNodeHash_eq (n : node) :
    buildNodeHash n = (if n.final then [33] else []) ++ (itoa n.edges.length ++ hashBody n.edges) := by
  unfold buildNodeHash
  rw [hashBody_foldl, List.append_assoc]

theorem hashBody_shaped (es : List edge) : Shaped (hashBody es) := by
  cases es with
  | nil => exact Or.inl rfl
  | cons e es => exact Or.inr ⟨e.letter, e.dest, hashBody es, rfl⟩

theorem hashBody_injective : ∀ (es es' : List edge),
    (∀ e ∈ es, validRune e.letter) → (∀ e ∈ es', validRune e.letter) →
    hashBody es = hashBody es' → es = es' := by
  intro es
  induction es with
  | nil =>
    intro es' _ _ h
    cases es' with
    | nil => rfl
    | cons e' t' =>
      simp only [hashBody] at h
      have := encodeRune_ne_nil e'.letter
      cases he : encodeRune e'.letter with
      | nil => exact absurd he this
      | cons b t => rw [he] at h; cases h
  | cons e t ih =>
    intro es' hv hv' h
    cases es' with
    | nil =>
      simp only [hashBody] at h
      have := encodeRune_ne_nil e.letter
      cases he : encodeRune e.letter with
      | nil => exact absurd he this
      | cons b t => rw [he] at h; cases h
    | cons e' t' =>
      simp only [hashBody] at h
      have hl : e.letter = e'.letter := by
        have h1 := runes_encodeRune_append e.letter (hv e (List.mem_cons_self _ _))
          ([124] ++ (itoa e.dest ++ hashBody t))
        have h2 := runes_encodeRune_append e'.letter (hv' e' (List.mem_cons_self _ _))
          ([124] ++ (itoa e'.dest ++ hashBody t'))
        rw [h, h2] at h1
        exact (List.cons.inj h1).1.symm
      rw [hl] at h
      have h3 := List.append_cancel_left h
      simp only [List.cons_append, List.nil_append, List.cons.injEq, true_and] at h3
      obtain ⟨hd, hb⟩ := itoa_parse _ _ _ _ (hashBody_shaped t) (hashBody_shaped t') h3
      have := ih t' (fun x hx => hv x (List.mem_cons_of_mem _ hx))
        (fun x hx => hv' x (List.mem_cons_of_mem _ hx)) hb
      rw [this]
      congr 1
      cases e; cases e'
      simp only at hl hd
      rw [hl, hd]

/-- The fingerprint determines the final flag and the edge list of a state whose
letters are Unicode scalar values. -/
theorem buildNodeHash_injective (a b : node)
    (ha : ∀ e ∈ a.edges, validRune e.letter) (hb : ∀ e ∈ b.edges, validRune e.letter)
    (h : buildNodeHash a = buildNodeHash b) : a.final = b.final ∧ a.edges = b.edges := by
  rw [buildNodeHash_eq, buildNodeHash_eq] at h
  obtain ⟨d1, t1, h1, hd1⟩ := itoa_head a.edges.length
  obtain ⟨d2, t2, h2, hd2⟩ := itoa_head b.edges.length
  unfold isDigit at hd1 hd2
  have hf : a.final = b.final := by
    cases hfa : a.final <;> cases hfb : b.final
    · rfl
    · rw [hfa, hfb, h1] at h
      simp at h
      omega
    · rw [hfa, hfb, h2] at h
      simp at h
      omega
    · rfl
  refine ⟨hf, ?_⟩
  rw [hf] at h
  have h3 := List.append_cancel_left h
  obtain ⟨_, hb'⟩ := itoa_parse _ _ _ _ (hashBody_shaped _) (hashBody_shaped _) h3
  exact hashBody_injective _ _ ha hb hb'

theorem buildNodeHash_congr (a b : node) (hf : a.final = b.final) (he : a.edges = b.edges) :
    buildNodeHash a = buildNodeHash b := by
  unfold buildNodeHash
  rw [hf, he]

/-! ## Memory -/

theorem get?_set_eq (h : List node) (i : Nat) (x : node) (hi : i < h.length) :
    (h.set i x)[i]? = some x := by
  simp [List.getElem?_set, hi]

theorem get?_set_ne (h : List node) (i j : Nat) (x : node) (hne : i ≠ j) :
    (h.set i x)[j]? = h[j]? := by
  simp [List.getElem?_set, hne]

theorem get?_lt (h : List node) (i : Nat) (n : node) (hg : h[i]? = some n) : i < h.length :=
  (List.getElem?_eq_some_iff.mp hg).1

theorem deref_ok (h : List node) (p : Nat) (n : node) (hg : h[p]? = some n) :
    deref h p = .ok n := by
  unfold deref; rw [hg]

theorem lastEdge_snoc (n : node) (init : List edge) (e : edge) (h : n.edges = init ++ [e]) :
    lastEdge n = .ok e := by
  unfold lastEdge; rw [h, List.getLast?_concat]

theorem setLastDest_edges (n : node) (init : List edge) (c x q : Nat)
    (h : n.edges = init ++ [⟨c, x⟩]) : (setLastDest n q).edges = init ++ [⟨c, q⟩] := by
  unfold setLastDest
  simp [h, List.getLast?_concat, List.dropLast_concat]

theorem setLastDest_self (n : node) (init : List edge) (c x : Nat)
    (h : n.edges = init ++ [⟨c, x⟩]) : setLastDest n x = n := by
  cases n with
  | mk f r es =>
    simp only at h
    subst h
    simp [setLastDest, List.getLast?_concat, List.dropLast_concat]

theorem setLastDest_final (n : node) (q : Nat) : (setLastDest n q).final = n.final := rfl

theorem setLastDest_registered (n : node) (q : Nat) :
    (setLastDest n q).registered = n.registered := rfl

/-! ## The register -/

theorem mapGet_mem : ∀ (R : List (GoString × Nat)) (k : GoString) (v : Nat),
    mapGet R k = some v → (k, v) ∈ R := by
  intro R
  induction R with
  | nil => intro k v h; simp [mapGet] at h
  | cons kv R ih =>
    intro k v h
    obtain ⟨k1, v1⟩ := kv
    unfold mapGet at h
    split_ifs at h with hk
    · cases h; subst hk; exact List.mem_cons_self _ _
    · exact List.mem_cons_of_mem _ (ih k v h)

theorem mapGet_none_of_mem : ∀ (R : List (GoString × Nat)) (k : GoString) (v : Nat),
    (k, v) ∈ R → mapGet R k ≠ none := by
  intro R
  induction R with
  | nil => intro k v h; cases h
  | cons kv R ih =>
    intro k v h
    obtain ⟨k1, v1⟩ := kv
    unfold mapGet
    split_ifs with hk
    · simp
    · rcases List.mem_cons.mp h with h1 | h1
      · cases h1; exact absurd rfl hk
      · exact ih k v h1

theorem mapSet_of_none (R : List (GoString × Nat)) (k : GoString) (v : Nat)
    (h : mapGet R k = none) : mapSet R k v = (k, v) :: R := by
  unfold mapSet
  congr 1
  rw [List.filter_eq_self]
  intro kv hkv
  obtain ⟨k1, v1⟩ := kv
  simp only [ne_eq, decide_not, Bool.not_eq_true', decide_eq_false_iff_not]
  intro hk
  subst hk
  exact mapGet_none_of_mem R k1 v1 hkv h

theorem regOK_congr (h h1 : List node)
    (hk : ∀ (x : Nat) (nd : node), h[x]? = some nd → nd.registered = true → h1[x]? = some nd) :
    ∀ R, RegOK h R → RegOK h1 R := by
  intro R
  induction R with
  | nil => intro _; trivial
  | cons kv R ih =>
    obtain ⟨k, p⟩ := kv
    intro hr
    obtain ⟨h1', h2, n, hn, hreg, hkey, hleaf, hd⟩ := hr
    exact ⟨ih h1', h2, n, hk p n hn hreg, hreg, hkey, hleaf, hd⟩

theorem regOK_mem (h : List node) : ∀ (R : List (GoString × Nat)) (k : GoString) (p : Nat),
    RegOK h R → (k, p) ∈ R →
    ∃ n, h[p]? = some n ∧ n.registered = true ∧ k = buildNodeHash n ∧
      (n.edges = [] → n.final = true) ∧ ∀ e ∈ n.edges, e.dest ∈ R.map Prod.snd := by
  intro R
  induction R with
  | nil => intro k p _ hm; cases hm
  | cons kv R ih =>
    obtain ⟨k1, p1⟩ := kv
    intro k p hr hm
    obtain ⟨h1', h2, n, hn, hreg, hkey, hleaf, hd⟩ := hr
    rcases List.mem_cons.mp hm with h1 | h1
    · cases h1
      exact ⟨n, hn, hreg, hkey, hleaf, fun e he => List.mem_cons_of_mem _ (hd e he)⟩
    · obtain ⟨n', a1, a2, a3, a4, a5⟩ := ih k p h1' h1
      exact ⟨n', a1, a2, a3, a4, fun e he => List.mem_cons_of_mem _ (a5 e he)⟩

theorem regOK_val (h : List node) (R : List (GoString × Nat)) (p : Nat)
    (hr : RegOK h R) (hm : p ∈ R.map Prod.snd) :
    ∃ n, h[p]? = some n ∧ n.registered = true ∧
      (n.edges = [] → n.final = true) ∧ ∀ e ∈ n.edges, e.dest ∈ R.map Prod.snd := by
  obtain ⟨kv, hkv, hp⟩ := List.mem_map.mp hm
  obtain ⟨k, v⟩ := kv
  simp only at hp
  subst hp
  obtain ⟨n, a1, a2, _, a4, a5⟩ := regOK_mem h R k v hr hkv
  exact ⟨n, a1, a2, a4, a5⟩

theorem good_isReg_dest (h : List node) (R : List (GoString × Nat)) (hg : Good h R)
    (p : Nat) (n : node) (hn : h[p]? = some n) (hr : n.registered = true) :
    ∀ e ∈ n.edges, isReg h e.dest := by
  intro e he
  have hm := hg.regIn p n hn hr
  obtain ⟨n', a1, _, _, a5⟩ := regOK_val h R p hg.regOK hm
  rw [hn] at a1
  cases a1
  obtain ⟨nd, b1, b2, _, _⟩ := regOK_val h R e.dest hg.regOK (a5 e he)
  exact ⟨nd, b1, b2⟩

/-! ## The language of a state -/

theorem lookupEdge_mem (es : List edge) (r : Nat) (e : edge) (h : lookupEdge es r = some e) :
    e ∈ es ∧ e.letter = r := by
  unfold lookupEdge at h
  refine ⟨List.mem_of_find?_eq_some h, ?_⟩
  have := List.find?_some h
  simpa using this

theorem lookupEdge_snoc (init : List edge) (e : edge) (r : Nat) :
    lookupEdge (init ++ [e]) r =
      (lookupEdge init r).or (if e.letter = r then some e else none) := by
  unfold lookupEdge
  rw [List.find?_append]
  congr 1
  by_cases h : e.letter = r <;> simp [h]

theorem sortedEdges_snoc (init : List edge) (e : edge) :
    sortedEdges (init ++ [e]) ↔ sortedEdges init ∧ ∀ x ∈ init, x.letter < e.letter := by
  unfold sortedEdges
  rw [List.pairwise_append]
  simp

theorem acc_of_node (h h1 : List node) (p p1 : Nat) (n n1 : node) (rs : List Nat)
    (hn : h[p]? = some n) (hn1 : h1[p1]? = some n1)
    (hf : n.final = n1.final) (he : n.edges = n1.edges)
    (hrec : ∀ e ∈ n.edges, ∀ rs1, acc h e.dest rs1 = acc h1 e.dest rs1) :
    acc h p rs = acc h1 p1 rs := by
  cases rs with
  | nil => simp only [acc, hn, hn1, hf]
  | cons r rs =>
    simp only [acc, hn, hn1, ← he]
    cases hl : lookupEdge n.edges r with
    | none => rfl
    | some e => exact hrec e (lookupEdge_mem _ _ _ hl).1 rs

theorem acc_none (h : List node) (p : Nat) (rs : List Nat) (hn : h[p]? = none) :
    acc h p rs = false := by
  cases rs <;> simp [acc, hn]

theorem acc_congr_all (h h1 : List node)
    (hs : ∀ x : Nat, (h1[x]?).map (fun n : node => (n.final, n.edges))
      = (h[x]?).map (fun n : node => (n.final, n.edges))) :
    ∀ (rs : List Nat) (x : Nat), acc h1 x rs = acc h x rs := by
  intro rs
  induction rs with
  | nil =>
    intro x
    have := hs x
    cases h1x : h1[x]? <;> cases hx : h[x]? <;> rw [h1x, hx] at this <;>
      simp at this <;> simp [acc, h1x, hx, this]
  | cons r rs ih =>
    intro x
    have := hs x
    cases h1x : h1[x]? <;> cases hx : h[x]? <;> rw [h1x, hx] at this <;>
      simp at this
    · simp [acc, h1x, hx]
    · rename_i n1 n
      simp only [acc, h1x, hx, this.2]
      cases lookupEdge n.edges r with
      | none => rfl
      | some e => exact ih e.dest

theorem acc_redirect (h : List node) (n child q : Nat) (nn cn qn : node) (init : List edge)
    (c : Nat) (hn : h[n]? = some nn) (hne : nn.edges = init ++ [⟨c, child⟩])
    (hc : h[child]? = some cn) (hq : h[q]? = some qn)
    (hf : cn.final = qn.final) (he : cn.edges = qn.edges) :
    ∀ (rs : List Nat) (x : Nat), acc (h.set n (setLastDest nn q)) x rs = acc h x rs := by
  have hlen := get?_lt h n nn hn
  intro rs
  induction rs with
  | nil =>
    intro x
    by_cases hx : n = x
    · subst hx
      simp only [acc, get?_set_eq h n _ hlen, hn, setLastDest_final]
    · simp only [acc, get?_set_ne h n x _ hx]
  | cons r rs ih =>
    intro x
    by_cases hx : n = x
    · subst hx
      simp only [acc, get?_set_eq h n _ hlen, hn, setLastDest_edges nn init c child q hne, hne,
        lookupEdge_snoc]
      cases hl : lookupEdge init r with
      | some e => simp only [Option.or]; exact ih e.dest
      | none =>
        simp only [Option.or]
        by_cases hcr : c = r
        · simp only [hcr, if_true]
          rw [ih q]
          exact acc_of_node h h q child qn cn rs hq hc hf.symm he.symm (fun _ _ _ => rfl)
        · simp only [hcr, if_false]
    · simp only [acc, get?_set_ne h n x _ hx]
      cases h[x]? with
      | none => rfl
      | some nd =>
        simp only
        cases lookupEdge nd.edges r with
        | none => rfl
        | some e => exact ih e.dest

theorem acc_flag (h : List node) (p : Nat) (cn : node) (hc : h[p]? = some cn) :
    ∀ (rs : List Nat) (x : Nat),
      acc (h.set p { cn with registered := true }) x rs = acc h x rs := by
  apply acc_congr_all
  intro x
  by_cases hx : p = x
  · subst hx
    rw [get?_set_eq h p _ (get?_lt h p cn hc), hc]
    rfl
  · rw [get?_set_ne h p x _ hx]

theorem acc_reg_congr (h h2 : List node) (R : List (GoString × Nat)) (hg : Good h R)
    (hk : ∀ (x : Nat) (nd : node), h[x]? = some nd → nd.registered = true → h2[x]? = some nd) :
    ∀ (rs : List Nat) (x : Nat), isReg h x → acc h2 x rs = acc h x rs := by
  intro rs x hx
  obtain ⟨nd, hnd, hr⟩ := hx
  induction rs generalizing x nd with
  | nil => simp only [acc, hnd, hk x nd hnd hr]
  | cons r rs ih =>
    simp only [acc, hnd, hk x nd hnd hr]
    cases hl : lookupEdge nd.edges r with
    | none => rfl
    | some e =>
      simp only
      obtain ⟨nd', h1, h2'⟩ := good_isReg_dest h R hg x nd hnd hr e (lookupEdge_mem _ _ _ hl).1
      exact ih e.dest nd' h1 h2'

/-! ## The two writes of `replaceOrRegister` keep the invariant -/

theorem good_redirect (h : List node) (R : List (GoString × Nat)) (n child q : Nat)
    (nn qn : node) (init : List edge) (c : Nat) (hg : Good h R)
    (hn : h[n]? = some nn) (hnr : nn.registered = false)
    (hne : nn.edges = init ++ [⟨c, child⟩]) (hq : h[q]? = some qn) :
    Good (h.set n (setLastDest nn q)) R := by
  have hlen := get?_lt h n nn hn
  have hed := setLastDest_edges nn init c child q hne
  constructor
  · intro p m hm e he
    rw [List.length_set]
    by_cases hp : n = p
    · subst hp
      rw [get?_set_eq h n _ hlen] at hm
      cases hm
      rw [hed] at he
      rcases List.mem_append.mp he with h1 | h1
      · exact hg.dests n nn hn e (by rw [hne]; exact List.mem_append_left _ h1)
      · simp only [List.mem_singleton] at h1
        subst h1
        exact get?_lt h q qn hq
    · rw [get?_set_ne h n p _ hp] at hm
      exact hg.dests p m hm e he
  · intro p m hm e he
    by_cases hp : n = p
    · subst hp
      rw [get?_set_eq h n _ hlen] at hm
      cases hm
      rw [hed] at he
      rcases List.mem_append.mp he with h1 | h1
      · exact hg.letters n nn hn e (by rw [hne]; exact List.mem_append_left _ h1)
      · simp only [List.mem_singleton] at h1
        subst h1
        exact hg.letters n nn hn ⟨c, child⟩ (by rw [hne]; simp)
    · rw [get?_set_ne h n p _ hp] at hm
      exact hg.letters p m hm e he
  · intro p m hm
    by_cases hp : n = p
    · subst hp
      rw [get?_set_eq h n _ hlen] at hm
      cases hm
      rw [hed]
      have := hg.sorted n nn hn
      rw [hne] at this
      rw [sortedEdges_snoc] at this ⊢
      exact this
    · rw [get?_set_ne h n p _ hp] at hm
      exact hg.sorted p m hm
  · intro p m hm hr
    by_cases hp : n = p
    · subst hp
      rw [get?_set_eq h n _ hlen] at hm
      cases hm
      rw [setLastDest_registered, hnr] at hr
      cases hr
    · rw [get?_set_ne h n p _ hp] at hm
      exact hg.regIn p m hm hr
  · apply regOK_congr h _ _ R hg.regOK
    intro x nd hx hr
    have : n ≠ x := by
      intro hnx
      subst hnx
      rw [hn] at hx
      cases hx
      rw [hnr] at hr
      cases hr
    rw [get?_set_ne h n x _ this]
    exact hx

theorem good_register (h : List node) (R : List (GoString × Nat)) (child : Nat) (cn : node)
    (hg : Good h R) (hc : h[child]? = some cn) (hcr : cn.registered = false)
    (hcd : ∀ e ∈ cn.edges, isReg h e.dest) (hcf : cn.edges = [] → cn.final = true)
    (hnone : mapGet R (buildNodeHash cn) = none) :
    Good (h.set child { cn with registered := true }) ((buildNodeHash cn, child) :: R) := by
  have hlen := get?_lt h child cn hc
  have hkeep : ∀ (x : Nat) (nd : node), h[x]? = some nd → nd.registered = true →
      (h.set child { cn with registered := true })[x]? = some nd := by
    intro x nd hx hr
    have : child ≠ x := by
      intro hnx
      subst hnx
      rw [hc] at hx
      cases hx
      rw [hcr] at hr
      cases hr
    rw [get?_set_ne h child x _ this]
    exact hx
  constructor
  · intro p m hm e he
    rw [List.length_set]
    by_cases hp : child = p
    · subst hp
      rw [get?_set_eq h child _ hlen] at hm
      cases hm
      exact hg.dests child cn hc e he
    · rw [get?_set_ne h child p _ hp] at hm
      exact hg.dests p m hm e he
  · intro p m hm e he
    by_cases hp : child = p
    · subst hp
      rw [get?_set_eq h child _ hlen] at hm
      cases hm
      exact hg.letters child cn hc e he
    · rw [get?_set_ne h child p _ hp] at hm
      exact hg.letters p m hm e he
  · intro p m hm
    by_cases hp : child = p
    · subst hp
      rw [get?_set_eq h child _ hlen] at hm
      cases hm
      exact hg.sorted child cn hc
    · rw [get?_set_ne h child p _ hp] at hm
      exact hg.sorted p m hm
  · intro p m hm hr
    by_cases hp : child = p
    · subst hp
      simp
    · rw [get?_set_ne h child p _ hp] at hm
      simp only [List.map_cons, List.mem_cons]
      exact Or.inr (hg.regIn p m hm hr)
  · refine ⟨regOK_congr h _ hkeep R hg.regOK, hnone, { cn with registered := true },
      get?_set_eq h child _ hlen, rfl, ?_, hcf, ?_⟩
    · exact buildNodeHash_congr _ _ rfl rfl
    · intro e he
      obtain ⟨nd, h1, h2⟩ := hcd e he
      exact hg.regIn e.dest nd h1 h2

/-! ## Sealing one state -/

theorem seal_spec (b1 : dawgBuilder) (n child : Nat) (nn cn : node) (init : List edge) (c : Nat)
    (hg : Good b1.heap b1.register)
    (hn : b1.heap[n]? = some nn) (hnr : nn.registered = false)
    (hne : nn.edges = init ++ [⟨c, child⟩]) (hneq : n ≠ child)
    (hc : b1.heap[child]? = some cn) (hcr : cn.registered = false)
    (hcd : ∀ e ∈ cn.edges, isReg b1.heap e.dest) (hcf : cn.edges = [] → cn.final = true) :
    ∃ b2, sealStep b1 n child = .ok b2 ∧ Pres b1 b2 ∧
      (∀ x : Nat, x ≠ n → x ≠ child → b2.heap[x]? = b1.heap[x]?) ∧
      ∃ q, b2.heap[n]? = some (setLastDest nn q) ∧ isReg b2.heap q := by
  have hlen := get?_lt _ _ _ hn
  have hclen := get?_lt _ _ _ hc
  unfold sealStep
  rw [deref_ok _ _ _ hc]
  simp only [bind, Except.bind]
  cases hf : findRegistered b1 cn with
  | some q =>
    have hmem := mapGet_mem _ _ _ hf
    obtain ⟨qn, hq, hqr, hkey, _, _⟩ := regOK_mem _ _ _ _ hg.regOK hmem
    obtain ⟨e1, e2⟩ :=
      buildNodeHash_injective cn qn (hg.letters child cn hc) (hg.letters q qn hq) hkey
    have hnq : n ≠ q := by
      intro hnq
      subst hnq
      rw [hn] at hq
      cases hq
      rw [hnr] at hqr
      cases hqr
    simp only [deref_ok _ _ _ hn, lastEdge_snoc nn init _ hne, pure, Except.pure]
    refine ⟨_, rfl, ?_, ?_, q, ?_, ?_⟩
    · refine ⟨rfl, rfl, ?_, ?_, ?_, ?_, ⟨[], rfl⟩⟩
      · simp
      · exact good_redirect _ _ n child q nn qn init c hg hn hnr hne hq
      · intro x nd hx hr
        have : n ≠ x := by
          intro hnx
          subst hnx
          rw [hn] at hx
          cases hx
          rw [hnr] at hr
          cases hr
        simp only
        rw [get?_set_ne _ n x _ this]
        exact hx
      · intro x rs
        exact acc_redirect _ n child q nn cn qn init c hn hne hc hq e1 e2 rs x
    · intro x hx _
      simp only
      rw [get?_set_ne _ n x _ (Ne.symm hx)]
    · simp only
      rw [get?_set_eq _ n _ hlen]
    · refine ⟨qn, ?_, hqr⟩
      simp only
      rw [get?_set_ne _ n q _ hnq]
      exact hq
  | none =>
    simp only [pure, Except.pure, addToRegister]
    unfold findRegistered at hf
    rw [mapSet_of_none _ _ _ hf]
    refine ⟨_, rfl, ?_, ?_, child, ?_, ?_⟩
    · refine ⟨rfl, rfl, ?_, ?_, ?_, ?_, ⟨[(buildNodeHash cn, child)], rfl⟩⟩
      · simp
      · exact good_register _ _ child cn hg hc hcr hcd hcf hf
      · intro x nd hx hr
        have : child ≠ x := by
          intro hnx
          subst hnx
          rw [hc] at hx
          cases hx
          rw [hcr] at hr
          cases hr
        simp only
        rw [get?_set_ne _ child x _ this]
        exact hx
      · intro x rs
        exact acc_flag _ child cn hc rs x
    · intro x _ hx
      simp only
      rw [get?_set_ne _ child x _ (Ne.symm hx)]
    · simp only
      rw [get?_set_ne _ child n _ (Ne.symm hneq), setLastDest_self nn init c child hne]
      exact hn
    · refine ⟨{ cn with registered := true }, ?_, rfl⟩
      simp only
      rw [get?_set_eq _ child _ hclen]

theorem pres_trans (b b1 b2 : dawgBuilder) (h1 : Pres b b1) (h2 : Pres b1 b2) : Pres b b2 := by
  refine ⟨h2.root.trans h1.root, h2.lastWord.trans h1.lastWord, h2.len.trans h1.len, h2.good,
    ?_, ?_, ?_⟩
  · intro x nd hx hr
    exact h2.regKeep x nd (h1.regKeep x nd hx hr) hr
  · intro x rs
    rw [h2.accEq, h1.accEq]
  · obtain ⟨e1, he1⟩ := h1.regExt
    obtain ⟨e2, he2⟩ := h2.regExt
    exact ⟨e2 ++ e1, by rw [he2, he1, List.append_assoc]⟩

theorem pres_refl (b : dawgBuilder) (hg : Good b.heap b.register) : Pres b b :=
  ⟨rfl, rfl, rfl, hg, fun _ _ hx _ => hx, fun _ _ => rfl, ⟨[], rfl⟩⟩

theorem isReg_keep (b b1 : dawgBuilder) (hp : Pres b b1) (x : Nat) (hx : isReg b.heap x) :
    isReg b1.heap x := by
  obtain ⟨nd, h1, h2⟩ := hx
  exact ⟨nd, hp.regKeep x nd h1 h2, h2⟩

/-! ## The recursion of `replaceOrRegister` -/

theorem replaceOrRegister_succ (fuel : Nat) (b : dawgBuilder) (n : Nat) :
    replaceOrRegister (fuel + 1) b n = (do
      let nn ← deref b.heap n
      let e ← lastEdge nn
      let c ← deref b.heap e.dest
      if !c.registered then do
        let b1 ← (if c.edges.length > 0 then replaceOrRegister fuel b e.dest else pure b)
        sealStep b1 n e.dest
      else pure b) := by
  rfl

theorem spine_bound (h : List node) : ∀ (cs : List Nat) (p q : Nat),
    Spine h p cs q → p + cs.length ≤ q := by
  intro cs
  induction cs with
  | nil => intro p q hs; simp only [Spine] at hs; subst hs; simp
  | cons c cs ih =>
    intro p q hs
    obtain ⟨n, init, nx, _, _, _, _, hlt, hs'⟩ := hs
    have := ih nx q hs'
    simp only [List.length_cons]
    omega

theorem ror_spec : ∀ (cs : List Nat) (fuel : Nat) (b : dawgBuilder) (n c q : Nat),
    Good b.heap b.register → Spine b.heap n (c :: cs) q →
    b.heap[q]? = some ⟨true, false, []⟩ → cs.length < fuel →
    ∃ b2, replaceOrRegister fuel b n = .ok b2 ∧ Pres b b2 ∧
      (∀ x : Nat, x < n → b2.heap[x]? = b.heap[x]?) ∧
      ∃ nn q1, b.heap[n]? = some nn ∧ b2.heap[n]? = some (setLastDest nn q1) ∧
        isReg b2.heap q1 := by
  intro cs
  induction cs with
  | nil =>
    intro fuel b n c q hg hs hq hfuel
    obtain ⟨nn, init, nx, hn, hnr, hne, hinit, hlt, hs'⟩ := hs
    simp only [Spine] at hs'
    subst hs'
    cases fuel with
    | zero => simp at hfuel
    | succ fuel =>
      rw [replaceOrRegister_succ]
      simp only [deref_ok _ _ _ hn, lastEdge_snoc nn init _ hne, deref_ok _ _ _ hq, bind,
        Except.bind, Bool.not_false, if_true, List.length_nil, gt_iff_lt, Nat.lt_irrefl,
        if_false, pure, Except.pure]
      obtain ⟨b2, h1, h2, h3, q1, h4, h5⟩ :=
        seal_spec b n nx nn ⟨true, false, []⟩ init c hg hn hnr hne (by omega) hq rfl
          (by intro e he; cases he) (fun _ => rfl)
      refine ⟨b2, h1, h2, ?_, nn, q1, hn, h4, h5⟩
      intro x hx
      exact h3 x (by omega) (by omega)
  | cons c1 cs ih =>
    intro fuel b n c q hg hs hq hfuel
    obtain ⟨nn, init, nx, hn, hnr, hne, hinit, hlt, hs'⟩ := hs
    have hs'' := hs'
    obtain ⟨cn, cinit, cnx, hcn, hcnr, hcne, hcinit, hclt, _⟩ := hs''
    cases fuel with
    | zero => simp at hfuel
    | succ fuel =>
      rw [replaceOrRegister_succ]
      have hpos : cn.edges.length > 0 := by rw [hcne]; simp
      simp only [deref_ok _ _ _ hn, lastEdge_snoc nn init _ hne, deref_ok _ _ _ hcn, bind,
        Except.bind, hcnr, Bool.not_false, if_true, hpos]
      obtain ⟨b1, r1, p1, k1, cn', q1, hcn', hb1, hq1⟩ :=
        ih fuel b nx c1 q hg hs' hq (by simp at hfuel; omega)
      rw [hcn] at hcn'
      cases hcn'
      rw [r1]
      simp only
      have hn1 : b1.heap[n]? = some nn := by rw [k1 n hlt]; exact hn
      have hcd : ∀ e ∈ (setLastDest cn q1).edges, isReg b1.heap e.dest := by
        intro e he
        rw [setLastDest_edges cn cinit c1 cnx q1 hcne] at he
        rcases List.mem_append.mp he with h1 | h1
        · exact isReg_keep b b1 p1 _ (hcinit e h1)
        · simp only [List.mem_singleton] at h1
          subst h1
          exact hq1
      have hcf : (setLastDest cn q1).edges = [] → (setLastDest cn q1).final = true := by
        intro he
        rw [setLastDest_edges cn cinit c1 cnx q1 hcne] at he
        simp at he
      obtain ⟨b2, h1, h2, h3, q2, h4, h5⟩ :=
        seal_spec b1 n nx nn (setLastDest cn q1) init c p1.good hn1 hnr hne (by omega) hb1
          (by rw [setLastDest_registered]; exact hcnr) hcd hcf
      refine ⟨b2, h1, pres_trans b b1 b2 p1 h2, ?_, nn, q2, hn, h4, h5⟩
      intro x hx
      rw [h3 x (by omega) (by omega), k1 x (by omega)]

/-! ## The right-most path -/

theorem spine_append (h : List node) : ∀ (a b : List Nat) (p q : Nat),
    Spine h p (a ++ b) q ↔ ∃ m, Spine h p a m ∧ Spine h m b q := by
  intro a
  induction a with
  | nil =>
    intro b p q
    simp only [List.nil_append, Spine]
    constructor
    · intro hs; exact ⟨p, rfl, hs⟩
    · rintro ⟨m, rfl, hs⟩; exact hs
  | cons c a ih =>
    intro b p q
    simp only [List.cons_append, Spine]
    constructor
    · rintro ⟨n, init, nx, h1, h2, h3, h4, h5, h6⟩
      obtain ⟨m, h7, h8⟩ := (ih b nx q).mp h6
      exact ⟨m, ⟨n, init, nx, h1, h2, h3, h4, h5, h7⟩, h8⟩
    · rintro ⟨m, ⟨n, init, nx, h1, h2, h3, h4, h5, h7⟩, h8⟩
      exact ⟨n, init, nx, h1, h2, h3, h4, h5, (ih b nx q).mpr ⟨m, h7, h8⟩⟩

theorem walk_spine (h : List node) : ∀ (cs : List Nat) (p q : Nat),
    Spine h p cs q → walkLast h p cs.length = .ok q := by
  intro cs
  induction cs with
  | nil => intro p q hs; simp only [Spine] at hs; subst hs; rfl
  | cons c cs ih =>
    intro p q hs
    obtain ⟨n, init, nx, h1, _, h3, _, _, h6⟩ := hs
    simp only [List.length_cons, walkLast, deref_ok _ _ _ h1, lastEdge_snoc n init _ h3, bind,
      Except.bind]
    exact ih nx q h6

theorem spine_congr (h h1 : List node) : ∀ (cs : List Nat) (p q : Nat),
    Spine h p cs q → (∀ x : Nat, x < q → h1[x]? = h[x]?) → (∀ x, isReg h x → isReg h1 x) →
    Spine h1 p cs q := by
  intro cs
  induction cs with
  | nil => intro p q hs _ _; exact hs
  | cons c cs ih =>
    intro p q hs hk hr
    obtain ⟨n, init, nx, h1', h2, h3, h4, h5, h6⟩ := hs
    have hb := spine_bound h cs nx q h6
    refine ⟨n, init, nx, ?_, h2, h3, fun e he => hr _ (h4 e he), h5, ih nx q h6 hk hr⟩
    rw [hk p (by omega)]
    exact h1'

/-! ## Appending a suffix -/

theorem addSuffix_spec : ∀ (sfx : List Nat) (h : List node) (n : Nat) (nn : node),
    h[n]? = some nn →
    ∃ h2, addSuffix h n sfx = .ok h2 ∧ h2.length = h.length + sfx.length ∧
      (∀ x : Nat, x < h.length → x ≠ n → h2[x]? = h[x]?) ∧
      (sfx = [] → h2[n]? = some { nn with final := true }) ∧
      (∀ s ss, sfx = s :: ss →
        h2[n]? = some { nn with edges := nn.edges ++ [⟨s, h.length⟩] } ∧
          Chain h2 h.length ss) := by
  intro sfx
  induction sfx with
  | nil =>
    intro h n nn hn
    have hlen := get?_lt h n nn hn
    refine ⟨h.set n { nn with final := true }, ?_, by simp, ?_, ?_, ?_⟩
    · simp only [addSuffix, deref_ok _ _ _ hn, bind, Except.bind, pure, Except.pure]
    · intro x _ hx
      rw [get?_set_ne h n x _ (Ne.symm hx)]
    · intro _
      rw [get?_set_eq h n _ hlen]
    · intro s ss hc; cases hc
  | cons s ss ih =>
    intro h n nn hn
    have hlen := get?_lt h n nn hn
    have hn1 : (h ++ [(⟨false, false, []⟩ : node)])[n]? = some nn := by
      rw [List.getElem?_append_left hlen]; exact hn
    have hlen1 : n < (h ++ [(⟨false, false, []⟩ : node)]).length := by simp; omega
    have hm : ((h ++ [(⟨false, false, []⟩ : node)]).set n
        { nn with edges := nn.edges ++ [⟨s, h.length⟩] })[h.length]? = some ⟨false, false, []⟩ := by
      rw [get?_set_ne _ n h.length _ (by omega)]
      exact List.getElem?_concat_length h _
    obtain ⟨h2, a1, a2, a3, a4, a5⟩ := ih _ h.length ⟨false, false, []⟩ hm
    refine ⟨h2, ?_, ?_, ?_, ?_, ?_⟩
    · simp only [addSuffix, deref_ok _ _ _ hn, bind, Except.bind]
      exact a1
    · rw [a2]; simp; omega
    · intro x hx hxn
      rw [a3 x (by simp; omega) (by omega), get?_set_ne _ n x _ (Ne.symm hxn),
        List.getElem?_append_left hx]
    · intro hc; cases hc
    · intro s' ss' hc
      cases hc
      constructor
      · rw [a3 n (by simp; omega) (by omega), get?_set_eq _ n _ hlen1]
      · cases ss with
        | nil => exact a4 rfl
        | cons s1 ss1 =>
          obtain ⟨b1, b2⟩ := a5 s1 ss1 rfl
          refine ⟨?_, ?_⟩
          · rw [b1]
            simp
          · simpa using b2

theorem chain_acc (h : List node) : ∀ (ss : List Nat) (m : Nat), Chain h m ss →
    ∀ rs, acc h m rs = decide (rs = ss) := by
  intro ss
  induction ss with
  | nil =>
    intro m hc rs
    simp only [Chain] at hc
    cases rs with
    | nil => simp [acc, hc]
    | cons r rs => simp [acc, hc, lookupEdge]
  | cons s ss ih =>
    intro m hc rs
    obtain ⟨h1, h2⟩ := hc
    cases rs with
    | nil => simp [acc, h1]
    | cons r rs =>
      simp only [acc, h1, lookupEdge, List.find?_cons, List.find?_nil]
      by_cases hsr : s = r
      · subst hsr
        simp only [decide_True, ih (m + 1) h2 rs]
        simp
      · simp [hsr]
        intro hh; exact absurd hh.symm hsr

theorem chain_spine (h : List node) : ∀ (ss : List Nat) (m : Nat), Chain h m ss →
    Spine h m ss (m + ss.length) ∧ h[m + ss.length]? = some ⟨true, false, []⟩ := by
  intro ss
  induction ss with
  | nil => intro m hc; exact ⟨rfl, hc⟩
  | cons s ss ih =>
    intro m hc
    obtain ⟨h1, h2⟩ := hc
    obtain ⟨a1, a2⟩ := ih (m + 1) h2
    have e : m + (s :: ss).length = m + 1 + ss.length := by simp; omega
    rw [e]
    refine ⟨⟨_, [], m + 1, h1, rfl, rfl, ?_, by omega, a1⟩, a2⟩
    intro e he; cases he

theorem chain_node (h : List node) : ∀ (ss : List Nat) (m : Nat), Chain h m ss →
    ∀ (x : Nat) (nd : node), h[x]? = some nd → m ≤ x → x ≤ m + ss.length →
      nd.registered = false ∧
        (nd.edges = [] ∨ ∃ s ∈ ss, nd.edges = [⟨s, x + 1⟩] ∧ x + 1 ≤ m + ss.length) := by
  intro ss
  induction ss with
  | nil =>
    intro m hc x nd hx h1 h2
    simp only [Chain] at hc
    have : x = m := by simp at h2; omega
    subst this
    rw [hc] at hx
    cases hx
    exact ⟨rfl, Or.inl rfl⟩
  | cons s ss ih =>
    intro m hc x nd hx h1 h2
    obtain ⟨c1, c2⟩ := hc
    by_cases hxm : x = m
    · subst hxm
      rw [c1] at hx
      cases hx
      exact ⟨rfl, Or.inr ⟨s, List.mem_cons_self _ _, rfl, by simp⟩⟩
    · obtain ⟨a1, a2⟩ := ih (m + 1) c2 x nd hx (by omega) (by simp at h2; omega)
      refine ⟨a1, ?_⟩
      rcases a2 with a2 | ⟨s', hs', a3, a4⟩
      · exact Or.inl a2
      · exact Or.inr ⟨s', List.mem_cons_of_mem _ hs', a3, by simp; omega⟩

/-! ## The language after a suffix has been appended -/

theorem acc_extend (h1 h2 : List node) (R : List (GoString × Nat)) (hg : Good h1 R)
    (fj : Nat) (nf : node) (c : Nat) (rest : List Nat) (m : Nat)
    (hk : ∀ (x : Nat) (nd : node), h1[x]? = some nd → x ≠ fj → h2[x]? = some nd)
    (hf1 : h1[fj]? = some nf) (hfr : nf.registered = false)
    (hf2 : h2[fj]? = some { nf with edges := nf.edges ++ [⟨c, m⟩] })
    (hfd : ∀ e ∈ nf.edges, isReg h1 e.dest) (hfl : ∀ e ∈ nf.edges, e.letter < c)
    (hch : ∀ rs, acc h2 m rs = decide (rs = rest)) :
    ∀ (cs : List Nat) (p : Nat), Spine h1 p cs fj →
      ∀ rs, acc h2 p rs = (acc h1 p rs || decide (rs = cs ++ c :: rest)) := by
  have hreg : ∀ (rs : List Nat) (x : Nat), isReg h1 x → acc h2 x rs = acc h1 x rs := by
    apply acc_reg_congr h1 h2 R hg
    intro x nd hx hr
    apply hk x nd hx
    intro hxf
    subst hxf
    rw [hf1] at hx
    cases hx
    rw [hfr] at hr
    cases hr
  intro cs
  induction cs with
  | nil =>
    intro p hs rs
    simp only [Spine] at hs
    subst hs
    cases rs with
    | nil => simp [acc, hf1, hf2]
    | cons r rs =>
      simp only [acc, hf1, hf2, lookupEdge_snoc, List.nil_append]
      cases hl : lookupEdge nf.edges r with
      | some e =>
        obtain ⟨he, hel⟩ := lookupEdge_mem _ _ _ hl
        simp only [Option.or]
        rw [hreg rs e.dest (hfd e he)]
        have := hfl e he
        have hne : ¬ (r :: rs = c :: rest) := by
          intro hh
          have := (List.cons.inj hh).1
          omega
        simp [hne]
      | none =>
        simp only [Option.or]
        by_cases hcr : c = r
        · subst hcr
          simp [hch]
        · have hne : ¬ (r :: rs = c :: rest) := by
            intro hh
            exact hcr (List.cons.inj hh).1.symm
          simp [hcr, hne]
  | cons c1 cs ih =>
    intro p hs rs
    obtain ⟨n, init, nx, a1, a2, a3, a4, a5, a6⟩ := hs
    have hb := spine_bound h1 cs nx fj a6
    have hp2 : h2[p]? = some n := hk p n a1 (by omega)
    have hsorted := hg.sorted p n a1
    rw [a3, sortedEdges_snoc] at hsorted
    cases rs with
    | nil => simp [acc, a1, hp2]
    | cons r rs =>
      simp only [acc, a1, hp2, a3, lookupEdge_snoc, List.cons_append]
      cases hl : lookupEdge init r with
      | some e =>
        obtain ⟨he, hel⟩ := lookupEdge_mem _ _ _ hl
        simp only [Option.or]
        rw [hreg rs e.dest (a4 e he)]
        have := hsorted.2 e he
        simp only at this
        have hne : ¬ (r :: rs = c1 :: (cs ++ c :: rest)) := by
          intro hh
          have := (List.cons.inj hh).1
          omega
        simp [hne]
      | none =>
        simp only [Option.or]
        by_cases hcr : c1 = r
        · subst hcr
          simp [ih nx a6 rs]
        · have hne : ¬ (r :: rs = c1 :: (cs ++ c :: rest)) := by
            intro hh
            exact hcr (List.cons.inj hh).1.symm
          simp [hcr, hne]

/-! ## Closing the path below the state where the new word branches off -/

theorem add_close (b : dawgBuilder) (fj q c : Nat) (tail : List Nat) (ls : node)
    (hg : Good b.heap b.register) (hs : Spine b.heap fj tail q)
    (f : Bool) (hq : b.heap[q]? = some ⟨f, false, []⟩) (hf : tail ≠ [] → f = true)
    (hls : b.heap[fj]? = some ls)
    (ht : tail = [] ∨ ∃ d t, tail = d :: t ∧ d < c) :
    ∃ b1 nf, (if ls.edges.length > 0 then replaceOrRegister (b.heap.length + 1) b fj
        else pure b) = .ok b1 ∧ Pres b b1 ∧
      (∀ x : Nat, x < fj → b1.heap[x]? = b.heap[x]?) ∧
      b1.heap[fj]? = some nf ∧ nf.registered = false ∧
      (∀ e ∈ nf.edges, isReg b1.heap e.dest) ∧ (∀ e ∈ nf.edges, e.letter < c) := by
  rcases ht with ht | ⟨d, t, ht, hdc⟩
  · subst ht
    simp only [Spine] at hs
    subst hs
    rw [hq] at hls
    cases hls
    refine ⟨b, _, ?_, pres_refl b hg, fun _ _ => rfl, hq, rfl, ?_, ?_⟩
    · simp [pure, Except.pure]
    · intro e he; cases he
    · intro e he; cases he
  · subst ht
    have hq' : b.heap[q]? = some ⟨true, false, []⟩ := by
      rw [hq, hf (by simp)]
    have hb := spine_bound b.heap _ fj q hs
    have hql := get?_lt _ _ _ hq
    obtain ⟨b1, r1, p1, k1, nn, q1, hnn, hb1, hq1⟩ :=
      ror_spec t (b.heap.length + 1) b fj d q hg hs hq' (by simp at hb; omega)
    rw [hls] at hnn
    cases hnn
    obtain ⟨n, init, nx, a1, a2, a3, a4, a5, a6⟩ := hs
    rw [hls] at a1
    cases a1
    have hpos : ls.edges.length > 0 := by rw [a3]; simp
    have hsorted := hg.sorted fj ls hls
    rw [a3, sortedEdges_snoc] at hsorted
    refine ⟨b1, setLastDest ls q1, ?_, p1, k1, hb1, ?_, ?_, ?_⟩
    · rw [if_pos hpos]; exact r1
    · rw [setLastDest_registered]; exact a2
    · intro e he
      rw [setLastDest_edges ls init d nx q1 a3] at he
      rcases List.mem_append.mp he with h1 | h1
      · exact isReg_keep b b1 p1 _ (a4 e h1)
      · simp only [List.mem_singleton] at h1
        subst h1
        exact hq1
    · intro e he
      rw [setLastDest_edges ls init d nx q1 a3] at he
      rcases List.mem_append.mp he with h1 | h1
      · have := hsorted.2 e h1
        simp only at this
        omega
      · simp only [List.mem_singleton] at h1
        subst h1
        exact hdc

/-! ## `add` keeps the invariant -/

theorem extend_cases (h1 h2 : List node) (fj : Nat) (nf : node) (c : Nat) (rest : List Nat)
    (hlen : h2.length = h1.length + (rest.length + 1))
    (hk : ∀ x : Nat, x < h1.length → x ≠ fj → h2[x]? = h1[x]?)
    (hf2 : h2[fj]? = some { nf with edges := nf.edges ++ [⟨c, h1.length⟩] })
    (hch : Chain h2 h1.length rest) (x : Nat) (nd : node) (hx : h2[x]? = some nd) :
    (x = fj ∧ nd = { nf with edges := nf.edges ++ [⟨c, h1.length⟩] }) ∨
    (x ≠ fj ∧ h1[x]? = some nd) ∨
    (h1.length ≤ x ∧ nd.registered = false ∧
      (nd.edges = [] ∨ ∃ s ∈ rest, nd.edges = [⟨s, x + 1⟩] ∧ x + 1 ≤ h1.length + rest.length)) := by
  by_cases hxf : x = fj
  · subst hxf
    rw [hf2] at hx
    cases hx
    exact Or.inl ⟨rfl, rfl⟩
  · by_cases hxl : x < h1.length
    · rw [hk x hxl hxf] at hx
      exact Or.inr (Or.inl ⟨hxf, hx⟩)
    · have hx2 := get?_lt _ _ _ hx
      obtain ⟨a1, a2⟩ := chain_node h2 rest h1.length hch x nd hx (by omega) (by omega)
      exact Or.inr (Or.inr ⟨by omega, a1, a2⟩)

theorem extend_good (h1 h2 : List node) (R : List (GoString × Nat)) (hg : Good h1 R)
    (fj : Nat) (nf : node) (c : Nat) (rest : List Nat)
    (hlen : h2.length = h1.length + (rest.length + 1))
    (hk : ∀ x : Nat, x < h1.length → x ≠ fj → h2[x]? = h1[x]?)
    (hf1 : h1[fj]? = some nf) (hfr : nf.registered = false)
    (hf2 : h2[fj]? = some { nf with edges := nf.edges ++ [⟨c, h1.length⟩] })
    (hfl : ∀ e ∈ nf.edges, e.letter < c) (hv : ∀ r ∈ c :: rest, validRune r)
    (hch : Chain h2 h1.length rest) : Good h2 R := by
  have hcases := extend_cases h1 h2 fj nf c rest hlen hk hf2 hch
  constructor
  · intro p n hn e he
    rcases hcases p n hn with ⟨_, h2'⟩ | ⟨_, h2'⟩ | ⟨h2', _, h3⟩
    · subst h2'
      simp only [List.mem_append, List.mem_singleton] at he
      rcases he with h4 | h4
      · have := hg.dests fj nf hf1 e h4
        omega
      · subst h4
        simp only
        omega
    · have := hg.dests p n h2' e he
      omega
    · rcases h3 with h3 | ⟨s, _, h3, h4⟩
      · rw [h3] at he; cases he
      · rw [h3] at he
        simp only [List.mem_singleton] at he
        subst he
        simp only
        omega
  · intro p n hn e he
    rcases hcases p n hn with ⟨_, h2'⟩ | ⟨_, h2'⟩ | ⟨h2', _, h3⟩
    · subst h2'
      simp only [List.mem_append, List.mem_singleton] at he
      rcases he with h4 | h4
      · exact hg.letters fj nf hf1 e h4
      · subst h4
        exact hv c (List.mem_cons_self _ _)
    · exact hg.letters p n h2' e he
    · rcases h3 with h3 | ⟨s, hs, h3, h4⟩
      · rw [h3] at he; cases he
      · rw [h3] at he
        simp only [List.mem_singleton] at he
        subst he
        exact hv s (List.mem_cons_of_mem _ hs)
  · intro p n hn
    rcases hcases p n hn with ⟨_, h2'⟩ | ⟨_, h2'⟩ | ⟨h2', _, h3⟩
    · subst h2'
      simp only
      rw [sortedEdges_snoc]
      exact ⟨hg.sorted fj nf hf1, hfl⟩
    · exact hg.sorted p n h2'
    · rcases h3 with h3 | ⟨s, hs, h3, h4⟩
      · rw [h3]; exact List.Pairwise.nil
      · rw [h3]; exact List.pairwise_singleton _ _
  · intro p n hn hr
    rcases hcases p n hn with ⟨_, h2'⟩ | ⟨_, h2'⟩ | ⟨h2', h3, _⟩
    · subst h2'
      simp only at hr
      rw [hfr] at hr
      cases hr
    · exact hg.regIn p n h2' hr
    · rw [h3] at hr
      cases hr
  · apply regOK_congr h1 h2 _ R hg.regOK
    intro x nd hx hr
    have hxl := get?_lt _ _ _ hx
    have : x ≠ fj := by
      intro hxf
      subst hxf
      rw [hf1] at hx
      cases hx
      rw [hfr] at hr
      cases hr
    rw [hk x hxl this]
    exact hx

theorem add_inv (b : dawgBuilder) (W : List (List Nat)) (w : GoString) (hI : Inv b W)
    (hv : validUTF8 w) (hlt : strLt b.lastWord w = true) :
    ∃ b2, add b w = .ok b2 ∧ Inv b2 (runes w :: W) ∧ b2.root = b.root ∧
      (∀ (x : Nat) (nd : node), b.heap[x]? = some nd → nd.registered = true →
        b2.heap[x]? = some nd) ∧
      (∃ ext, b2.register = ext ++ b.register) := by
  have hne : ¬ (w = b.lastWord) := by
    intro hh
    rw [hh, strLt_irrefl] at hlt
    cases hlt
  obtain ⟨p, c, rest, tail, e1, e2, e3, e4, e5⟩ := add_strings b.lastWord w hI.validLast hv hlt
  obtain ⟨q, hsp, hq⟩ := hI.spine
  rw [e2] at hsp hq
  obtain ⟨fj, hs1, hs2⟩ := (spine_append b.heap p tail b.root q).mp hsp
  have hfl : fj < b.heap.length := by
    have := spine_bound b.heap tail fj q hs2
    have := get?_lt _ _ _ hq
    omega
  obtain ⟨ls, hls⟩ : ∃ ls, b.heap[fj]? = some ls :=
    ⟨b.heap[fj], List.getElem?_eq_getElem hfl⟩
  have hqf : tail ≠ [] → decide (p ++ tail ≠ []) = true := by
    intro ht
    simp [ht]
  obtain ⟨b1, nf, r1, p1, k1, hnf, hnfr, hnfd, hnfl⟩ :=
    add_close b fj q c tail ls hI.good hs2 _ hq hqf hls e3
  obtain ⟨h2, a1, a2, a3, _, a5⟩ := addSuffix_spec (c :: rest) b1.heap fj nf hnf
  obtain ⟨a5, a6⟩ := a5 c rest rfl
  have hval : ∀ r ∈ c :: rest, validRune r := by
    intro r hr
    apply validRune_runes w
    rw [e1]
    exact List.mem_append_right _ hr
  have hkeep1 : ∀ (x : Nat) (nd : node), b1.heap[x]? = some nd → x ≠ fj → h2[x]? = some nd := by
    intro x nd hx hxf
    rw [a3 x (get?_lt _ _ _ hx) hxf]
    exact hx
  have hregkeep1 : ∀ (x : Nat) (nd : node), b1.heap[x]? = some nd → nd.registered = true →
      h2[x]? = some nd := by
    intro x nd hx hr
    apply hkeep1 x nd hx
    intro hxf
    subst hxf
    rw [hnf] at hx
    cases hx
    rw [hnfr] at hr
    cases hr
  have hreg2 : ∀ x, isReg b1.heap x → isReg h2 x := by
    rintro x ⟨nd, hx, hr⟩
    exact ⟨nd, hregkeep1 x nd hx hr, hr⟩
  have hs1' : Spine b1.heap b.root p fj :=
    spine_congr b.heap b1.heap p b.root fj hs1 k1 (isReg_keep b b1 p1)
  have hs1'' : Spine h2 b.root p fj := by
    apply spine_congr b1.heap h2 p b.root fj hs1'
    · intro x hx
      rw [p1.len] at a3
      rw [a3 x (by omega) (by omega)]
    · exact hreg2
  obtain ⟨c1, c2⟩ := chain_spine h2 rest b1.heap.length a6
  refine ⟨{ b1 with heap := h2, lastWord := w }, ?_, ?_, p1.root, ?_, p1.regExt⟩
  · unfold add
    rw [if_neg hne]
    simp only [hlt, Bool.not_true, Bool.false_eq_true, if_false, e4, e5]
    have := walk_spine b.heap p b.root fj hs1
    simp only [bind, Except.bind, this, deref_ok _ _ _ hls, pure, Except.pure]
    simp only [pure, Except.pure] at r1
    rw [r1]
    simp only [a1]
  · constructor
    · simp only
      exact extend_good b1.heap h2 b1.register p1.good fj nf c rest
        (by rw [a2]; simp) a3 hnf hnfr a5 hnfl hval a6
    · exact hv
    · simp only
      rw [e1, p1.root]
      refine ⟨b1.heap.length + rest.length, ?_, ?_⟩
      · rw [spine_append]
        refine ⟨fj, hs1'', _, nf.edges, b1.heap.length, a5, hnfr, rfl, ?_, ?_, c1⟩
        · intro e he
          exact hreg2 _ (hnfd e he)
        · rw [p1.len]; exact hfl
      · rw [c2]
        simp
    · intro rs
      simp only
      rw [p1.root]
      rw [acc_extend b1.heap h2 b1.register p1.good fj nf c rest b1.heap.length hkeep1 hnf hnfr
        a5 hnfd hnfl (chain_acc h2 rest _ a6) p b.root hs1' rs]
      rw [p1.accEq, e1]
      simp only [Bool.or_eq_true, decide_eq_true_eq, List.mem_cons]
      rw [hI.lang]
      tauto
    · intro _
      exact List.mem_cons_self _ _
    · intro _
      simp only
      rw [e1]
      simp
  · intro x nd hx hr
    exact hregkeep1 x nd (p1.regKeep x nd hx hr) hr

/-! ## A whole run -/

theorem inv_new : Inv newDawgBuilder [] := by
  refine ⟨⟨?_, ?_, ?_, ?_, trivial⟩, by decide, ⟨0, rfl, rfl⟩, ?_, ?_, ?_⟩
  · intro p n hn e he
    cases p with
    | zero => simp [newDawgBuilder] at hn; subst hn; cases he
    | succ p => simp [newDawgBuilder] at hn
  · intro p n hn e he
    cases p with
    | zero => simp [newDawgBuilder] at hn; subst hn; cases he
    | succ p => simp [newDawgBuilder] at hn
  · intro p n hn
    cases p with
    | zero => simp [newDawgBuilder] at hn; subst hn; exact List.Pairwise.nil
    | succ p => simp [newDawgBuilder] at hn
  · intro p n hn hr
    cases p with
    | zero => simp [newDawgBuilder] at hn; subst hn; cases hr
    | succ p => simp [newDawgBuilder] at hn
  · intro rs
    cases rs <;> simp [acc, newDawgBuilder, lookupEdge]
  · intro h; exact absurd rfl h
  · intro h; exact absurd rfl h

theorem runes_ne_nil (w : GoString) (hv : validUTF8 w) (hw : w ≠ []) : runes w ≠ [] := by
  intro h
  unfold validUTF8 at hv
  rw [h] at hv
  exact hw hv.symm

theorem nonDecreasing_cons (a b : GoString) (rest : List GoString) :
    nonDecreasing (a :: b :: rest) ↔ (a = b ∨ strLt a b = true) ∧ nonDecreasing (b :: rest) := by
  simp [nonDecreasing, nonDecreasingB]

theorem addAll_inv : ∀ (ws : List GoString) (b : dawgBuilder) (W : List (List Nat)),
    Inv b W → (∀ w ∈ ws, validUTF8 w) → nonDecreasing (b.lastWord :: ws) →
    ∃ b2 W2, addAll b ws = .ok b2 ∧ Inv b2 W2 ∧ b2.root = b.root ∧
      (∀ rs, rs ∈ W2 ↔ rs ∈ W ∨ ∃ w ∈ ws, w ≠ [] ∧ runes w = rs) ∧
      (∀ (x : Nat) (nd : node), b.heap[x]? = some nd → nd.registered = true →
        b2.heap[x]? = some nd) ∧
      (b.lastWord :: ws).getLast? = some b2.lastWord := by
  intro ws
  induction ws with
  | nil =>
    intro b W hI _ _
    exact ⟨b, W, rfl, hI, rfl, by simp, fun _ _ hx _ => hx, rfl⟩
  | cons w ws ih =>
    intro b W hI hv ho
    have hvw := hv w (List.mem_cons_self _ _)
    have hvs : ∀ x ∈ ws, validUTF8 x := fun x hx => hv x (List.mem_cons_of_mem _ hx)
    rw [nonDecreasing_cons] at ho
    obtain ⟨ho1, ho2⟩ := ho
    rcases ho1 with heq | hlt
    · have hadd : add b w = .ok b := by
        unfold add
        rw [if_pos heq.symm]
        rfl
      have ho3 : nonDecreasing (b.lastWord :: ws) := by rw [heq]; exact ho2
      obtain ⟨b2, W2, a1, a2, a3, a4, a5, a6⟩ := ih b W hI hvs ho3
      refine ⟨b2, W2, ?_, a2, a3, ?_, a5, ?_⟩
      · simp only [addAll, hadd, bind, Except.bind]
        exact a1
      · intro rs
        rw [a4 rs]
        constructor
        · rintro (h | ⟨x, hx, h1, h2⟩)
          · exact Or.inl h
          · exact Or.inr ⟨x, List.mem_cons_of_mem _ hx, h1, h2⟩
        · rintro (h | ⟨x, hx, h1, h2⟩)
          · exact Or.inl h
          · rcases List.mem_cons.mp hx with h3 | h3
            · subst h3
              left
              rw [← h2, ← heq]
              apply hI.lastIn
              rw [heq]
              exact runes_ne_nil x hvw h1
            · exact Or.inr ⟨x, h3, h1, h2⟩
      · rw [List.getLast?_cons_cons, ← heq]
        exact a6
    · obtain ⟨b1, c1, c2, c3, c4, _⟩ := add_inv b W w hI hvw hlt
      have hlw := add_lastWord b b1 w c1
      have ho3 : nonDecreasing (b1.lastWord :: ws) := by rw [hlw]; exact ho2
      obtain ⟨b2, W2, a1, a2, a3, a4, a5, a6⟩ := ih b1 (runes w :: W) c2 hvs ho3
      have hwne : w ≠ [] := by
        intro hw
        rw [hw, strLt_nil_right] at hlt
        cases hlt
      refine ⟨b2, W2, ?_, a2, a3.trans c3, ?_, ?_, ?_⟩
      · simp only [addAll, c1, bind, Except.bind]
        exact a1
      · intro rs
        rw [a4 rs]
        constructor
        · rintro (h | ⟨x, hx, h1, h2⟩)
          · rcases List.mem_cons.mp h with h3 | h3
            · exact Or.inr ⟨w, List.mem_cons_self _ _, hwne, h3.symm⟩
            · exact Or.inl h3
          · exact Or.inr ⟨x, List.mem_cons_of_mem _ hx, h1, h2⟩
        · rintro (h | ⟨x, hx, h1, h2⟩)
          · exact Or.inl (List.mem_cons_of_mem _ h)
          · rcases List.mem_cons.mp hx with h3 | h3
            · subst h3
              left
              rw [h2]
              exact List.mem_cons_self _ _
            · exact Or.inr ⟨x, h3, h1, h2⟩
      · intro x nd hx hr
        exact a5 x nd (c4 x nd hx hr) hr
      · rw [List.getLast?_cons_cons, ← hlw]
        exact a6

theorem finish_spec (b : dawgBuilder) (W : List (List Nat)) (hI : Inv b W)
    (hne : runes b.lastWord ≠ []) :
    ∃ b3, finish b = .ok b3 ∧ Pres b b3 ∧
      ∃ nr, b3.heap[b.root]? = some nr ∧ nr.registered = false ∧
        ∀ e ∈ nr.edges, isReg b3.heap e.dest := by
  obtain ⟨q, hs, hq⟩ := hI.spine
  cases hr : runes b.lastWord with
  | nil => exact absurd hr hne
  | cons c cs =>
    rw [hr] at hs hq
    have hb := spine_bound b.heap _ b.root q hs
    have hql := get?_lt _ _ _ hq
    obtain ⟨b3, r1, p1, _, nn, q1, hnn, hb3, hq1⟩ :=
      ror_spec cs (b.heap.length + 1) b b.root c q hI.good hs (by simpa using hq)
        (by simp at hb; omega)
    obtain ⟨n, init, nx, a1, a2, a3, a4, a5, a6⟩ := hs
    rw [hnn] at a1
    cases a1
    refine ⟨b3, r1, p1, setLastDest nn q1, hb3, ?_, ?_⟩
    · rw [setLastDest_registered]; exact a2
    · intro e he
      rw [setLastDest_edges nn init c nx q1 a3] at he
      rcases List.mem_append.mp he with h1 | h1
      · exact isReg_keep b b3 p1 _ (a4 e h1)
      · simp only [List.mem_singleton] at h1
        subst h1
        exact hq1

/-! ## The query on a well-formed memory -/

theorem contains_acc (h : List node) (R : List (GoString × Nat)) (hg : Good h R) :
    ∀ (rs : List Nat) (p : Nat), p < h.length → containsRunes h p rs = .ok (acc h p rs) := by
  intro rs
  induction rs with
  | nil =>
    intro p hp
    have hn : h[p]? = some h[p] := List.getElem?_eq_getElem hp
    simp only [containsRunes, deref_ok _ _ _ hn, bind, Except.bind, pure, Except.pure, acc, hn]
  | cons r rs ih =>
    intro p hp
    have hn : h[p]? = some h[p] := List.getElem?_eq_getElem hp
    simp only [containsRunes, deref_ok _ _ _ hn, bind, Except.bind, acc, hn,
      findEdge_spec _ (hg.sorted p _ hn) r]
    cases hl : lookupEdge h[p].edges r with
    | none => rfl
    | some e =>
      simp only
      exact ih e.dest (hg.dests p _ hn e (lookupEdge_mem _ _ _ hl).1)

theorem reach_closed (h : List node) (R : List (GoString × Nat)) (hg : Good h R)
    (root : Nat) (nr : node) (hr : h[root]? = some nr)
    (hc : ∀ e ∈ nr.edges, isReg h e.dest) :
    ∀ p q, Reach h p q → (p = root ∨ isReg h p) → (q = root ∨ isReg h q) := by
  intro p q hreach
  induction hreach with
  | refl p => intro hp; exact hp
  | step p n e q hn he _ ih =>
    intro hp
    apply ih
    right
    rcases hp with hp | ⟨nd, h1, h2⟩
    · subst hp
      rw [hr] at hn
      cases hn
      exact hc e he
    · rw [hn] at h1
      cases h1
      exact good_isReg_dest h R hg p n hn h2 e he

theorem reach_lt (h : List node) (R : List (GoString × Nat)) (hg : Good h R) :
    ∀ p q, Reach h p q → p < h.length → q < h.length := by
  intro p q hreach
  induction hreach with
  | refl p => intro hp; exact hp
  | step p n e q hn he _ ih =>
    intro _
    exact ih (hg.dests p n hn e he)

/-- The run of the whole program on well-formed words in order. -/
theorem build_spec (ws : List GoString) (hv : ∀ w ∈ ws, validUTF8 w) (ho : nonDecreasing ws)
    (hne : ∃ w ∈ ws, w ≠ []) :
    ∃ (b : dawgBuilder) (W : List (List Nat)), build ws = .ok b ∧ Good b.heap b.register ∧ b.root < b.heap.length ∧
      (∀ rs, acc b.heap b.root rs = true ↔ rs ∈ W) ∧
      (∀ rs, rs ∈ W ↔ ∃ w ∈ ws, w ≠ [] ∧ runes w = rs) ∧
      ∃ nr, b.heap[b.root]? = some nr ∧ nr.registered = false ∧
        ∀ e ∈ nr.edges, isReg b.heap e.dest := by
  have ho' : nonDecreasing (newDawgBuilder.lastWord :: ws) := by
    cases ws with
    | nil => rfl
    | cons y ys =>
      rw [nonDecreasing_cons]
      refine ⟨?_, ho⟩
      cases y with
      | nil => exact Or.inl rfl
      | cons a y => exact Or.inr rfl
  obtain ⟨b2, W2, a1, a2, a3, a4, _, _⟩ := addAll_inv ws newDawgBuilder [] inv_new hv ho'
  have hW : W2 ≠ [] := by
    obtain ⟨w, hw, hwn⟩ := hne
    have : runes w ∈ W2 := (a4 (runes w)).mpr (Or.inr ⟨w, hw, hwn, rfl⟩)
    intro hh
    rw [hh] at this
    cases this
  obtain ⟨b3, f1, p1, nr, f2, f3, f4⟩ := finish_spec b2 W2 a2 (a2.lastNe hW)
  refine ⟨b3, W2, ?_, p1.good, ?_, ?_, ?_, nr, ?_, f3, f4⟩
  · simp only [build, a1, bind, Except.bind]
    exact f1
  · rw [p1.root]
    exact get?_lt _ _ _ f2
  · intro rs
    rw [p1.root, p1.accEq]
    exact a2.lang rs
  · intro rs
    rw [a4 rs]
    simp
  · rw [p1.root]; exact f2

/-! ## Minimality -/

theorem acc_step (h : List node) (p : Nat) (n : node) (e : edge) (hn : h[p]? = some n)
    (hs : sortedEdges n.edges) (he : e ∈ n.edges) (rs : List Nat) :
    acc h p (e.letter :: rs) = acc h e.dest rs := by
  simp only [acc, hn, lookupEdge_some n.edges hs e he]

theorem acc_cons_true (h : List node) (p : Nat) (n : node) (r : Nat) (rs : List Nat)
    (hn : h[p]? = some n) (ha : acc h p (r :: rs) = true) :
    ∃ e ∈ n.edges, e.letter = r ∧ acc h e.dest rs = true := by
  simp only [acc, hn] at ha
  cases hl : lookupEdge n.edges r with
  | none => rw [hl] at ha; cases ha
  | some e =>
    rw [hl] at ha
    obtain ⟨h1, h2⟩ := lookupEdge_mem _ _ _ hl
    exact ⟨e, h1, h2, ha⟩

theorem coacc (h : List node) (R : List (GoString × Nat)) (hg : Good h R) :
    ∀ (post : List (GoString × Nat)), RegOK h post → ∀ p ∈ post.map Prod.snd,
      ∃ w, (∀ r ∈ w, validRune r) ∧ acc h p w = true := by
  intro post
  induction post with
  | nil => intro _ p hp; cases hp
  | cons kv post ih =>
    obtain ⟨k, p0⟩ := kv
    intro hr p hp
    obtain ⟨hpost, _, n, hn, _, _, hleaf, hd⟩ := hr
    simp only [List.map_cons, List.mem_cons] at hp
    by_cases hin : p ∈ post.map Prod.snd
    · exact ih hpost p hin
    · have hp0 : p = p0 := by
        rcases hp with hp | hp
        · exact hp
        · exact absurd hp hin
      subst hp0
      cases he : n.edges with
      | nil =>
        refine ⟨[], by simp, ?_⟩
        simp only [acc, hn]
        exact hleaf he
      | cons e es =>
        have hmem : e ∈ n.edges := by rw [he]; exact List.mem_cons_self _ _
        obtain ⟨w, hw, hacc⟩ := ih hpost e.dest (hd e hmem)
        refine ⟨e.letter :: w, ?_, ?_⟩
        · intro r hr
          rcases List.mem_cons.mp hr with h1 | h1
          · rw [h1]; exact hg.letters p n hn e hmem
          · exact hw r h1
        · rw [acc_step h p n e hn (hg.sorted p n hn) hmem]
          exact hacc

theorem sorted_ext (l1 l2 : List edge) (h1 : sortedEdges l1) (h2 : sortedEdges l2)
    (hm : ∀ e, e ∈ l1 ↔ e ∈ l2) : l1 = l2 := by
  haveI : IsAntisymm edge (fun a b => a.letter < b.letter) :=
    ⟨fun a b x y => by omega⟩
  have n1 : l1.Nodup := by
    unfold sortedEdges at h1
    exact h1.imp (fun {a b} hab heq => by subst heq; omega)
  have n2 : l2.Nodup := by
    unfold sortedEdges at h2
    exact h2.imp (fun {a b} hab heq => by subst heq; omega)
  exact List.eq_of_perm_of_sorted ((List.perm_ext_iff_of_nodup n1 n2).mpr hm) h1 h2

theorem edge_transfer (h : List node) (R : List (GoString × Nat)) (hg : Good h R)
    (vals : List Nat)
    (hco : ∀ p ∈ vals, ∃ w, (∀ r ∈ w, validRune r) ∧ acc h p w = true)
    (hdist : ∀ p ∈ vals, ∀ q ∈ vals, LangEq h p q → p = q)
    (pa pb : Nat) (a b : node) (ha : h[pa]? = some a) (hb : h[pb]? = some b)
    (hda : ∀ e ∈ a.edges, e.dest ∈ vals) (hdb : ∀ e ∈ b.edges, e.dest ∈ vals)
    (hl : LangEq h pa pb) : ∀ e ∈ a.edges, e ∈ b.edges := by
  intro e he
  obtain ⟨w, hw, hacc⟩ := hco e.dest (hda e he)
  have hlv := hg.letters pa a ha e he
  have h1 : acc h pa (e.letter :: w) = true := by
    rw [acc_step h pa a e ha (hg.sorted pa a ha) he]; exact hacc
  have hv : ∀ r ∈ e.letter :: w, validRune r := by
    intro r hr
    rcases List.mem_cons.mp hr with h2 | h2
    · rw [h2]; exact hlv
    · exact hw r h2
  rw [hl _ hv] at h1
  obtain ⟨e1, he1, hl1, _⟩ := acc_cons_true h pb b e.letter w hb h1
  have heq : e.dest = e1.dest := by
    apply hdist e.dest (hda e he) e1.dest (hdb e1 he1)
    intro rs hrs
    have hv2 : ∀ r ∈ e.letter :: rs, validRune r := by
      intro r hr
      rcases List.mem_cons.mp hr with h2 | h2
      · rw [h2]; exact hlv
      · exact hrs r h2
    rw [← acc_step h pa a e ha (hg.sorted pa a ha) he rs, hl _ hv2, ← hl1,
      acc_step h pb b e1 hb (hg.sorted pb b hb) he1 rs]
  have : e = e1 := by
    cases e; cases e1
    simp only at hl1 heq
    rw [hl1, heq]
  rw [this]
  exact he1

theorem regOK_distinct (h : List node) (R : List (GoString × Nat)) (hg : Good h R) :
    ∀ (post : List (GoString × Nat)), RegOK h post →
      ∀ p ∈ post.map Prod.snd, ∀ q ∈ post.map Prod.snd, LangEq h p q → p = q := by
  intro post
  induction post with
  | nil => intro _ p hp; cases hp
  | cons kv post ih =>
    obtain ⟨k, p0⟩ := kv
    intro hr
    have hr' := hr
    obtain ⟨hpost, hnone, n, hn, _, hkey, _, hd⟩ := hr'
    have hco := coacc h R hg post hpost
    have hdist := ih hpost
    -- the head of the register differs from every state registered before it
    have key : ∀ q ∈ post.map Prod.snd, LangEq h p0 q → False := by
      intro q hq hl
      obtain ⟨kv, hkv, hkq⟩ := List.mem_map.mp hq
      obtain ⟨kq, q'⟩ := kv
      simp only at hkq
      subst hkq
      obtain ⟨nq, b1, _, b3, _, b5⟩ := regOK_mem h post kq q' hpost hkv
      have hf : n.final = nq.final := by
        have := hl [] (by simp)
        simpa [acc, hn, b1] using this
      have he : n.edges = nq.edges := by
        apply sorted_ext _ _ (hg.sorted p0 n hn) (hg.sorted q' nq b1)
        intro e
        constructor
        · exact edge_transfer h R hg _ hco hdist p0 q' n nq hn b1 hd b5 hl e
        · exact edge_transfer h R hg _ hco hdist q' p0 nq n b1 hn b5 hd
            (fun rs hrs => (hl rs hrs).symm) e
      have : k = kq := by rw [hkey, b3]; exact buildNodeHash_congr n nq hf he
      subst this
      exact mapGet_none_of_mem post k q' hkv hnone
    intro p hp q hq hl
    simp only [List.map_cons, List.mem_cons] at hp hq
    by_cases hpin : p ∈ post.map Prod.snd
    · by_cases hqin : q ∈ post.map Prod.snd
      · exact hdist p hpin q hqin hl
      · have : q = p0 := by
          rcases hq with hq | hq
          · exact hq
          · exact absurd hq hqin
        subst this
        exact (key p hpin (fun rs hrs => (hl rs hrs).symm)).elim
    · have hp0 : p = p0 := by
        rcases hp with hp | hp
        · exact hp
        · exact absurd hp hpin
      subst hp0
      by_cases hqin : q ∈ post.map Prod.snd
      · exact (key q hqin hl).elim
      · rcases hq with hq | hq
        · exact hq.symm
        · exact absurd hq hqin

theorem reach_path (h : List node) (R : List (GoString × Nat)) (hg : Good h R) :
    ∀ p q, Reach h p q → ∃ u, (∀ r ∈ u, validRune r) ∧ (p ≠ q → u ≠ []) ∧
      ∀ rs, acc h p (u ++ rs) = acc h q rs := by
  intro p q hreach
  induction hreach with
  | refl p => exact ⟨[], by simp, fun hh => absurd rfl hh, fun _ => rfl⟩
  | step p n e q hn he _ ih =>
    obtain ⟨u, hu, _, hacc⟩ := ih
    refine ⟨e.letter :: u, ?_, fun _ => by simp, ?_⟩
    · intro r hr
      rcases List.mem_cons.mp hr with h1 | h1
      · rw [h1]; exact hg.letters p n hn e he
      · exact hu r h1
    · intro rs
      rw [List.cons_append, acc_step h p n e hn (hg.sorted p n hn) he]
      exact hacc rs

theorem exists_longest : ∀ (W : List (List Nat)), W ≠ [] →
    ∃ w ∈ W, ∀ x ∈ W, x.length ≤ w.length := by
  intro W
  induction W with
  | nil => intro h; exact absurd rfl h
  | cons a W ih =>
    intro _
    by_cases hW : W = []
    · subst hW
      exact ⟨a, List.mem_cons_self _ _, by simp⟩
    · obtain ⟨w, hw, hmax⟩ := ih hW
      by_cases hlen : w.length ≤ a.length
      · refine ⟨a, List.mem_cons_self _ _, ?_⟩
        intro x hx
        rcases List.mem_cons.mp hx with h1 | h1
        · rw [h1]
        · exact Nat.le_trans (hmax x h1) hlen
      · refine ⟨w, List.mem_cons_of_mem _ hw, ?_⟩
        intro x hx
        rcases List.mem_cons.mp hx with h1 | h1
        · rw [h1]; omega
        · exact hmax x h1

theorem root_distinct (h : List node) (R : List (GoString × Nat)) (hg : Good h R)
    (root q : Nat) (W : List (List Nat)) (hW : W ≠ [])
    (hWv : ∀ w ∈ W, ∀ r ∈ w, validRune r)
    (hlang : ∀ rs, acc h root rs = true ↔ rs ∈ W)
    (hreach : Reach h root q) (hne : root ≠ q) (hl : LangEq h root q) : False := by
  obtain ⟨u, hu, hune, hacc⟩ := reach_path h R hg root q hreach
  obtain ⟨w, hw, hmax⟩ := exists_longest W hW
  have h1 : acc h root w = true := (hlang w).mpr hw
  rw [hl w (hWv w hw), ← hacc w] at h1
  have h2 := hmax (u ++ w) ((hlang _).mp h1)
  have h3 : u.length ≠ 0 := fun hh => hune hne (List.length_eq_zero.mp hh)
  simp only [List.length_append] at h2
  omega

/-! ## The claims -/

theorem validUTF8_eq (s w : GoString) (hs : validUTF8 s) (hw : validUTF8 w)
    (h : runes s = runes w) : s = w := by
  unfold validUTF8 at hs hw
  rw [← hs, ← hw, h]

theorem validUTF8_wrap (w : GoString) (hw : validUTF8 w) : validUTF8 ([120] ++ w ++ [120]) := by
  have e : [120] ++ w ++ [120] = encodeRunes ((120 :: runes w) ++ [120]) := by
    unfold validUTF8 at hw
    rw [encodeRunes_append]
    simp only [encodeRunes, hw]
    rfl
  have hv : ∀ r ∈ (120 :: runes w) ++ [120], validRune r := by
    intro r hr
    simp only [List.cons_append, List.mem_cons, List.mem_append, List.mem_singleton,
      List.not_mem_nil, or_false] at hr
    rcases hr with h | h | h
    · subst h; decide
    · exact validRune_runes w r h
    · subst h; decide
  unfold validUTF8
  rw [e, runes_encodeRunes _ hv]

/-- Completeness on well-formed text: for every sequence of well-formed UTF-8
words in non-decreasing order that holds a non-empty word, the run of `add` on a
new builder followed by `finish` succeeds and `containsWord(root, w)` returns
true for every non-empty word `w` of the sequence. -/
theorem completeness_wellformed (ws : List GoString) (hv : ∀ w ∈ ws, validUTF8 w)
    (ho : nonDecreasing ws) (hne : ∃ w ∈ ws, w ≠ []) :
    ∃ b, build ws = .ok b ∧
      ∀ w ∈ ws, w ≠ [] → containsWord b.heap b.root w = .ok true := by
  obtain ⟨b, W, h1, h2, h3, h4, h5, _⟩ := build_spec ws hv ho hne
  refine ⟨b, h1, ?_⟩
  intro w hw hwn
  unfold containsWord
  rw [contains_acc b.heap b.register h2 (runes w) b.root h3]
  congr 1
  rw [h4, h5]
  exact ⟨w, hw, hwn, rfl⟩

/-- Completeness on well-formed text at the words of `smallTest`. -/
theorem completeness_wellformed_small :
    (∀ w ∈ smallWords, validUTF8 w) ∧ nonDecreasing smallWords ∧ (∃ w ∈ smallWords, w ≠ []) ∧
    ∃ b, build smallWords = .ok b ∧
      ∀ w ∈ smallWords, w ≠ [] → containsWord b.heap b.root w = .ok true :=
  ⟨by decide, by decide, by decide,
    completeness_wellformed smallWords (by decide) (by decide) (by decide)⟩

/-- C1 fails on the code at two inputs. The lines "" and "a" are in
non-decreasing order and the run succeeds, but `add("")` returns at
`word == b.lastWord` without inserting anything, so the added word "" is not
contained (while "a" is). The byte strings "\xff" and "\xffa" are in increasing
order and the run succeeds, but the added word "\xffa" is not contained. At
both inputs the check of `main` stops with "word not contained". -/
theorem C1_added_word_not_contained :
    (nonDecreasing [[], [97]] ∧
      ∃ b, build [[], [97]] = .ok b ∧
        [] ∈ [[], [97]] ∧
        containsWord b.heap b.root [] = .ok false ∧
        containsWord b.heap b.root [97] = .ok true) ∧
    (nonDecreasing [[0xFF], [0xFF, 97]] ∧
      ∃ b, build [[0xFF], [0xFF, 97]] = .ok b ∧
        [0xFF, 97] ∈ [[0xFF], [0xFF, 97]] ∧
        containsWord b.heap b.root [0xFF, 97] = .ok false) :=
  ⟨⟨by decide, _, rfl, by decide, rfl, rfl⟩, by decide, _, rfl, by decide, rfl⟩

/-- C2 (amended): for every sequence of well-formed UTF-8 words in non-decreasing
order that holds a non-empty word, after `finish` the query `containsWord(root, s)`
returns false for every string `s` whose runes differ from those of every added
word; in particular for every well-formed string that is not an added word, such
as "x"+w+"x" when that is not an added word. -/
theorem C2_soundness (ws : List GoString) (hv : ∀ w ∈ ws, validUTF8 w)
    (ho : nonDecreasing ws) (hne : ∃ w ∈ ws, w ≠ []) :
    ∃ b, build ws = .ok b ∧
      (∀ s, (∀ w ∈ ws, runes s ≠ runes w) → containsWord b.heap b.root s = .ok false) ∧
      (∀ s, validUTF8 s → s ∉ ws → containsWord b.heap b.root s = .ok false) ∧
      (∀ w ∈ ws, [120] ++ w ++ [120] ∉ ws →
        containsWord b.heap b.root ([120] ++ w ++ [120]) = .ok false) := by
  obtain ⟨b, W, h1, h2, h3, h4, h5, _⟩ := build_spec ws hv ho hne
  have key : ∀ s, (∀ w ∈ ws, runes s ≠ runes w) → containsWord b.heap b.root s = .ok false := by
    intro s hs
    unfold containsWord
    rw [contains_acc b.heap b.register h2 (runes s) b.root h3]
    congr 1
    rw [Bool.eq_false_iff]
    intro hacc
    rw [h4, h5] at hacc
    obtain ⟨w, hw, _, hr⟩ := hacc
    exact hs w hw hr.symm
  have key2 : ∀ s, validUTF8 s → s ∉ ws → containsWord b.heap b.root s = .ok false := by
    intro s hs hns
    apply key
    intro w hw hr
    exact hns (by rw [validUTF8_eq s w hs (hv w hw) hr]; exact hw)
  refine ⟨b, h1, key, key2, ?_⟩
  intro w hw hn
  exact key2 _ (validUTF8_wrap w (hv w hw)) hn

/-- C2 at the words of `smallTest`. -/
theorem C2_soundness_witness :
    (∀ w ∈ smallWords, validUTF8 w) ∧ nonDecreasing smallWords ∧ (∃ w ∈ smallWords, w ≠ []) ∧
    ∃ b, build smallWords = .ok b ∧
      (∀ s, (∀ w ∈ smallWords, runes s ≠ runes w) →
        containsWord b.heap b.root s = .ok false) ∧
      (∀ s, validUTF8 s → s ∉ smallWords → containsWord b.heap b.root s = .ok false) ∧
      (∀ w ∈ smallWords, [120] ++ w ++ [120] ∉ smallWords →
        containsWord b.heap b.root ([120] ++ w ++ [120]) = .ok false) :=
  ⟨by decide, by decide, by decide,
    C2_soundness smallWords (by decide) (by decide) (by decide)⟩

/-- C2 as stated fails: after the single word U+FFFD has been added, the string
"\xff", which is not an added word, is accepted. -/
theorem C2_counterexample :
    nonDecreasing [[0xEF, 0xBF, 0xBD]] ∧
    ∃ b, build [[0xEF, 0xBF, 0xBD]] = .ok b ∧
      [0xFF] ∉ [[0xEF, 0xBF, 0xBD]] ∧
      containsWord b.heap b.root [0xFF] = .ok true :=
  ⟨by decide, _, rfl, by decide, rfl⟩

theorem strictly_nonDecreasing : ∀ (ws : List GoString), strictlyIncreasing ws → nonDecreasing ws := by
  intro ws
  induction ws with
  | nil => intro _; rfl
  | cons a ws ih =>
    intro h
    cases ws with
    | nil => rfl
    | cons b rest =>
      simp only [strictlyIncreasing, strictlyIncreasingB, Bool.and_eq_true] at h
      rw [nonDecreasing_cons]
      exact ⟨Or.inr h.1, ih h.2⟩

/-- C3 (amended): for every strictly increasing sequence of well-formed UTF-8
words that holds a non-empty word, the run followed by `finish` succeeds and no
two distinct states reachable from root accept the same strings: some string is
answered differently by `containsWord` from the two states. -/
theorem C3_minimality (ws : List GoString) (hv : ∀ w ∈ ws, validUTF8 w)
    (ho : strictlyIncreasing ws) (hne : ∃ w ∈ ws, w ≠ []) :
    ∃ b, build ws = .ok b ∧
      ∀ p q, Reach b.heap b.root p → Reach b.heap b.root q → p ≠ q →
        ∃ s, containsWord b.heap p s ≠ containsWord b.heap q s := by
  obtain ⟨b, W, h1, h2, h3, h4, h5, nr, h6, h7, h8⟩ :=
    build_spec ws hv (strictly_nonDecreasing ws ho) hne
  refine ⟨b, h1, ?_⟩
  have hW : W ≠ [] := by
    obtain ⟨w, hw, hwn⟩ := hne
    have : runes w ∈ W := (h5 (runes w)).mpr ⟨w, hw, hwn, rfl⟩
    intro hh
    rw [hh] at this
    cases this
  have hWv : ∀ w ∈ W, ∀ r ∈ w, validRune r := by
    intro w hw r hr
    obtain ⟨x, _, _, hx⟩ := (h5 w).mp hw
    rw [← hx] at hr
    exact validRune_runes x r hr
  -- a string that the two queries agree on, for every rune sequence
  have sep : ∀ p q, p < b.heap.length → q < b.heap.length →
      (∀ s, containsWord b.heap p s = containsWord b.heap q s) → LangEq b.heap p q := by
    intro p q hp hq hall rs hrs
    have := hall (encodeRunes rs)
    unfold containsWord at this
    rw [runes_encodeRunes rs hrs, contains_acc b.heap b.register h2 rs p hp,
      contains_acc b.heap b.register h2 rs q hq] at this
    exact Except.ok.inj this
  intro p q hp hq hpq
  by_contra hcon
  push_neg at hcon
  have hpl := reach_lt b.heap b.register h2 _ _ hp h3
  have hql := reach_lt b.heap b.register h2 _ _ hq h3
  have hl := sep p q hpl hql hcon
  have cp := reach_closed b.heap b.register h2 b.root nr h6 h8 _ _ hp (Or.inl rfl)
  have cq := reach_closed b.heap b.register h2 b.root nr h6 h8 _ _ hq (Or.inl rfl)
  rcases cp with cp | ⟨np, cp1, cp2⟩ <;> rcases cq with cq | ⟨nq, cq1, cq2⟩
  · exact hpq (cp.trans cq.symm)
  · subst cp
    exact root_distinct b.heap b.register h2 b.root q W hW hWv h4 hq hpq hl
  · subst cq
    exact root_distinct b.heap b.register h2 b.root p W hW hWv h4 hp (Ne.symm hpq)
      (fun rs hrs => (hl rs hrs).symm)
  · exact hpq (regOK_distinct b.heap b.register h2 b.register h2.regOK
      p (h2.regIn p np cp1 cp2) q (h2.regIn q nq cq1 cq2) hl)

/-- C3 at the words of `smallTest`. -/
theorem C3_minimality_witness :
    (∀ w ∈ smallWords, validUTF8 w) ∧ strictlyIncreasing smallWords ∧
    (∃ w ∈ smallWords, w ≠ []) ∧
    ∃ b, build smallWords = .ok b ∧
      ∀ p q, Reach b.heap b.root p → Reach b.heap b.root q → p ≠ q →
        ∃ s, containsWord b.heap p s ≠ containsWord b.heap q s :=
  ⟨by decide, by decide, by decide,
    C3_minimality smallWords (by decide) (by decide) (by decide)⟩

theorem reach_edge (h : List node) (p : Nat) (n : node) (e : edge) (hn : h[p]? = some n)
    (he : e ∈ n.edges) : Reach h p e.dest :=
  Reach.step p n e e.dest hn he (Reach.refl _)

theorem reach_trans (h : List node) (p q r : Nat) (h1 : Reach h p q) (h2 : Reach h q r) :
    Reach h p r := by
  induction h1 with
  | refl p => exact h2
  | step p n e q hn he _ ih => exact Reach.step p n e r hn he (ih h2)

theorem broken_same (rs : List Nat) :
    containsRunes brokenHeap 1 rs = containsRunes brokenHeap 3 rs := by
  cases rs with
  | nil => rfl
  | cons r rs =>
    have e1 : deref brokenHeap 1 = .ok ⟨false, true, [⟨65533, 2⟩]⟩ := rfl
    have e3 : deref brokenHeap 3 = .ok ⟨false, true, [⟨65533, 2⟩, ⟨65533, 5⟩]⟩ := rfl
    simp only [containsRunes, e1, e3, bind, Except.bind, findEdge, findEdgeLoop]
    rcases Nat.lt_trichotomy r 65533 with h | h | h
    · have a1 : ¬ (65533 < r) := by omega
      have a2 : 65533 > r := h
      simp [a1, a2, findEdgeLoop]
    · subst h
      simp
    · have a1 : 65533 < r := h
      simp [a1, findEdgeLoop]

/-- C3 as stated fails: the byte strings "a\xfe", "\xfe\xfe", "\xffa" are strictly
increasing, the run succeeds, and the two distinct reachable states 1 and 3 answer
every query alike. -/
theorem C3_counterexample :
    strictlyIncreasing brokenWords ∧
    ∃ b, build brokenWords = .ok b ∧ Reach b.heap b.root 1 ∧ Reach b.heap b.root 3 ∧
      (1 : Nat) ≠ 3 ∧ ∀ s, containsWord b.heap 1 s = containsWord b.heap 3 s := by
  refine ⟨by decide, ⟨brokenHeap, 0, [0xFF, 97], _⟩, rfl, ?_, ?_, by decide, ?_⟩
  · exact reach_edge brokenHeap 0 _ ⟨97, 1⟩ rfl (by decide)
  · exact reach_edge brokenHeap 0 _ ⟨65533, 3⟩ rfl (by decide)
  · intro s
    exact broken_same (runes s)

theorem reach_in (h : List node) (S : List Nat)
    (hc : ∀ p ∈ S, ∀ e ∈ (match h[p]? with | some n => n.edges | none => []), e.dest ∈ S) :
    ∀ p q, Reach h p q → p ∈ S → q ∈ S := by
  intro p q hreach
  induction hreach with
  | refl p => intro hp; exact hp
  | step p n e q hn he _ ih =>
    intro hp
    apply ih
    have := hc p hp e
    rw [hn] at this
    exact this he

theorem small_reach (p : Nat) : Reach smallHeap 0 p ↔ p ∈ ({0, 1, 2, 3, 4} : Finset Nat) := by
  constructor
  · intro hr
    have := reach_in smallHeap [0, 1, 2, 3, 4] (by decide) 0 p hr (by decide)
    simpa using this
  · intro hp
    have r1 : Reach smallHeap 0 1 := reach_edge smallHeap 0 _ ⟨116, 1⟩ rfl (by decide)
    have r2 : Reach smallHeap 0 2 :=
      reach_trans _ _ _ _ r1 (reach_edge smallHeap 1 _ ⟨97, 2⟩ rfl (by decide))
    have r3 : Reach smallHeap 0 3 :=
      reach_trans _ _ _ _ r2 (reach_edge smallHeap 2 _ ⟨112, 3⟩ rfl (by decide))
    have r4 : Reach smallHeap 0 4 :=
      reach_trans _ _ _ _ r3 (reach_edge smallHeap 3 _ ⟨115, 4⟩ rfl (by decide))
    simp only [Finset.mem_insert, Finset.mem_singleton] at hp
    rcases hp with h | h | h | h | h <;> subst h
    · exact Reach.refl 0
    · exact r1
    · exact r2
    · exact r3
    · exact r4

theorem small_build : build smallWords = .ok
    ⟨smallHeap, 0, [116, 111, 112, 115],
      [([50, 97, 124, 50, 111, 124, 50], 1), ([49, 112, 124, 51], 2),
        ([33, 49, 115, 124, 52], 3), ([33, 48], 4)]⟩ := by
  rfl

/-- C4 (amended): adding "tap", "taps", "top", "tops" to a new builder and calling
`finish` yields exactly 5 distinct states reachable from the start state, the
start state included. -/
theorem C4_smallTest_five_states :
    ∃ b, build smallWords = .ok b ∧
      ∃ S : Finset Nat, (∀ p, p ∈ S ↔ Reach b.heap b.root p) ∧ S.card = 5 :=
  ⟨_, small_build, {0, 1, 2, 3, 4}, fun p => (small_reach p).symm, by decide⟩

/-- C4 as stated fails: the set of states reachable after `smallTest` does not
have 6 elements. -/
theorem C4_counterexample :
    ∃ b, build smallWords = .ok b ∧
      ∀ S : Finset Nat, (∀ p, p ∈ S ↔ Reach b.heap b.root p) → S.card ≠ 6 := by
  refine ⟨_, small_build, ?_⟩
  intro S hS
  have : S = {0, 1, 2, 3, 4} := by
    ext p
    rw [hS p]
    exact small_reach p
  rw [this]
  decide

/-- C5: for every builder state and every word that is smaller than the
previously added word (that is, neither equal to it nor strictly greater), `add`
fails with the ordering-violation panic. -/
theorem C5_ordering_violation (b : dawgBuilder) (word : GoString)
    (h : strLt word b.lastWord = true ∨
      (word ≠ b.lastWord ∧ strLt b.lastWord word = false)) :
    add b word = .error .ordering := by
  have hboth : word ≠ b.lastWord ∧ strLt b.lastWord word = false := by
    rcases h with h | h
    · refine ⟨?_, strLt_asymm _ _ h⟩
      intro hh
      rw [hh, strLt_irrefl] at h
      cases h
    · exact h
  unfold add
  rw [if_neg hboth.1, hboth.2]
  rfl

/-- C5 at the word "tap" added after "taps". -/
theorem C5_ordering_violation_witness :
    add newDawgBuilder [116, 97, 112, 115] =
      .ok ⟨[⟨false, false, [⟨116, 1⟩]⟩, ⟨false, false, [⟨97, 2⟩]⟩, ⟨false, false, [⟨112, 3⟩]⟩,
        ⟨false, false, [⟨115, 4⟩]⟩, ⟨true, false, []⟩], 0, [116, 97, 112, 115], []⟩ ∧
    strLt [116, 97, 112] [116, 97, 112, 115] = true ∧
    add ⟨[⟨false, false, [⟨116, 1⟩]⟩, ⟨false, false, [⟨97, 2⟩]⟩, ⟨false, false, [⟨112, 3⟩]⟩,
        ⟨false, false, [⟨115, 4⟩]⟩, ⟨true, false, []⟩], 0, [116, 97, 112, 115], []⟩
      [116, 97, 112] = .error .ordering :=
  ⟨rfl, by decide, C5_ordering_violation _ _ (Or.inl (by decide))⟩

/-- C6: when `add(w)` succeeds, a second `add(w)` right after it leaves the whole
builder (memory, root, lastWord and register) as the first call left it. -/
theorem C6_add_idempotent (b b1 : dawgBuilder) (w : GoString) (h : add b w = .ok b1) :
    add b1 w = .ok b1 := by
  have := add_lastWord b b1 w h
  unfold add
  rw [if_pos this.symm]
  rfl

/-- C6 at the word "ab" added to a new builder. -/
theorem C6_add_idempotent_witness :
    add newDawgBuilder [97, 98] =
      .ok ⟨[⟨false, false, [⟨97, 1⟩]⟩, ⟨false, false, [⟨98, 2⟩]⟩, ⟨true, false, []⟩],
        0, [97, 98], []⟩ ∧
    add ⟨[⟨false, false, [⟨97, 1⟩]⟩, ⟨false, false, [⟨98, 2⟩]⟩, ⟨true, false, []⟩],
        0, [97, 98], []⟩ [97, 98] =
      .ok ⟨[⟨false, false, [⟨97, 1⟩]⟩, ⟨false, false, [⟨98, 2⟩]⟩, ⟨true, false, []⟩],
        0, [97, 98], []⟩ :=
  ⟨rfl, C6_add_idempotent newDawgBuilder _ [97, 98] rfl⟩

/-- Sorted edges on well-formed text: for every sequence of well-formed UTF-8
words in non-decreasing order that holds a non-empty word, after `finish` every
state reachable from root has edge letters that strictly increase along its edge
list. -/
theorem sorted_edges_wellformed (ws : List GoString) (hv : ∀ w ∈ ws, validUTF8 w)
    (ho : nonDecreasing ws) (hne : ∃ w ∈ ws, w ≠ []) :
    ∃ b, build ws = .ok b ∧
      ∀ p, Reach b.heap b.root p → ∃ n, b.heap[p]? = some n ∧ sortedEdges n.edges := by
  obtain ⟨b, W, h1, h2, h3, _⟩ := build_spec ws hv ho hne
  refine ⟨b, h1, ?_⟩
  intro p hp
  have hpl := reach_lt b.heap b.register h2 _ _ hp h3
  have hn : b.heap[p]? = some b.heap[p] := List.getElem?_eq_getElem hpl
  exact ⟨_, hn, h2.sorted p _ hn⟩

/-- Sorted edges on well-formed text at the words of `smallTest`. -/
theorem sorted_edges_wellformed_small :
    (∀ w ∈ smallWords, validUTF8 w) ∧ nonDecreasing smallWords ∧ (∃ w ∈ smallWords, w ≠ []) ∧
    ∃ b, build smallWords = .ok b ∧
      ∀ p, Reach b.heap b.root p → ∃ n, b.heap[p]? = some n ∧ sortedEdges n.edges :=
  ⟨by decide, by decide, by decide,
    sorted_edges_wellformed smallWords (by decide) (by decide) (by decide)⟩

/-- C7 fails on the code at two inputs. The byte strings "\xc3" and "\xd0\x80"
are in increasing order (the order `add` checks and `sort.Strings` produces), the
run succeeds, and the root has the edge letters U+FFFD, U+0400 in that order.
The byte strings "\xff", "\xffa", "\xffb" are in increasing order, the run
succeeds, and state 1, reachable from the root, has two edges with the letter
U+FFFD. The comment on `findEdge` says that the edge letters are sorted because
the input is. -/
theorem C7_edge_letters_not_increasing :
    (nonDecreasing [[0xC3], [0xD0, 0x80]] ∧
      ∃ b, build [[0xC3], [0xD0, 0x80]] = .ok b ∧ Reach b.heap b.root b.root ∧
        ∃ n, b.heap[b.root]? = some n ∧ n.edges.map edge.letter = [0xFFFD, 0x400] ∧
          ¬ sortedEdges n.edges) ∧
    (nonDecreasing [[0xFF], [0xFF, 97], [0xFF, 98]] ∧
      ∃ b, build [[0xFF], [0xFF, 97], [0xFF, 98]] = .ok b ∧ Reach b.heap b.root 1 ∧
        ∃ n, b.heap[1]? = some n ∧ n.edges.map edge.letter = [0xFFFD, 0xFFFD] ∧
          ¬ sortedEdges n.edges) :=
  ⟨⟨by decide, _, rfl, Reach.refl _, _, rfl, rfl, by decide⟩,
    by decide, _, rfl,
    Reach.step 0 ⟨false, false, [⟨0xFFFD, 1⟩]⟩ ⟨0xFFFD, 1⟩ 1 rfl (List.mem_cons_self _ _)
      (Reach.refl 1),
    _, rfl, rfl, by decide⟩

/-- C8: from a node all of whose reachable states have strictly increasing edge
letters, `containsWord` equals the reference run by linear scan on every string,
and `findEdge` returns the edge that carries the letter when there is one and nil
otherwise. -/
theorem C8_query_semantics (h : List node) (p : Nat)
    (hs : ∀ (q : Nat) (n : node), Reach h p q → h[q]? = some n → sortedEdges n.edges) :
    (∀ word, containsWord h p word = referenceContains h p word) ∧
    (∀ (q : Nat) (n : node) (r : Nat), Reach h p q → h[q]? = some n →
      (∀ e ∈ n.edges, e.letter = r → findEdge n r = .ok (some e)) ∧
      ((∀ e ∈ n.edges, e.letter ≠ r) → findEdge n r = .ok none)) := by
  constructor
  · intro word
    exact containsRunes_eq_refRun h (runes word) p hs
  · intro q n r hq hn
    have hsn := hs q n hq hn
    constructor
    · intro e he hl
      rw [findEdge_spec n hsn r, ← hl, lookupEdge_some n.edges hsn e he]
    · intro hall
      rw [findEdge_spec n hsn r, lookupEdge_none n.edges r hall]

/-- C8 at the memory that `smallTest` leaves, from its root. -/
theorem C8_query_semantics_witness :
    (∀ n ∈ smallHeap, sortedEdges n.edges) ∧
    (∀ word, containsWord smallHeap 0 word = referenceContains smallHeap 0 word) ∧
    (∀ (q : Nat) (n : node) (r : Nat), Reach smallHeap 0 q → smallHeap[q]? = some n →
      (∀ e ∈ n.edges, e.letter = r → findEdge n r = .ok (some e)) ∧
      ((∀ e ∈ n.edges, e.letter ≠ r) → findEdge n r = .ok none)) :=
  ⟨by decide, C8_query_semantics smallHeap 0 (fun q n _ hn =>
    (by decide : ∀ n ∈ smallHeap, sortedEdges n.edges) n
      (List.mem_iff_getElem?.mpr ⟨q, hn⟩))⟩

theorem add_ok_order (b b1 : dawgBuilder) (w : GoString) (h : add b w = .ok b1) :
    w = b.lastWord ∨ strLt b.lastWord w = true := by
  unfold add at h
  by_cases h1 : w = b.lastWord
  · exact Or.inl h1
  · rw [if_neg h1] at h
    by_cases h2 : (!strLt b.lastWord w) = true
    · rw [if_pos h2] at h; cases h
    · right
      simpa using h2

theorem addAll_ok_order : ∀ (ws : List GoString) (b b2 : dawgBuilder),
    addAll b ws = .ok b2 → nonDecreasing (b.lastWord :: ws) := by
  intro ws
  induction ws with
  | nil => intro b b2 _; rfl
  | cons w ws ih =>
    intro b b2 h
    simp only [addAll] at h
    obtain ⟨b1, h1, h2⟩ := (bind_ok _ _ _).mp h
    rw [nonDecreasing_cons]
    refine ⟨?_, ?_⟩
    · rcases add_ok_order b b1 w h1 with h3 | h3
      · exact Or.inl h3.symm
      · exact Or.inr h3
    · have := ih b1 b2 h2
      rw [add_lastWord b b1 w h1] at this
      exact this

theorem finish_keeps (b b3 : dawgBuilder) (W : List (List Nat)) (hI : Inv b W)
    (h : finish b = .ok b3) (p : Nat) (n : node) (hn : b.heap[p]? = some n)
    (hr : n.registered = true) : b3.heap[p]? = some n := by
  by_cases hne : runes b.lastWord = []
  · obtain ⟨q, hs, hq⟩ := hI.spine
    rw [hne] at hs
    simp only [Spine] at hs
    subst hs
    unfold finish at h
    rw [replaceOrRegister_succ, deref_ok _ _ _ hq] at h
    simp [bind, Except.bind, lastEdge] at h
  · obtain ⟨b3', f1, p1, _⟩ := finish_spec b W hI hne
    rw [f1] at h
    cases h
    exact p1.regKeep p n hn hr

/-- C9 (amended): in every run of `add` calls with well-formed UTF-8 words on a new
builder, a state that is marked registered after some of the calls is left
unchanged (final flag, edge letters and edge destinations) by every later `add`
and by `finish`. -/
theorem C9_registered_immutable (ws1 ws2 : List GoString) (b1 b2 : dawgBuilder)
    (hv : ∀ w ∈ ws1 ++ ws2, validUTF8 w)
    (h1 : addAll newDawgBuilder ws1 = .ok b1) (h2 : addAll b1 ws2 = .ok b2)
    (p : Nat) (n : node) (hn : b1.heap[p]? = some n) (hr : n.registered = true) :
    b2.heap[p]? = some n ∧ ∀ b3, finish b2 = .ok b3 → b3.heap[p]? = some n := by
  have hv1 : ∀ w ∈ ws1, validUTF8 w := fun w hw => hv w (List.mem_append_left _ hw)
  have hv2 : ∀ w ∈ ws2, validUTF8 w := fun w hw => hv w (List.mem_append_right _ hw)
  obtain ⟨c1, W1, a1, a2, _, _, _, _⟩ :=
    addAll_inv ws1 newDawgBuilder [] inv_new hv1 (addAll_ok_order ws1 _ _ h1)
  rw [h1] at a1
  cases a1
  obtain ⟨c2, W2, d1, d2, _, _, d5, _⟩ :=
    addAll_inv ws2 b1 W1 a2 hv2 (addAll_ok_order ws2 _ _ h2)
  rw [h2] at d1
  cases d1
  have hk := d5 p n hn hr
  exact ⟨hk, fun b3 h3 => finish_keeps b2 b3 W2 d2 h3 p n hk hr⟩

/-- C9 at the words "tap", "taps", "top" followed by "tops": the state 4 is
registered after the first three words and unchanged afterwards. -/
theorem C9_registered_immutable_witness :
    (∀ w ∈ [[116, 97, 112], [116, 97, 112, 115], [116, 111, 112]] ++ [[116, 111, 112, 115]],
      validUTF8 w) ∧
    ∃ b1 b2, addAll newDawgBuilder [[116, 97, 112], [116, 97, 112, 115], [116, 111, 112]]
        = .ok b1 ∧
      addAll b1 [[116, 111, 112, 115]] = .ok b2 ∧
      b1.heap[4]? = some ⟨true, true, []⟩ ∧
      (b2.heap[4]? = some ⟨true, true, []⟩ ∧
        ∀ b3, finish b2 = .ok b3 → b3.heap[4]? = some ⟨true, true, []⟩) :=
  ⟨by decide, _, _, rfl, rfl, rfl,
    C9_registered_immutable [[116, 97, 112], [116, 97, 112, 115], [116, 111, 112]]
      [[116, 111, 112, 115]] _ _ (by decide) rfl rfl 4 ⟨true, true, []⟩ rfl rfl⟩

/-- C9 as stated fails: the byte strings "\xc3aaa", "\xef\xbf\xbd", "\xffa" are in
increasing order and every call succeeds; state 2 is registered after the second
word with one edge, and the third `add` appends a second edge to it. -/
theorem C9_counterexample :
    nonDecreasing [[0xC3, 97, 97, 97], [0xEF, 0xBF, 0xBD], [0xFF, 97]] ∧
    ∃ b1 b2 b3, addAll newDawgBuilder [[0xC3, 97, 97, 97], [0xEF, 0xBF, 0xBD]] = .ok b1 ∧
      add b1 [0xFF, 97] = .ok b2 ∧ finish b2 = .ok b3 ∧
      b1.heap[2]? = some ⟨false, true, [⟨97, 3⟩]⟩ ∧
      b2.heap[2]? = some ⟨false, true, [⟨97, 3⟩, ⟨65533, 5⟩]⟩ :=
  ⟨by decide, _, _, _, rfl, rfl, rfl, rfl, rfl⟩

theorem edges_ext : ∀ (l1 l2 : List edge), l1.map edge.letter = l2.map edge.letter →
    l1.map edge.dest = l2.map edge.dest → l1 = l2 := by
  intro l1
  induction l1 with
  | nil =>
    intro l2 h _
    cases l2 with
    | nil => rfl
    | cons e l2 => simp at h
  | cons a l1 ih =>
    intro l2 h h'
    cases l2 with
    | nil => simp at h
    | cons e l2 =>
      simp only [List.map_cons, List.cons.injEq] at h h'
      rw [ih l2 h.2 h'.2]
      congr 1
      cases a; cases e
      simp only at h h'
      rw [h.1, h'.1]

/-- The fingerprint on states with scalar-value letters: the fingerprints are
equal if and only if the states have the same final flag, the same number of
edges, the same edge letters in the same order and the same destination at each
position. -/
theorem buildNodeHash_iff (a b : node)
    (ha : ∀ e ∈ a.edges, validRune e.letter) (hb : ∀ e ∈ b.edges, validRune e.letter) :
    buildNodeHash a = buildNodeHash b ↔
      a.final = b.final ∧ a.edges.length = b.edges.length ∧
      a.edges.map edge.letter = b.edges.map edge.letter ∧
      a.edges.map edge.dest = b.edges.map edge.dest := by
  constructor
  · intro h
    obtain ⟨h1, h2⟩ := buildNodeHash_injective a b ha hb h
    rw [h1, h2]
    exact ⟨rfl, rfl, rfl, rfl⟩
  · rintro ⟨h1, _, h3, h4⟩
    exact buildNodeHash_congr a b h1 (edges_ext _ _ h3 h4)

/-! ## States of a run on well-formed words -/

theorem run_inv (ws : List GoString) (hv : ∀ w ∈ ws, validUTF8 w) (b : dawgBuilder)
    (h : addAll newDawgBuilder ws = .ok b) :
    ∃ W : List (List Nat), Inv b W ∧ b.root = 0 ∧
      (∀ rs, rs ∈ W ↔ ∃ w ∈ ws, w ≠ [] ∧ runes w = rs) := by
  obtain ⟨c, W, a1, a2, a3, a4, _, _⟩ :=
    addAll_inv ws newDawgBuilder [] inv_new hv (addAll_ok_order ws _ _ h)
  rw [h] at a1
  cases a1
  refine ⟨W, a2, a3, ?_⟩
  intro rs
  rw [a4 rs]
  simp

theorem finish_fails (b : dawgBuilder) (W : List (List Nat)) (hI : Inv b W)
    (hne : runes b.lastWord = []) : finish b = .error .indexOutOfRange := by
  obtain ⟨q, hs, hq⟩ := hI.spine
  rw [hne] at hs
  simp only [Spine] at hs
  subst hs
  unfold finish
  rw [replaceOrRegister_succ, deref_ok _ _ _ hq]
  simp [bind, Except.bind, lastEdge]

theorem finish_inv (b b3 : dawgBuilder) (W : List (List Nat)) (hI : Inv b W)
    (h : finish b = .ok b3) :
    runes b.lastWord ≠ [] ∧ Pres b b3 ∧
      ∃ nr, b3.heap[b.root]? = some nr ∧ nr.registered = false ∧
        ∀ e ∈ nr.edges, isReg b3.heap e.dest := by
  by_cases hne : runes b.lastWord = []
  · rw [finish_fails b W hI hne] at h
    cases h
  · obtain ⟨c, f1, p1, f2⟩ := finish_spec b W hI hne
    rw [f1] at h
    cases h
    exact ⟨hne, p1, f2⟩

theorem regOK_mapGet (h : List node) : ∀ (R : List (GoString × Nat)) (k : GoString) (p : Nat),
    RegOK h R → (k, p) ∈ R → mapGet R k = some p := by
  intro R
  induction R with
  | nil => intro k p _ hm; cases hm
  | cons kv R ih =>
    obtain ⟨k1, p1⟩ := kv
    intro k p hr hm
    obtain ⟨h1, h2, _⟩ := hr
    rcases List.mem_cons.mp hm with h3 | h3
    · cases h3
      simp [mapGet]
    · have hne : k1 ≠ k := by
        intro hk
        subst hk
        exact mapGet_none_of_mem R k1 p h3 h2
      simp only [mapGet, hne, if_false]
      exact ih k p h1 h3

theorem good_sealed (h : List node) (R : List (GoString × Nat)) (hg : Good h R)
    (p : Nat) (n : node) (hn : h[p]? = some n) (hr : n.registered = true) :
    (∀ e ∈ n.edges, isReg h e.dest) ∧ mapGet R (buildNodeHash n) = some p := by
  refine ⟨good_isReg_dest h R hg p n hn hr, ?_⟩
  obtain ⟨kv, hkv, hp⟩ := List.mem_map.mp (hg.regIn p n hn hr)
  obtain ⟨k, v⟩ := kv
  simp only at hp
  subst hp
  obtain ⟨n1, a1, _, a3, _, _⟩ := regOK_mem h R k v hg.regOK hkv
  rw [hn] at a1
  cases a1
  rw [← a3]
  exact regOK_mapGet h R k v hg.regOK hkv

/-- C11 (amended): in every builder state reached from a new builder by `add`
calls with well-formed UTF-8 words, and in the state after a final `finish`,
every state marked registered has all its edge destinations marked registered
and the register maps the state's fingerprint to that very state. -/
theorem C11_bottom_up_sealing (ws : List GoString) (hv : ∀ w ∈ ws, validUTF8 w)
    (b : dawgBuilder) (h : addAll newDawgBuilder ws = .ok b) :
    (∀ (p : Nat) (n : node), b.heap[p]? = some n → n.registered = true →
      (∀ e ∈ n.edges, isReg b.heap e.dest) ∧
        mapGet b.register (buildNodeHash n) = some p) ∧
    ∀ b3, finish b = .ok b3 →
      ∀ (p : Nat) (n : node), b3.heap[p]? = some n → n.registered = true →
        (∀ e ∈ n.edges, isReg b3.heap e.dest) ∧
          mapGet b3.register (buildNodeHash n) = some p := by
  obtain ⟨W, hI, _, _⟩ := run_inv ws hv b h
  refine ⟨fun p n hn hr => good_sealed _ _ hI.good p n hn hr, ?_⟩
  intro b3 h3 p n hn hr
  obtain ⟨_, p1, _⟩ := finish_inv b b3 W hI h3
  exact good_sealed _ _ p1.good p n hn hr

/-- C11 at the words of `smallTest`, before and after `finish`. -/
theorem C11_bottom_up_sealing_witness :
    (∀ w ∈ smallWords, validUTF8 w) ∧
    ∃ b, addAll newDawgBuilder smallWords = .ok b ∧
      (∀ (p : Nat) (n : node), b.heap[p]? = some n → n.registered = true →
        (∀ e ∈ n.edges, isReg b.heap e.dest) ∧
          mapGet b.register (buildNodeHash n) = some p) ∧
      ∀ b3, finish b = .ok b3 →
        ∀ (p : Nat) (n : node), b3.heap[p]? = some n → n.registered = true →
          (∀ e ∈ n.edges, isReg b3.heap e.dest) ∧
            mapGet b3.register (buildNodeHash n) = some p :=
  ⟨by decide, _, rfl, C11_bottom_up_sealing smallWords (by decide) _ rfl⟩

/-- C11 as stated fails: after the byte strings "\xc3aaa", "\xef\xbf\xbd", "\xffa",
which are in increasing order, state 2 is registered, its second edge leads to
the unregistered state 5, and its fingerprint is not a key of the register. -/
theorem C11_counterexample :
    nonDecreasing [[0xC3, 97, 97, 97], [0xEF, 0xBF, 0xBD], [0xFF, 97]] ∧
    ∃ b, addAll newDawgBuilder [[0xC3, 97, 97, 97], [0xEF, 0xBF, 0xBD], [0xFF, 97]] = .ok b ∧
      b.heap[2]? = some ⟨false, true, [⟨97, 3⟩, ⟨65533, 5⟩]⟩ ∧
      b.heap[5]? = some ⟨false, false, [⟨97, 6⟩]⟩ ∧
      mapGet b.register (buildNodeHash ⟨false, true, [⟨97, 3⟩, ⟨65533, 5⟩]⟩) = none :=
  ⟨by decide, _, rfl, rfl, rfl, by decide⟩

/-- C16 (amended): in every builder state reached from a new builder by `add`
calls with well-formed UTF-8 words of which one is non-empty, `finish` succeeds
and `containsWord(root, s)` returns after it what it returned before it, for
every string `s`. -/
theorem C16_finish_preserves_language (ws : List GoString) (hv : ∀ w ∈ ws, validUTF8 w)
    (hne : ∃ w ∈ ws, w ≠ []) (b : dawgBuilder) (h : addAll newDawgBuilder ws = .ok b) :
    ∃ b3, finish b = .ok b3 ∧
      ∀ s, containsWord b3.heap b3.root s = containsWord b.heap b.root s := by
  obtain ⟨W, hI, _, hW⟩ := run_inv ws hv b h
  have hWne : W ≠ [] := by
    obtain ⟨w, hw, hwn⟩ := hne
    have : runes w ∈ W := (hW (runes w)).mpr ⟨w, hw, hwn, rfl⟩
    intro hh
    rw [hh] at this
    cases this
  obtain ⟨b3, f1, p1, _⟩ := finish_spec b W hI (hI.lastNe hWne)
  refine ⟨b3, f1, ?_⟩
  intro s
  obtain ⟨q, hs, hq⟩ := hI.spine
  have hrl : b.root < b.heap.length := by
    have := spine_bound _ _ _ _ hs
    have := get?_lt _ _ _ hq
    omega
  unfold containsWord
  rw [contains_acc b3.heap b3.register p1.good (runes s) b3.root (by rw [p1.root, p1.len]; exact hrl),
    contains_acc b.heap b.register hI.good (runes s) b.root hrl, p1.root, p1.accEq]

/-- C16 at the words of `smallTest`. -/
theorem C16_finish_preserves_language_witness :
    (∀ w ∈ smallWords, validUTF8 w) ∧ (∃ w ∈ smallWords, w ≠ []) ∧
    ∃ b, addAll newDawgBuilder smallWords = .ok b ∧
      ∃ b3, finish b = .ok b3 ∧
        ∀ s, containsWord b3.heap b3.root s = containsWord b.heap b.root s :=
  ⟨by decide, by decide, _, rfl,
    C16_finish_preserves_language smallWords (by decide) (by decide) _ rfl⟩

/-- C16 as stated fails: after the byte strings "\xc3b\xc3", "\xef\xbf\xbd", "\xffb",
"\xffb\xff", "\xff\xff" have been added in that increasing order, the string
"\xff\xff\xff" is accepted before `finish` and rejected after it. -/
theorem C16_counterexample :
    nonDecreasing [[0xC3, 98, 0xC3], [0xEF, 0xBF, 0xBD], [0xFF, 98], [0xFF, 98, 0xFF],
      [0xFF, 0xFF]] ∧
    ∃ b b3, addAll newDawgBuilder [[0xC3, 98, 0xC3], [0xEF, 0xBF, 0xBD], [0xFF, 98],
        [0xFF, 98, 0xFF], [0xFF, 0xFF]] = .ok b ∧
      finish b = .ok b3 ∧
      containsWord b.heap b.root [0xFF, 0xFF, 0xFF] = .ok true ∧
      containsWord b3.heap b3.root [0xFF, 0xFF, 0xFF] = .ok false :=
  ⟨by decide, _, _, rfl, rfl, rfl, rfl⟩

/-- C17 (amended): in every builder state reached from a new builder by `add`
calls with well-formed UTF-8 words, `add` of a well-formed UTF-8 word that is
equal to or greater than `lastWord` completes without failure: no last-edge
indexing meets an empty edge list and the recursion of `replaceOrRegister`
ends within the depth given to it. -/
theorem C17_add_safe (ws : List GoString) (hv : ∀ w ∈ ws, validUTF8 w) (b : dawgBuilder)
    (h : addAll newDawgBuilder ws = .ok b) (w : GoString) (hw : validUTF8 w)
    (ho : w = b.lastWord ∨ strLt b.lastWord w = true) :
    ∃ b2, add b w = .ok b2 := by
  obtain ⟨W, hI, _, _⟩ := run_inv ws hv b h
  rcases ho with ho | ho
  · refine ⟨b, ?_⟩
    unfold add
    rw [if_pos ho]
    rfl
  · obtain ⟨b2, h2, _⟩ := add_inv b W w hI hw ho
    exact ⟨b2, h2⟩

/-- C17 at the word "tops" after "tap", "taps", "top". -/
theorem C17_add_safe_witness :
    (∀ w ∈ [[116, 97, 112], [116, 97, 112, 115], [116, 111, 112]], validUTF8 w) ∧
    validUTF8 [116, 111, 112, 115] ∧
    ∃ b, addAll newDawgBuilder [[116, 97, 112], [116, 97, 112, 115], [116, 111, 112]] = .ok b ∧
      ([116, 111, 112, 115] = b.lastWord ∨ strLt b.lastWord [116, 111, 112, 115] = true) ∧
      ∃ b2, add b [116, 111, 112, 115] = .ok b2 :=
  ⟨by decide, by decide, _, rfl, Or.inr (by decide),
    C17_add_safe [[116, 97, 112], [116, 97, 112, 115], [116, 111, 112]] (by decide) _ rfl
      [116, 111, 112, 115] (by decide) (Or.inr (by decide))⟩

/-- C17 as stated fails: after the word U+FFFD ("\xef\xbf\xbd") the greater byte
string "\xff\xff" makes `add` index the last edge of a state without edges. -/
theorem C17_counterexample :
    ∃ b, addAll newDawgBuilder [[0xEF, 0xBF, 0xBD]] = .ok b ∧
      strLt b.lastWord [0xFF, 0xFF] = true ∧
      add b [0xFF, 0xFF] = .error .indexOutOfRange :=
  ⟨_, rfl, by decide, rfl⟩

/-! ## The right-most path of a reachable builder state -/

theorem lastPath_spine (h : List node) : ∀ (cs : List Nat) (p q : Nat), Spine h p cs q →
    ∃ vs, lastPath h p cs.length = .ok (cs, vs, q) ∧
      ∀ x ∈ vs, ∃ n, h[x]? = some n ∧ n.registered = false := by
  intro cs
  induction cs with
  | nil =>
    intro p q hs
    simp only [Spine] at hs
    subst hs
    exact ⟨[], rfl, fun x hx => by cases hx⟩
  | cons c cs ih =>
    intro p q hs
    obtain ⟨n, init, nx, h1, h2, h3, _, _, h6⟩ := hs
    obtain ⟨vs, a1, a2⟩ := ih nx q h6
    refine ⟨p :: vs, ?_, ?_⟩
    · simp only [List.length_cons, lastPath, deref_ok _ _ _ h1, lastEdge_snoc n init _ h3, bind,
        Except.bind, a1, pure, Except.pure]
    · intro x hx
      rcases List.mem_cons.mp hx with h7 | h7
      · subst h7; exact ⟨n, h1, h2⟩
      · exact a2 x h7

/-- C13 (amended): in every builder state reached from a new builder by `add`
calls with well-formed UTF-8 words, following the last edge of each state from
root for as many steps as `lastWord` has code points is possible, spells
`lastWord`, visits only states that are not registered, and ends in a state
without edges, which is final when `lastWord` is not empty. -/
theorem C13_frontier (ws : List GoString) (hv : ∀ w ∈ ws, validUTF8 w) (b : dawgBuilder)
    (h : addAll newDawgBuilder ws = .ok b) :
    ∃ vs q nq, lastPath b.heap b.root (runes b.lastWord).length
        = .ok (runes b.lastWord, vs, q) ∧
      (∀ x ∈ vs ++ [q], ∃ n, b.heap[x]? = some n ∧ n.registered = false) ∧
      b.heap[q]? = some nq ∧ nq.edges = [] ∧ (b.lastWord ≠ [] → nq.final = true) := by
  obtain ⟨W, hI, _, _⟩ := run_inv ws hv b h
  obtain ⟨q, hs, hq⟩ := hI.spine
  obtain ⟨vs, a1, a2⟩ := lastPath_spine b.heap _ b.root q hs
  refine ⟨vs, q, _, a1, ?_, hq, rfl, ?_⟩
  · intro x hx
    rcases List.mem_append.mp hx with h1 | h1
    · exact a2 x h1
    · simp only [List.mem_singleton] at h1
      subst h1
      exact ⟨_, hq, rfl⟩
  · intro hne
    simp only [decide_eq_true_eq]
    exact runes_ne_nil b.lastWord hI.validLast hne

/-- C13 at the words "tap", "taps", "top". -/
theorem C13_frontier_witness :
    (∀ w ∈ [[116, 97, 112], [116, 97, 112, 115], [116, 111, 112]], validUTF8 w) ∧
    ∃ b, addAll newDawgBuilder [[116, 97, 112], [116, 97, 112, 115], [116, 111, 112]] = .ok b ∧
      ∃ vs q nq, lastPath b.heap b.root (runes b.lastWord).length
          = .ok (runes b.lastWord, vs, q) ∧
        (∀ x ∈ vs ++ [q], ∃ n, b.heap[x]? = some n ∧ n.registered = false) ∧
        b.heap[q]? = some nq ∧ nq.edges = [] ∧ (b.lastWord ≠ [] → nq.final = true) :=
  ⟨by decide, _, rfl,
    C13_frontier [[116, 97, 112], [116, 97, 112, 115], [116, 111, 112]] (by decide) _ rfl⟩

/-- C13 as stated fails twice. On a new builder (also after `add("")`) the walk
of zero steps ends in the root, which is not final. After the byte strings
"\xff" and "\xffa", in increasing order, the last edges spell U+FFFD U+FFFD
while `lastWord` decodes to U+FFFD "a". -/
theorem C13_counterexample :
    (add newDawgBuilder [] = .ok newDawgBuilder ∧
      lastPath newDawgBuilder.heap newDawgBuilder.root (runes newDawgBuilder.lastWord).length
        = .ok ([], [], 0) ∧
      newDawgBuilder.heap[0]? = some ⟨false, false, []⟩) ∧
    (nonDecreasing [[0xFF], [0xFF, 97]] ∧
      ∃ b, addAll newDawgBuilder [[0xFF], [0xFF, 97]] = .ok b ∧
        runes b.lastWord = [65533, 97] ∧
        lastPath b.heap b.root (runes b.lastWord).length = .ok ([65533, 65533], [0, 1], 2)) :=
  ⟨⟨rfl, rfl, rfl⟩, by decide, _, rfl, rfl, rfl⟩

/-! ## The common prefix -/

theorem lcp_prefix_left : ∀ (a b : List Nat), longestCommonPrefix a b <+: a := by
  intro a
  induction a with
  | nil => intro b; simp [longestCommonPrefix]
  | cons x a ih =>
    intro b
    cases b with
    | nil => simp [longestCommonPrefix]
    | cons y b =>
      simp only [longestCommonPrefix]
      split_ifs with hxy
      · exact (List.prefix_cons_inj x).mpr (ih b)
      · exact List.nil_prefix

theorem lcp_comm : ∀ (a b : List Nat), longestCommonPrefix a b = longestCommonPrefix b a := by
  intro a
  induction a with
  | nil => intro b; cases b <;> simp [longestCommonPrefix]
  | cons x a ih =>
    intro b
    cases b with
    | nil => simp [longestCommonPrefix]
    | cons y b =>
      simp only [longestCommonPrefix]
      by_cases hxy : x = y
      · subst hxy
        simp [ih b]
      · have : ¬ (y = x) := fun hh => hxy hh.symm
        simp [hxy, this]

theorem lcp_greatest : ∀ (p a b : List Nat), p <+: a → p <+: b →
    p <+: longestCommonPrefix a b := by
  intro p
  induction p with
  | nil => intro a b _ _; exact List.nil_prefix
  | cons z p ih =>
    intro a b ha hb
    obtain ⟨ta, hta⟩ := ha
    obtain ⟨tb, htb⟩ := hb
    subst hta
    subst htb
    simp only [List.cons_append, longestCommonPrefix, if_true]
    exact (List.prefix_cons_inj z).mpr (ih _ _ (List.prefix_append _ _) (List.prefix_append _ _))

theorem loop_eq_lcp : ∀ (a b : List Nat), (¬ ∃ x t, a = b ++ x :: t) →
    commonPrefixLoop a b = longestCommonPrefix a b := by
  intro a
  induction a with
  | nil => intro b _; cases b <;> simp [commonPrefixLoop, longestCommonPrefix]
  | cons x a ih =>
    intro b hn
    cases b with
    | nil => exact absurd ⟨x, a, rfl⟩ hn
    | cons y b =>
      simp only [commonPrefixLoop, longestCommonPrefix]
      by_cases hxy : x = y
      · subst hxy
        simp only [ne_eq, not_true_eq_false, if_false, if_true]
        congr 1
        apply ih
        rintro ⟨z, t, hzt⟩
        exact hn ⟨z, t, by rw [hzt]; rfl⟩
      · simp [hxy]

theorem validUTF8_longer (s1 s2 : GoString) (h1 : validUTF8 s1) (h2 : validUTF8 s2)
    (x : Nat) (t : List Nat) (h : runes s1 = runes s2 ++ x :: t) : s2.length < s1.length := by
  unfold validUTF8 at h1 h2
  rw [← h1, ← h2, h, h2, encodeRunes_append, List.length_append, h2]
  have := encodeRunes_length_cons x t
  omega

theorem commonPrefix_eq_lcp (s1 s2 : GoString) (h1 : validUTF8 s1) (h2 : validUTF8 s2) :
    commonPrefix s1 s2 = longestCommonPrefix (runes s1) (runes s2) := by
  unfold commonPrefix
  split_ifs with hlen
  · rw [lcp_comm]
    apply loop_eq_lcp
    rintro ⟨x, t, hxt⟩
    have := validUTF8_longer s2 s1 h2 h1 x t hxt
    omega
  · apply loop_eq_lcp
    rintro ⟨x, t, hxt⟩
    have := validUTF8_longer s1 s2 h1 h2 x t hxt
    omega

/-- C14 (amended): for all well-formed UTF-8 strings `s1` and `s2`,
`commonPrefix(s1, s2)` is the longest sequence of code points that is a prefix of
both (so it is the whole shorter string when one is a prefix of the other), and
`commonPrefix(s1, s2) == commonPrefix(s2, s1)`. -/
theorem C14_commonPrefix (s1 s2 : GoString) (h1 : validUTF8 s1) (h2 : validUTF8 s2) :
    commonPrefix s1 s2 = longestCommonPrefix (runes s1) (runes s2) ∧
    commonPrefix s1 s2 <+: runes s1 ∧ commonPrefix s1 s2 <+: runes s2 ∧
    (∀ p, p <+: runes s1 → p <+: runes s2 → p <+: commonPrefix s1 s2) ∧
    (runes s1 <+: runes s2 → commonPrefix s1 s2 = runes s1) ∧
    commonPrefix s1 s2 = commonPrefix s2 s1 := by
  have e := commonPrefix_eq_lcp s1 s2 h1 h2
  have e' := commonPrefix_eq_lcp s2 s1 h2 h1
  have pl : commonPrefix s1 s2 <+: runes s1 := by rw [e]; exact lcp_prefix_left _ _
  have hg : ∀ p, p <+: runes s1 → p <+: runes s2 → p <+: commonPrefix s1 s2 := by
    intro p ha hb
    rw [e]
    exact lcp_greatest p _ _ ha hb
  refine ⟨e, pl, ?_, hg, ?_, ?_⟩
  · rw [e, lcp_comm]; exact lcp_prefix_left _ _
  · intro hp
    have h3 := hg (runes s1) (List.prefix_refl _) hp
    exact List.IsPrefix.eq_of_length_le pl (List.IsPrefix.length_le h3)
  · rw [e, e', lcp_comm]

/-- C14 at the strings "tap" and "tops". -/
theorem C14_commonPrefix_witness :
    validUTF8 [116, 97, 112] ∧ validUTF8 [116, 111, 112, 115] ∧
    (commonPrefix [116, 97, 112] [116, 111, 112, 115]
        = longestCommonPrefix (runes [116, 97, 112]) (runes [116, 111, 112, 115]) ∧
      commonPrefix [116, 97, 112] [116, 111, 112, 115] <+: runes [116, 97, 112] ∧
      commonPrefix [116, 97, 112] [116, 111, 112, 115] <+: runes [116, 111, 112, 115] ∧
      (∀ p, p <+: runes [116, 97, 112] → p <+: runes [116, 111, 112, 115] →
        p <+: commonPrefix [116, 97, 112] [116, 111, 112, 115]) ∧
      (runes [116, 97, 112] <+: runes [116, 111, 112, 115] →
        commonPrefix [116, 97, 112] [116, 111, 112, 115] = runes [116, 97, 112]) ∧
      commonPrefix [116, 97, 112] [116, 111, 112, 115]
        = commonPrefix [116, 111, 112, 115] [116, 97, 112]) :=
  ⟨by decide, by decide, C14_commonPrefix _ _ (by decide) (by decide)⟩

/-- C14 as stated fails. For the byte strings "\xff\xff" and "\xef\xbf\xbd" the
result has two code points although the second string has one; for the strings
"\xef\xbf\xbd" and "\xff\xff\xff", of equal byte length, the result depends on the
order of the arguments. -/
theorem C14_counterexample :
    (commonPrefix [0xFF, 0xFF] [0xEF, 0xBF, 0xBD] = [65533, 65533] ∧
      runes [0xEF, 0xBF, 0xBD] = [65533]) ∧
    (commonPrefix [0xEF, 0xBF, 0xBD] [0xFF, 0xFF, 0xFF] = [65533] ∧
      commonPrefix [0xFF, 0xFF, 0xFF] [0xEF, 0xBF, 0xBD] = [65533, 65533, 65533]) :=
  ⟨⟨rfl, rfl⟩, rfl, rfl⟩

/-! ## The register only grows -/

theorem freshExt_append (R : List (GoString × Nat)) : ∀ (e2 e1 : List (GoString × Nat)),
    FreshExt R e1 → FreshExt (e1 ++ R) e2 → FreshExt R (e2 ++ e1) := by
  intro e2
  induction e2 with
  | nil => intro e1 h1 _; exact h1
  | cons kv e2 ih =>
    obtain ⟨k, v⟩ := kv
    intro e1 h1 h2
    obtain ⟨a1, a2⟩ := h2
    refine ⟨?_, ih e1 h1 a2⟩
    show mapGet ((e2 ++ e1) ++ R) k = none
    rw [List.append_assoc]
    exact a1

theorem freshExt_mapGet (R : List (GoString × Nat)) (k : GoString) (v : Nat)
    (hk : mapGet R k = some v) : ∀ (ext : List (GoString × Nat)), FreshExt R ext →
    mapGet (ext ++ R) k = some v := by
  intro ext
  induction ext with
  | nil => intro _; exact hk
  | cons kv ext ih =>
    obtain ⟨k1, v1⟩ := kv
    intro h
    obtain ⟨a1, a2⟩ := h
    have hrec := ih a2
    have hne : k1 ≠ k := by
      intro hh
      subst hh
      rw [a1] at hrec
      cases hrec
    simp only [List.cons_append, mapGet, hne, if_false]
    exact hrec

theorem seal_grows (b1 b2 : dawgBuilder) (n child : Nat) (h : sealStep b1 n child = .ok b2) :
    ∃ ext, b2.register = ext ++ b1.register ∧ FreshExt b1.register ext := by
  unfold sealStep at h
  obtain ⟨c1, _, h⟩ := (bind_ok _ _ _).mp h
  cases hf : findRegistered b1 c1 with
  | some q =>
    rw [hf] at h
    simp only at h
    obtain ⟨n1, _, h⟩ := (bind_ok _ _ _).mp h
    obtain ⟨e1, _, h⟩ := (bind_ok _ _ _).mp h
    cases h
    exact ⟨[], rfl, trivial⟩
  | none =>
    rw [hf] at h
    simp only [pure, Except.pure, addToRegister] at h
    cases h
    unfold findRegistered at hf
    refine ⟨[(buildNodeHash c1, child)], ?_, ?_, trivial⟩
    · simp only
      rw [mapSet_of_none _ _ _ hf]
      rfl
    · exact hf

theorem ror_grows : ∀ (fuel : Nat) (b b2 : dawgBuilder) (n : Nat),
    replaceOrRegister fuel b n = .ok b2 →
    ∃ ext, b2.register = ext ++ b.register ∧ FreshExt b.register ext := by
  intro fuel
  induction fuel with
  | zero => intro b b2 n h; cases h
  | succ fuel ih =>
    intro b b2 n h
    rw [replaceOrRegister_succ] at h
    obtain ⟨nn, _, h⟩ := (bind_ok _ _ _).mp h
    obtain ⟨e, _, h⟩ := (bind_ok _ _ _).mp h
    obtain ⟨c, _, h⟩ := (bind_ok _ _ _).mp h
    by_cases hc : (!c.registered) = true
    · rw [if_pos hc] at h
      obtain ⟨b1, h1, h⟩ := (bind_ok _ _ _).mp h
      obtain ⟨e2, a1, a2⟩ := seal_grows b1 b2 n e.dest h
      have hb1 : ∃ ext, b1.register = ext ++ b.register ∧ FreshExt b.register ext := by
        by_cases hl : c.edges.length > 0
        · rw [if_pos hl] at h1
          exact ih b b1 e.dest h1
        · rw [if_neg hl] at h1
          cases h1
          exact ⟨[], rfl, trivial⟩
      obtain ⟨e1, c1, c2⟩ := hb1
      refine ⟨e2 ++ e1, ?_, ?_⟩
      · rw [a1, c1, List.append_assoc]
      · apply freshExt_append _ _ _ c2
        rw [← c1]
        exact a2
    · rw [if_neg hc] at h
      cases h
      exact ⟨[], rfl, trivial⟩

theorem add_grows (b b2 : dawgBuilder) (w : GoString) (h : add b w = .ok b2) :
    ∃ ext, b2.register = ext ++ b.register ∧ FreshExt b.register ext := by
  unfold add at h
  by_cases h1 : w = b.lastWord
  · rw [if_pos h1] at h
    cases h
    exact ⟨[], rfl, trivial⟩
  · rw [if_neg h1] at h
    by_cases h2 : (!strLt b.lastWord w) = true
    · rw [if_pos h2] at h; cases h
    · rw [if_neg h2] at h
      obtain ⟨ls, _, h⟩ := (bind_ok _ _ _).mp h
      obtain ⟨lsn, _, h⟩ := (bind_ok _ _ _).mp h
      obtain ⟨b1, hb1, h⟩ := (bind_ok _ _ _).mp h
      obtain ⟨h2, _, h⟩ := (bind_ok _ _ _).mp h
      cases h
      by_cases hl : lsn.edges.length > 0
      · rw [if_pos hl] at hb1
        exact ror_grows _ b b1 ls hb1
      · rw [if_neg hl] at hb1
        cases hb1
        exact ⟨[], rfl, trivial⟩

theorem addAll_grows : ∀ (ws : List GoString) (b b2 : dawgBuilder), addAll b ws = .ok b2 →
    ∃ ext, b2.register = ext ++ b.register ∧ FreshExt b.register ext := by
  intro ws
  induction ws with
  | nil =>
    intro b b2 h
    cases h
    exact ⟨[], rfl, trivial⟩
  | cons w ws ih =>
    intro b b2 h
    simp only [addAll] at h
    obtain ⟨b1, h1, h2⟩ := (bind_ok _ _ _).mp h
    obtain ⟨e1, c1, c2⟩ := add_grows b b1 w h1
    obtain ⟨e2, a1, a2⟩ := ih b1 b2 h2
    refine ⟨e2 ++ e1, ?_, ?_⟩
    · rw [a1, c1, List.append_assoc]
    · apply freshExt_append _ _ _ c2
      rw [← c1]
      exact a2

/-- C12: over every run of `add` calls, from a new builder or from any other
builder state, and over `finish`, the register afterwards is the register
before with entries put in front of it, each written under a key that was not
present when it was written; so no entry is overwritten or removed and the
register only grows. -/
theorem C12_register_write_once (ws : List GoString) (b b2 : dawgBuilder)
    (h : addAll b ws = .ok b2) :
    (∃ ext, b2.register = ext ++ b.register ∧ FreshExt b.register ext) ∧
    (∀ k v, mapGet b.register k = some v → mapGet b2.register k = some v) ∧
    b.register.length ≤ b2.register.length ∧
    ∀ b3, finish b2 = .ok b3 →
      (∃ ext, b3.register = ext ++ b2.register ∧ FreshExt b2.register ext) ∧
      (∀ k v, mapGet b2.register k = some v → mapGet b3.register k = some v) ∧
      b2.register.length ≤ b3.register.length := by
  obtain ⟨e1, a1, a2⟩ := addAll_grows ws b b2 h
  refine ⟨⟨e1, a1, a2⟩, ?_, ?_, ?_⟩
  · intro k v hk
    rw [a1]
    exact freshExt_mapGet _ k v hk e1 a2
  · rw [a1, List.length_append]
    omega
  · intro b3 h3
    obtain ⟨e3, c1, c2⟩ := ror_grows _ b2 b3 _ h3
    refine ⟨⟨e3, c1, c2⟩, ?_, ?_⟩
    · intro k v hk
      rw [c1]
      exact freshExt_mapGet _ k v hk e3 c2
    · rw [c1, List.length_append]
      omega

/-- C12 at the words of `smallTest` on a new builder. -/
theorem C12_register_write_once_witness :
    ∃ b2, addAll newDawgBuilder smallWords = .ok b2 ∧
      (∃ ext, b2.register = ext ++ newDawgBuilder.register ∧
        FreshExt newDawgBuilder.register ext) ∧
      (∀ k v, mapGet newDawgBuilder.register k = some v → mapGet b2.register k = some v) ∧
      newDawgBuilder.register.length ≤ b2.register.length ∧
      ∀ b3, finish b2 = .ok b3 →
        (∃ ext, b3.register = ext ++ b2.register ∧ FreshExt b2.register ext) ∧
        (∀ k v, mapGet b2.register k = some v → mapGet b3.register k = some v) ∧
        b2.register.length ≤ b3.register.length :=
  ⟨_, rfl, C12_register_write_once smallWords newDawgBuilder _ rfl⟩

/-! ## What holds whatever the bytes of the words are -/

theorem basic_new : Basic newDawgBuilder := by
  refine ⟨by decide, ?_, ?_, ?_, ⟨_, rfl, rfl, rfl⟩, fun h => absurd rfl h⟩
  · intro p n hn e he
    cases p with
    | zero => simp [newDawgBuilder] at hn; subst hn; cases he
    | succ p => simp [newDawgBuilder] at hn
  · intro kv hkv; cases hkv
  · intro p n hn e he
    cases p with
    | zero => simp [newDawgBuilder] at hn; subst hn; cases he
    | succ p => simp [newDawgBuilder] at hn

theorem shape_refl (h : List node) : Shape h h :=
  ⟨rfl, fun _ n hn => ⟨n, hn, rfl, rfl, fun hr => hr⟩⟩

theorem shape_trans (h h1 h2 : List node) (a : Shape h h1) (c : Shape h1 h2) : Shape h h2 := by
  refine ⟨c.1.trans a.1, ?_⟩
  intro x n hn
  obtain ⟨n1, a1, a2, a3, a4⟩ := a.2 x n hn
  obtain ⟨n2, c1, c2, c3, c4⟩ := c.2 x n1 a1
  exact ⟨n2, c1, c2.trans a2, c3.trans a3, fun hr => c4 (a4 hr)⟩

theorem shape_isReg (h h1 : List node) (a : Shape h h1) (x : Nat) (hx : isReg h x) :
    isReg h1 x := by
  obtain ⟨n, hn, hr⟩ := hx
  obtain ⟨n1, a1, _, _, a4⟩ := a.2 x n hn
  exact ⟨n1, a1, a4 hr⟩

theorem setLastDest_length (n : node) (q : Nat) (hne : n.edges ≠ []) :
    (setLastDest n q).edges.length = n.edges.length := by
  unfold setLastDest
  cases hl : n.edges.getLast? with
  | none => rw [List.getLast?_eq_none_iff] at hl; exact absurd hl hne
  | some e =>
    simp only [Option.map_some', Option.toList_some, List.length_append, List.length_dropLast,
      List.length_singleton]
    have : 0 < n.edges.length := List.length_pos.mpr hne
    omega

theorem setLastDest_mem (n : node) (q : Nat) (e : edge) (he : e ∈ (setLastDest n q).edges) :
    e ∈ n.edges ∨ e.dest = q := by
  unfold setLastDest at he
  simp only [List.mem_append] at he
  rcases he with h | h
  · exact Or.inl (List.dropLast_subset _ h)
  · right
    cases hl : n.edges.getLast? with
    | none => rw [hl] at h; simp at h
    | some e1 =>
      rw [hl] at h
      simp at h
      rw [h]

theorem seal_basic (b1 : dawgBuilder) (n child : Nat) (nn c1 : node) (hb : Basic b1)
    (hn : b1.heap[n]? = some nn) (hne : nn.edges ≠ [])
    (hc : b1.heap[child]? = some c1) (hcr : child ≠ b1.root) :
    ∃ b2, sealStep b1 n child = .ok b2 ∧ Basic b2 ∧ Shape b1.heap b2.heap ∧
      b2.root = b1.root ∧ b2.lastWord = b1.lastWord := by
  have hlen := get?_lt _ _ _ hn
  have hclen := get?_lt _ _ _ hc
  obtain ⟨rn, hrn, hrf, hrr⟩ := hb.rootNode
  unfold sealStep
  rw [deref_ok _ _ _ hc]
  simp only [bind, Except.bind]
  cases hf : findRegistered b1 c1 with
  | some q =>
    have hq := hb.regVals _ (mapGet_mem _ _ _ hf)
    simp only at hq
    obtain ⟨hqr, qn, hqn, hqreg⟩ := hq
    obtain ⟨e0, he0⟩ : ∃ e0, lastEdge nn = .ok e0 := by
      unfold lastEdge
      cases hl : nn.edges.getLast? with
      | none => rw [List.getLast?_eq_none_iff] at hl; exact absurd hl hne
      | some e => exact ⟨e, rfl⟩
    simp only [deref_ok _ _ _ hn, he0, pure, Except.pure]
    have hget : ∀ (x : Nat) (m : node), (b1.heap.set n (setLastDest nn q))[x]? = some m →
        (x = n ∧ m = setLastDest nn q) ∨ (x ≠ n ∧ b1.heap[x]? = some m) := by
      intro x m hm
      by_cases hx : n = x
      · subst hx
        rw [get?_set_eq _ n _ hlen] at hm
        cases hm
        exact Or.inl ⟨rfl, rfl⟩
      · rw [get?_set_ne _ n x _ hx] at hm
        exact Or.inr ⟨Ne.symm hx, hm⟩
    have hshape : Shape b1.heap (b1.heap.set n (setLastDest nn q)) := by
      refine ⟨by simp, ?_⟩
      intro x m hm
      by_cases hx : n = x
      · subst hx
        rw [hn] at hm
        cases hm
        exact ⟨_, get?_set_eq _ n _ hlen, rfl, setLastDest_length nn q hne, fun hr => hr⟩
      · exact ⟨m, by rw [get?_set_ne _ n x _ hx]; exact hm, rfl, rfl, fun hr => hr⟩
    refine ⟨_, rfl, ⟨?_, ?_, ?_, ?_, ?_, ?_⟩, hshape, rfl, rfl⟩
    · simp only [List.length_set]; exact hb.rootLt
    · intro p m hm e he
      simp only [List.length_set]
      rcases hget p m hm with ⟨_, h2⟩ | ⟨_, h2⟩
      · subst h2
        rcases setLastDest_mem nn q e he with h3 | h3
        · exact hb.dests n nn hn e h3
        · rw [h3]; exact ⟨get?_lt _ _ _ hqn, hqr⟩
      · exact hb.dests p m h2 e he
    · intro kv hkv
      obtain ⟨a1, a2⟩ := hb.regVals kv hkv
      exact ⟨a1, shape_isReg _ _ hshape _ a2⟩
    · intro p m hm e he hnr
      rcases hget p m hm with ⟨h1, h2⟩ | ⟨_, h2⟩
      · subst h2
        rcases setLastDest_mem nn q e he with h3 | h3
        · rw [h1]
          apply hb.later n nn hn e h3
          intro hh
          exact hnr (shape_isReg _ _ hshape _ hh)
        · rw [h3] at hnr
          exact absurd (shape_isReg _ _ hshape _ ⟨qn, hqn, hqreg⟩) hnr
      · apply hb.later p m h2 e he
        intro hh
        exact hnr (shape_isReg _ _ hshape _ hh)
    · obtain ⟨m, a1, a2, a3, a4⟩ := hshape.2 b1.root rn hrn
      by_cases hx : n = b1.root
      · subst hx
        rw [hn] at hrn
        cases hrn
        exact ⟨_, get?_set_eq _ _ _ hlen, hrf, hrr⟩
      · refine ⟨rn, ?_, hrf, hrr⟩
        simp only
        rw [get?_set_ne _ n _ _ hx]
        exact hrn
    · intro hw
      obtain ⟨m, a1, a2⟩ := hb.rootEdges hw
      obtain ⟨m1, c1', _, c3, _⟩ := hshape.2 b1.root m a1
      refine ⟨m1, c1', ?_⟩
      intro hh
      rw [hh] at c3
      exact a2 (List.length_eq_zero.mp c3.symm)
  | none =>
    simp only [pure, Except.pure, addToRegister]
    have hget : ∀ (x : Nat) (m : node),
        (b1.heap.set child { c1 with registered := true })[x]? = some m →
        (x = child ∧ m = { c1 with registered := true }) ∨ (x ≠ child ∧ b1.heap[x]? = some m) := by
      intro x m hm
      by_cases hx : child = x
      · subst hx
        rw [get?_set_eq _ child _ hclen] at hm
        cases hm
        exact Or.inl ⟨rfl, rfl⟩
      · rw [get?_set_ne _ child x _ hx] at hm
        exact Or.inr ⟨Ne.symm hx, hm⟩
    have hshape : Shape b1.heap (b1.heap.set child { c1 with registered := true }) := by
      refine ⟨by simp, ?_⟩
      intro x m hm
      by_cases hx : child = x
      · subst hx
        rw [hc] at hm
        cases hm
        exact ⟨_, get?_set_eq _ child _ hclen, rfl, rfl, fun _ => rfl⟩
      · exact ⟨m, by rw [get?_set_ne _ child x _ hx]; exact hm, rfl, rfl, fun hr => hr⟩
    refine ⟨_, rfl, ⟨?_, ?_, ?_, ?_, ?_, ?_⟩, hshape, rfl, rfl⟩
    · simp only [List.length_set]; exact hb.rootLt
    · intro p m hm e he
      simp only [List.length_set]
      rcases hget p m hm with ⟨_, h2⟩ | ⟨_, h2⟩
      · subst h2
        exact hb.dests child c1 hc e he
      · exact hb.dests p m h2 e he
    · intro kv hkv
      simp only [mapSet, List.mem_cons, List.mem_filter] at hkv
      rcases hkv with h1 | ⟨h1, _⟩
      · subst h1
        simp only
        exact ⟨hcr, _, get?_set_eq _ child _ hclen, rfl⟩
      · obtain ⟨a1, a2⟩ := hb.regVals kv h1
        exact ⟨a1, shape_isReg _ _ hshape _ a2⟩
    · intro p m hm e he hnr
      rcases hget p m hm with ⟨h1, h2⟩ | ⟨_, h2⟩
      · subst h2
        rw [h1]
        apply hb.later child c1 hc e he
        intro hh
        exact hnr (shape_isReg _ _ hshape _ hh)
      · apply hb.later p m h2 e he
        intro hh
        exact hnr (shape_isReg _ _ hshape _ hh)
    · refine ⟨rn, ?_, hrf, hrr⟩
      simp only
      rw [get?_set_ne _ child _ _ hcr]
      exact hrn
    · intro hw
      obtain ⟨m, a1, a2⟩ := hb.rootEdges hw
      obtain ⟨m1, c1', _, c3, _⟩ := hshape.2 b1.root m a1
      refine ⟨m1, c1', ?_⟩
      intro hh
      rw [hh] at c3
      exact a2 (List.length_eq_zero.mp c3.symm)

theorem lastEdge_ok (nn : node) (hne : nn.edges ≠ []) :
    ∃ e, lastEdge nn = .ok e ∧ e ∈ nn.edges := by
  unfold lastEdge
  cases hl : nn.edges.getLast? with
  | none => rw [List.getLast?_eq_none_iff] at hl; exact absurd hl hne
  | some e => exact ⟨e, rfl, List.mem_of_getLast?_eq_some hl⟩

theorem ror_basic : ∀ (fuel : Nat) (b : dawgBuilder) (n : Nat) (nn : node), Basic b →
    b.heap[n]? = some nn → nn.edges ≠ [] → b.heap.length - n < fuel →
    ∃ b2, replaceOrRegister fuel b n = .ok b2 ∧ Basic b2 ∧ Shape b.heap b2.heap ∧
      b2.root = b.root ∧ b2.lastWord = b.lastWord := by
  intro fuel
  induction fuel with
  | zero => intro b n nn _ _ _ hf; omega
  | succ fuel ih =>
    intro b n nn hb hn hne hf
    have hlen := get?_lt _ _ _ hn
    obtain ⟨e, he, hmem⟩ := lastEdge_ok nn hne
    obtain ⟨hd1, hd2⟩ := hb.dests n nn hn e hmem
    obtain ⟨c, hc⟩ : ∃ c, b.heap[e.dest]? = some c :=
      ⟨b.heap[e.dest], List.getElem?_eq_getElem hd1⟩
    rw [replaceOrRegister_succ]
    simp only [deref_ok _ _ _ hn, he, deref_ok _ _ _ hc, bind, Except.bind]
    by_cases hcr : c.registered = true
    · simp only [hcr, Bool.not_true, Bool.false_eq_true, if_false, pure, Except.pure]
      exact ⟨b, rfl, hb, shape_refl _, rfl, rfl⟩
    · have hcr' : c.registered = false := by simpa using hcr
      have hlt : n < e.dest := by
        apply hb.later n nn hn e hmem
        rintro ⟨c', h1, h2⟩
        rw [hc] at h1
        cases h1
        exact hcr h2
      simp only [hcr', Bool.not_false, if_true]
      have hb1 : ∃ b1, (if c.edges.length > 0 then replaceOrRegister fuel b e.dest else pure b)
          = .ok b1 ∧ Basic b1 ∧ Shape b.heap b1.heap ∧ b1.root = b.root ∧
            b1.lastWord = b.lastWord := by
        by_cases hl : c.edges.length > 0
        · rw [if_pos hl]
          exact ih b e.dest c hb hc (fun hh => by rw [hh] at hl; simp at hl) (by omega)
        · rw [if_neg hl]
          exact ⟨b, rfl, hb, shape_refl _, rfl, rfl⟩
      obtain ⟨b1, r1, k1, s1, t1, u1⟩ := hb1
      rw [r1]
      simp only
      obtain ⟨nn1, a1, _, a3, _⟩ := s1.2 n nn hn
      obtain ⟨c1, d1, _, _, _⟩ := s1.2 e.dest c hc
      have hne1 : nn1.edges ≠ [] := by
        intro hh
        rw [hh] at a3
        exact hne (List.length_eq_zero.mp a3.symm)
      obtain ⟨b2, r2, k2, s2, t2, u2⟩ :=
        seal_basic b1 n e.dest nn1 c1 k1 a1 hne1 d1 (by rw [t1]; exact hd2)
      exact ⟨b2, r2, k2, shape_trans _ _ _ s1 s2, t2.trans t1, u2.trans u1⟩

theorem walk_basic (b : dawgBuilder) (hb : Basic b) : ∀ (k p q : Nat),
    walkLast b.heap p k = .ok q → (k = 0 ∧ q = p) ∨ (q ≠ b.root ∧ q < b.heap.length) := by
  intro k
  induction k with
  | zero =>
    intro p q h
    cases h
    exact Or.inl ⟨rfl, rfl⟩
  | succ k ih =>
    intro p q h
    simp only [walkLast] at h
    obtain ⟨n, hn, h⟩ := (bind_ok _ _ _).mp h
    obtain ⟨e, he, h⟩ := (bind_ok _ _ _).mp h
    right
    have hn' : b.heap[p]? = some n := by
      unfold deref at hn
      cases hg : b.heap[p]? with
      | none => rw [hg] at hn; cases hn
      | some m => rw [hg] at hn; cases hn; rfl
    have hmem : e ∈ n.edges := by
      unfold lastEdge at he
      cases hl : n.edges.getLast? with
      | none => rw [hl] at he; cases he
      | some e1 => rw [hl] at he; cases he; exact List.mem_of_getLast?_eq_some hl
    obtain ⟨d1, d2⟩ := hb.dests p n hn' e hmem
    rcases ih e.dest q h with ⟨_, h2⟩ | h2
    · rw [h2]; exact ⟨d2, d1⟩
    · exact h2

theorem runes_ne_nil_bytes (w : GoString) (hw : w ≠ []) : runes w ≠ [] := by
  cases w with
  | nil => exact absurd rfl hw
  | cons s0 t => rw [runes_cons]; simp

theorem commonPrefix_nil (w : GoString) : commonPrefix w [] = [] := by
  unfold commonPrefix
  split_ifs with h
  · have : runes ([] : GoString) = [] := rfl
    rw [this]
    cases runes w <;> rfl
  · have : w = [] := by
      cases w with
      | nil => rfl
      | cons a t => simp at h
    subst this
    rfl

theorem deref_some (h : List node) (p : Nat) (n : node) (hd : deref h p = .ok n) :
    h[p]? = some n := by
  unfold deref at hd
  cases hg : h[p]? with
  | none => rw [hg] at hd; cases hd
  | some m => rw [hg] at hd; cases hd; rfl

/-- The states of the memory after `addSuffix`, seen from the new memory. -/
theorem suffix_cases (h1 h2 : List node) (ls : Nat) (nf : node) (sfx : List Nat)
    (hnf : h1[ls]? = some nf) (ha : addSuffix h1 ls sfx = .ok h2) :
    h1.length ≤ h2.length ∧
    ∀ (x : Nat) (m : node), h2[x]? = some m →
      (x = ls ∧ m.registered = nf.registered ∧ (sfx ≠ [] → m.final = nf.final) ∧
        (sfx ≠ [] → m.edges ≠ []) ∧
        ∀ e ∈ m.edges, e ∈ nf.edges ∨ (e.dest = h1.length ∧ e.dest < h2.length)) ∨
      (x ≠ ls ∧ h1[x]? = some m) ∨
      (h1.length ≤ x ∧ m.registered = false ∧
        ∀ e ∈ m.edges, e.dest = x + 1 ∧ e.dest < h2.length) := by
  obtain ⟨h2', a1, a2, a3, a4, a5⟩ := addSuffix_spec sfx h1 ls nf hnf
  rw [ha] at a1
  cases a1
  have hlsl := get?_lt _ _ _ hnf
  refine ⟨by omega, ?_⟩
  intro x m hm
  have hxl := get?_lt _ _ _ hm
  cases sfx with
  | nil =>
    have hf := a4 rfl
    by_cases hx : x = ls
    · subst hx
      rw [hf] at hm
      cases hm
      exact Or.inl ⟨rfl, rfl, fun hh => absurd rfl hh, fun hh => absurd rfl hh,
        fun e he => Or.inl he⟩
    · rw [a3 x (by simp at a2; omega) hx] at hm
      exact Or.inr (Or.inl ⟨hx, hm⟩)
  | cons s ss =>
    obtain ⟨c1, c2⟩ := a5 s ss rfl
    rcases extend_cases h1 h2 ls nf s ss (by rw [a2]; simp) a3 c1 c2 x m hm with
      ⟨e1, e2⟩ | ⟨e1, e2⟩ | ⟨e1, e2, e3⟩
    · subst e2
      refine Or.inl ⟨e1, rfl, fun _ => rfl, fun _ => by simp, ?_⟩
      intro e he
      simp only [List.mem_append, List.mem_singleton] at he
      rcases he with h3 | h3
      · exact Or.inl h3
      · subst h3
        right
        simp only [List.length_cons] at a2
        exact ⟨rfl, by simp only; omega⟩
    · exact Or.inr (Or.inl ⟨e1, e2⟩)
    · refine Or.inr (Or.inr ⟨e1, e2, ?_⟩)
      intro e he
      rcases e3 with e3 | ⟨s', _, e3, e4⟩
      · rw [e3] at he; cases he
      · rw [e3] at he
        simp only [List.mem_singleton] at he
        subst he
        simp only [List.length_cons] at a2
        exact ⟨rfl, by simp only; omega⟩

/-- The states of the memory before `addSuffix`, seen in the new memory. -/
theorem suffix_keeps (h1 h2 : List node) (ls : Nat) (nf : node) (sfx : List Nat)
    (hnf : h1[ls]? = some nf) (ha : addSuffix h1 ls sfx = .ok h2) :
    ∀ (x : Nat) (n : node), h1[x]? = some n →
      ∃ n2, h2[x]? = some n2 ∧ n2.registered = n.registered ∧
        (n.edges ≠ [] → n2.edges ≠ []) ∧ (x ≠ ls → n2 = n) ∧
        (sfx ≠ [] → n2.final = n.final) ∧ (x = ls → sfx ≠ [] → n2.edges ≠ []) := by
  obtain ⟨h2', a1, a2, a3, a4, a5⟩ := addSuffix_spec sfx h1 ls nf hnf
  rw [ha] at a1
  cases a1
  intro x n hn
  have hxl := get?_lt _ _ _ hn
  by_cases hx : x = ls
  · subst hx
    rw [hnf] at hn
    cases hn
    cases sfx with
    | nil =>
      exact ⟨_, a4 rfl, rfl, fun hh => hh, fun hh => absurd rfl hh, fun hh => absurd rfl hh,
        fun _ hh => absurd rfl hh⟩
    | cons s ss =>
      obtain ⟨c1, _⟩ := a5 s ss rfl
      exact ⟨_, c1, rfl, fun _ => by simp, fun hh => absurd rfl hh, fun _ => rfl,
        fun _ _ => by simp⟩
  · refine ⟨n, ?_, rfl, fun hh => hh, fun _ => rfl, fun _ => rfl, fun hh => absurd hh hx⟩
    rw [a3 x hxl hx]
    exact hn

theorem suffix_basic (b1 : dawgBuilder) (ls : Nat) (nf : node) (sfx : List Nat)
    (h2 : List node) (w : GoString) (hb : Basic b1) (hnf : b1.heap[ls]? = some nf)
    (ha : addSuffix b1.heap ls sfx = .ok h2) (hroot : ls = b1.root → sfx ≠ [])
    (hfirst : b1.lastWord = [] → ls = b1.root) :
    Basic { b1 with heap := h2, lastWord := w } := by
  obtain ⟨hlen, hcases⟩ := suffix_cases b1.heap h2 ls nf sfx hnf ha
  have hkeep := suffix_keeps b1.heap h2 ls nf sfx hnf ha
  have hlsl := get?_lt _ _ _ hnf
  have hreg : ∀ x, isReg b1.heap x → isReg h2 x := by
    rintro x ⟨n, hn, hr⟩
    obtain ⟨n2, c1, c2, _⟩ := hkeep x n hn
    exact ⟨n2, c1, by rw [c2]; exact hr⟩
  have hrl := hb.rootLt
  obtain ⟨rn, hrn, hrf, hrr⟩ := hb.rootNode
  refine ⟨?_, ?_, ?_, ?_, ?_, ?_⟩
  · simp only; omega
  · intro p m hm e he
    simp only at hm ⊢
    rcases hcases p m hm with ⟨c1, _, _, _, c5⟩ | ⟨_, c2⟩ | ⟨c1, _, c3⟩
    · rcases c5 e he with h3 | ⟨h3, h4⟩
      · obtain ⟨d1, d2⟩ := hb.dests ls nf hnf e h3
        exact ⟨by omega, d2⟩
      · exact ⟨h4, by omega⟩
    · obtain ⟨d1, d2⟩ := hb.dests p m c2 e he
      exact ⟨by omega, d2⟩
    · obtain ⟨d1, d2⟩ := c3 e he
      exact ⟨d2, by omega⟩
  · intro kv hkv
    obtain ⟨a1, a2⟩ := hb.regVals kv hkv
    exact ⟨a1, hreg _ a2⟩
  · intro p m hm e he hnr
    simp only at hm hnr
    rcases hcases p m hm with ⟨c1, _, _, _, c5⟩ | ⟨_, c2⟩ | ⟨c1, _, c3⟩
    · rcases c5 e he with h3 | ⟨h3, h4⟩
      · rw [c1]
        exact hb.later ls nf hnf e h3 (fun hh => hnr (hreg _ hh))
      · omega
    · exact hb.later p m c2 e he (fun hh => hnr (hreg _ hh))
    · obtain ⟨d1, _⟩ := c3 e he
      omega
  · obtain ⟨n2, c1, c2, _, c4, c5, _⟩ := hkeep b1.root rn hrn
    refine ⟨n2, c1, ?_, by rw [c2]; exact hrr⟩
    by_cases hx : b1.root = ls
    · rw [c5 (hroot hx.symm)]; exact hrf
    · rw [c4 hx]; exact hrf
  · intro _
    obtain ⟨n2, c1, _, c3, _, _, c6⟩ := hkeep b1.root rn hrn
    refine ⟨n2, c1, ?_⟩
    by_cases hl : b1.lastWord = []
    · have hx := hfirst hl
      exact c6 hx.symm (hroot hx)
    · obtain ⟨m, d1, d2⟩ := hb.rootEdges hl
      rw [hrn] at d1
      cases d1
      exact c3 d2

theorem trimPrefix_nil (w : GoString) : trimPrefix w (encodeRunes []) = w := by
  cases w <;> simp [trimPrefix, hasPrefix, encodeRunes]

theorem add_basic (b b2 : dawgBuilder) (w : GoString) (hb : Basic b) (h : add b w = .ok b2) :
    Basic b2 ∧ b2.root = b.root := by
  unfold add at h
  by_cases h1 : w = b.lastWord
  · rw [if_pos h1] at h
    cases h
    exact ⟨hb, rfl⟩
  · rw [if_neg h1] at h
    by_cases h2 : (!strLt b.lastWord w) = true
    · rw [if_pos h2] at h; cases h
    · rw [if_neg h2] at h
      have hlt : strLt b.lastWord w = true := by simpa using h2
      have hwne : w ≠ [] := by
        intro hw
        rw [hw, strLt_nil_right] at hlt
        cases hlt
      obtain ⟨ls, hwalk, h⟩ := (bind_ok _ _ _).mp h
      obtain ⟨lsn, hlsn, h⟩ := (bind_ok _ _ _).mp h
      obtain ⟨b1, hb1, h⟩ := (bind_ok _ _ _).mp h
      obtain ⟨hp2, hsfx, h⟩ := (bind_ok _ _ _).mp h
      cases h
      have hls := deref_some _ _ _ hlsn
      have hlsl := get?_lt _ _ _ hls
      have k1 : Basic b1 ∧ Shape b.heap b1.heap ∧ b1.root = b.root ∧
          b1.lastWord = b.lastWord := by
        by_cases hl : lsn.edges.length > 0
        · rw [if_pos hl] at hb1
          obtain ⟨c, r1, r2, r3, r4, r5⟩ := ror_basic (b.heap.length + 1) b ls lsn hb hls
            (fun hh => by rw [hh] at hl; simp at hl) (by omega)
          rw [hb1] at r1
          cases r1
          exact ⟨r2, r3, r4, r5⟩
        · rw [if_neg hl] at hb1
          cases hb1
          exact ⟨hb, shape_refl _, rfl, rfl⟩
      obtain ⟨kb, ks, kr, kl⟩ := k1
      obtain ⟨nf, hnf, _⟩ := ks.2 ls lsn hls
      have hzero : (commonPrefix w b.lastWord).length = 0 →
          runes (trimPrefix w (encodeRunes (commonPrefix w b.lastWord))) ≠ [] := by
        intro hz
        rw [List.length_eq_zero.mp hz, trimPrefix_nil]
        exact runes_ne_nil_bytes w hwne
      have hroot : ls = b1.root →
          runes (trimPrefix w (encodeRunes (commonPrefix w b.lastWord))) ≠ [] := by
        intro hx
        rcases walk_basic b hb _ _ _ hwalk with ⟨hk, _⟩ | ⟨hk, _⟩
        · exact hzero hk
        · rw [kr] at hx
          exact absurd hx hk
      have hfirst : b1.lastWord = [] → ls = b1.root := by
        intro hl
        rw [kl] at hl
        rw [hl, commonPrefix_nil] at hwalk
        cases hwalk
        exact kr.symm
      exact ⟨suffix_basic b1 ls nf _ hp2 w kb hnf hsfx hroot hfirst, kr⟩

theorem finish_basic (b : dawgBuilder) (hb : Basic b) (hne : b.lastWord ≠ []) :
    ∃ b3, finish b = .ok b3 ∧ Basic b3 ∧ b3.root = b.root := by
  obtain ⟨rn, h1, h2⟩ := hb.rootEdges hne
  obtain ⟨b3, r1, r2, _, r4, _⟩ :=
    ror_basic (b.heap.length + 1) b b.root rn hb h1 h2 (by omega)
  exact ⟨b3, r1, r2, r4⟩

theorem finish_ok_basic (b b3 : dawgBuilder) (hb : Basic b) (h : finish b = .ok b3) :
    Basic b3 ∧ b3.root = b.root := by
  obtain ⟨rn, h1, _, _⟩ := hb.rootNode
  by_cases hne : rn.edges = []
  · unfold finish at h
    rw [replaceOrRegister_succ, deref_ok _ _ _ h1] at h
    simp [bind, Except.bind, lastEdge, hne] at h
  · obtain ⟨c, r1, r2, _, r4, _⟩ :=
      ror_basic (b.heap.length + 1) b b.root rn hb h1 hne (by omega)
    unfold finish at h
    rw [h] at r1
    cases r1
    exact ⟨r2, r4⟩

theorem runOps_basic : ∀ (ops : List Op) (b b2 : dawgBuilder), Basic b →
    runOps b ops = .ok b2 → Basic b2 ∧ b2.root = b.root := by
  intro ops
  induction ops with
  | nil =>
    intro b b2 hb h
    cases h
    exact ⟨hb, rfl⟩
  | cons o ops ih =>
    intro b b2 hb h
    simp only [runOps] at h
    obtain ⟨b1, h1, h2⟩ := (bind_ok _ _ _).mp h
    have k : Basic b1 ∧ b1.root = b.root := by
      cases o with
      | add w => exact add_basic b b1 w hb h1
      | finish => exact finish_ok_basic b b1 hb h1
    obtain ⟨a1, a2⟩ := ih b1 b2 k.1 h2
    exact ⟨a1, a2.trans k.2⟩

theorem addAll_basic : ∀ (ws : List GoString) (b b2 : dawgBuilder), Basic b →
    addAll b ws = .ok b2 →
    Basic b2 ∧ ((b.lastWord ≠ [] ∨ ∃ w ∈ ws, w ≠ []) → b2.lastWord ≠ []) ∧
      (b.lastWord = [] → (∀ w ∈ ws, w = []) → b2 = b) := by
  intro ws
  induction ws with
  | nil =>
    intro b b2 hb h
    cases h
    refine ⟨hb, ?_, fun _ _ => rfl⟩
    rintro (h1 | ⟨w, hw, _⟩)
    · exact h1
    · cases hw
  | cons w ws ih =>
    intro b b2 hb h
    simp only [addAll] at h
    obtain ⟨b1, h1, h2⟩ := (bind_ok _ _ _).mp h
    obtain ⟨a1, a2, a3⟩ := ih b1 b2 (add_basic b b1 w hb h1).1 h2
    have hlw := add_lastWord b b1 w h1
    refine ⟨a1, ?_, ?_⟩
    · intro hh
      apply a2
      by_cases hw : w = []
      · rcases hh with h3 | ⟨x, hx, hxn⟩
        · left
          rw [hlw]
          rcases add_ok_order b b1 w h1 with h4 | h4
          · rw [h4]; exact h3
          · intro h5
            rw [h5, strLt_nil_right] at h4
            cases h4
        · rcases List.mem_cons.mp hx with h4 | h4
          · exact absurd (h4 ▸ hw) hxn
          · exact Or.inr ⟨x, h4, hxn⟩
      · left
        rw [hlw]
        exact hw
    · intro hl hall
      have hw : w = [] := hall w (List.mem_cons_self _ _)
      have hb1 : b1 = b := by
        subst hw
        unfold add at h1
        rw [if_pos hl.symm] at h1
        cases h1
        rfl
      subst hb1
      exact a3 hl (fun x hx => hall x (List.mem_cons_of_mem _ hx))

/-- C18: in every builder state reached from a new builder by `add` calls,
`finish` fails, indexing the last edge of a root without edges, when no
non-empty word has been added, and completes normally when one has. -/
theorem C18_finish_fails_iff_empty (ws : List GoString) (b : dawgBuilder)
    (h : addAll newDawgBuilder ws = .ok b) :
    ((∀ w ∈ ws, w = []) → finish b = .error .indexOutOfRange) ∧
    ((∃ w ∈ ws, w ≠ []) → ∃ b3, finish b = .ok b3) := by
  obtain ⟨a1, a2, a3⟩ := addAll_basic ws newDawgBuilder b basic_new h
  constructor
  · intro hall
    rw [a3 rfl hall]
    rfl
  · intro hex
    obtain ⟨b3, r1, _⟩ := finish_basic b a1 (a2 (Or.inr hex))
    exact ⟨b3, r1⟩

/-- C18 at the words "" and "a", and at the word "" alone. -/
theorem C18_finish_fails_iff_empty_witness :
    (∃ b, addAll newDawgBuilder [[], [97]] = .ok b ∧
      ((∀ w ∈ [[], [97]], w = []) → finish b = .error .indexOutOfRange) ∧
      ((∃ w ∈ [[], [97]], w ≠ []) → ∃ b3, finish b = .ok b3)) ∧
    (∃ b, addAll newDawgBuilder [[]] = .ok b ∧
      ((∀ w ∈ [([] : GoString)], w = []) → finish b = .error .indexOutOfRange) ∧
      ((∃ w ∈ [([] : GoString)], w ≠ []) → ∃ b3, finish b = .ok b3)) :=
  ⟨⟨_, rfl, C18_finish_fails_iff_empty [[], [97]] _ rfl⟩,
    ⟨_, rfl, C18_finish_fails_iff_empty [[]] _ rfl⟩⟩

/-- C19: in every builder state reached from a new builder by `add` and `finish`
calls, the root is not final and `containsWord(root, "")` returns false; `add("")`
returns at once while `lastWord` is empty and is an ordering violation
afterwards. -/
theorem C19_empty_string_rejected (ops : List Op) (b : dawgBuilder)
    (h : runOps newDawgBuilder ops = .ok b) :
    (∃ n, b.heap[b.root]? = some n ∧ n.final = false) ∧
    containsWord b.heap b.root [] = .ok false ∧
    (b.lastWord = [] → add b [] = .ok b) ∧
    (b.lastWord ≠ [] → add b [] = .error .ordering) := by
  obtain ⟨hb, _⟩ := runOps_basic ops newDawgBuilder b basic_new h
  obtain ⟨rn, h1, h2, _⟩ := hb.rootNode
  refine ⟨⟨rn, h1, h2⟩, ?_, ?_, ?_⟩
  · unfold containsWord
    have : runes ([] : GoString) = [] := rfl
    rw [this]
    simp only [containsRunes, deref_ok _ _ _ h1, bind, Except.bind, pure, Except.pure, h2]
  · intro hl
    unfold add
    rw [if_pos hl.symm]
    rfl
  · intro hl
    unfold add
    rw [if_neg (fun hh => hl hh.symm), strLt_nil_right]
    rfl

/-- C19 at the run `add("")`, `add("a")`, `finish()`, `add("b")`. -/
theorem C19_empty_string_rejected_witness :
    ∃ b, runOps newDawgBuilder [.add [], .add [97], .finish, .add [98]] = .ok b ∧
      (∃ n, b.heap[b.root]? = some n ∧ n.final = false) ∧
      containsWord b.heap b.root [] = .ok false ∧
      (b.lastWord = [] → add b [] = .ok b) ∧
      (b.lastWord ≠ [] → add b [] = .error .ordering) :=
  ⟨_, rfl, C19_empty_string_rejected [.add [], .add [97], .finish, .add [98]] _ rfl⟩

/-! ## Acyclicity -/

theorem reach_cases (h : List node) (p x : Nat) (hr : Reach h p x) :
    x = p ∨ ReachPlus h p x := by
  cases hr with
  | refl => exact Or.inl rfl
  | step _ n e _ hn he hreach => exact Or.inr ⟨n, e, hn, he, hreach⟩

/-- What can be reached from a register entry is a register entry. -/
theorem reg_closed (h : List node) (R : List (GoString × Nat)) (hr : RegOK h R) :
    ∀ x y, Reach h x y → x ∈ R.map Prod.snd → y ∈ R.map Prod.snd := by
  intro x y hreach
  induction hreach with
  | refl p => intro hp; exact hp
  | step p n e q hn he _ ih =>
    intro hp
    obtain ⟨n1, a1, _, _, a4⟩ := regOK_val h R p hr hp
    rw [hn] at a1
    cases a1
    exact ih (a4 e he)

/-- No register entry lies on a cycle. -/
theorem reg_acyclic (h : List node) : ∀ (R : List (GoString × Nat)), RegOK h R →
    ∀ x ∈ R.map Prod.snd, ¬ ReachPlus h x x := by
  intro R
  induction R with
  | nil => intro _ x hx; cases hx
  | cons kv post ih =>
    obtain ⟨k, p⟩ := kv
    intro hr x hx
    obtain ⟨h1, h2, n, h3, h4, h5, h6, h7⟩ := hr
    by_cases hxp : x ∈ post.map Prod.snd
    · exact ih h1 x hxp
    · simp only [List.map_cons, List.mem_cons] at hx
      rcases hx with hx | hx
      · subst hx
        rintro ⟨n1, e, c1, c2, c3⟩
        rw [h3] at c1
        cases c1
        exact hxp (reg_closed h post h1 _ _ c3 (h7 e c2))
      · exact absurd hx hxp

/-- From a state of the right-most path only register entries and states
allocated no earlier can be reached, and none of them lies on a cycle. -/
theorem spine_acyclic (h : List node) (R : List (GoString × Nat)) (hg : Good h R) :
    ∀ (ls : List Nat) (p q : Nat) (f : Bool), Spine h p ls q → h[q]? = some ⟨f, false, []⟩ →
      ∀ x, Reach h p x → (x ∈ R.map Prod.snd ∨ p ≤ x) ∧ ¬ ReachPlus h x x := by
  intro ls
  induction ls with
  | nil =>
    intro p q f hs hq x hx
    simp only [Spine] at hs
    subst hs
    have hxp : x = p := by
      rcases reach_cases h p x hx with h1 | ⟨n, e, c1, c2, _⟩
      · exact h1
      · rw [hq] at c1
        cases c1
        cases c2
    subst hxp
    refine ⟨Or.inr (Nat.le_refl _), ?_⟩
    rintro ⟨n, e, c1, c2, _⟩
    rw [hq] at c1
    cases c1
    cases c2
  | cons c cs ih =>
    intro p q f hs hq x hx
    obtain ⟨n, init, nx, a1, a2, a3, a4, a5, a6⟩ := hs
    have hsub : ∀ y, ReachPlus h p y →
        (y ∈ R.map Prod.snd ∨ p < y) ∧ ¬ ReachPlus h y y := by
      rintro y ⟨n1, e, c1, c2, c3⟩
      rw [a1] at c1
      cases c1
      rw [a3] at c2
      rcases List.mem_append.mp c2 with c4 | c4
      · obtain ⟨m, d1, d2⟩ := a4 e c4
        have hm := reg_closed h R hg.regOK _ _ c3 (hg.regIn _ m d1 d2)
        exact ⟨Or.inl hm, reg_acyclic h R hg.regOK y hm⟩
      · simp only [List.mem_singleton] at c4
        subst c4
        obtain ⟨b1, b2⟩ := ih nx q f a6 hq y c3
        refine ⟨?_, b2⟩
        rcases b1 with b1 | b1
        · exact Or.inl b1
        · right
          omega
    rcases reach_cases h p x hx with h1 | h1
    · subst h1
      refine ⟨Or.inr (Nat.le_refl _), ?_⟩
      intro hc
      rcases (hsub x hc).1 with b1 | b1
      · obtain ⟨m, d1, d2, _⟩ := regOK_val h R x hg.regOK b1
        rw [a1] at d1
        cases d1
        rw [a2] at d2
        cases d2
      · omega
    · obtain ⟨b1, b2⟩ := hsub x h1
      refine ⟨?_, b2⟩
      rcases b1 with b1 | b1
      · exact Or.inl b1
      · right; omega

theorem inv_acyclic (b : dawgBuilder) (W : List (List Nat)) (hI : Inv b W) :
    acyclicFrom b.heap b.root := by
  obtain ⟨q, hs, hq⟩ := hI.spine
  intro p hp
  exact (spine_acyclic b.heap b.register hI.good _ b.root q _ hs hq p hp).2

theorem sealed_acyclic (h : List node) (R : List (GoString × Nat)) (hg : Good h R)
    (root : Nat) (nr : node) (hr : h[root]? = some nr) (hnr : nr.registered = false)
    (hc : ∀ e ∈ nr.edges, isReg h e.dest) : acyclicFrom h root := by
  have hreg : ∀ x, isReg h x → x ∈ R.map Prod.snd := by
    rintro x ⟨m, d1, d2⟩
    exact hg.regIn x m d1 d2
  intro p hp
  rcases reach_closed h R hg root nr hr hc root p hp (Or.inl rfl) with h1 | h1
  · subst h1
    rintro ⟨n, e, c1, c2, c3⟩
    rw [hr] at c1
    cases c1
    have hm := reg_closed h R hg.regOK _ _ c3 (hreg _ (hc e c2))
    obtain ⟨m, d1, d2, _⟩ := regOK_val h R p hg.regOK hm
    rw [hr] at d1
    cases d1
    rw [hnr] at d2
    cases d2
  · exact reg_acyclic h R hg.regOK p (hreg p h1)

/-- C15 (amended): in every builder state reached from a new builder by `add`
calls with well-formed UTF-8 words, and in the state after a final `finish`, no
state reachable from the root can be reached from itself by following one or
more edges. -/
theorem C15_acyclic (ws : List GoString) (hv : ∀ w ∈ ws, validUTF8 w) (b : dawgBuilder)
    (h : addAll newDawgBuilder ws = .ok b) :
    (∀ p, Reach b.heap b.root p → ¬ ReachPlus b.heap p p) ∧
    ∀ b3, finish b = .ok b3 → ∀ p, Reach b3.heap b3.root p → ¬ ReachPlus b3.heap p p := by
  obtain ⟨W, hI, _, _⟩ := run_inv ws hv b h
  refine ⟨inv_acyclic b W hI, ?_⟩
  intro b3 h3
  obtain ⟨_, p1, nr, a1, a2, a3⟩ := finish_inv b b3 W hI h3
  rw [← p1.root] at a1
  exact sealed_acyclic b3.heap b3.register p1.good b3.root nr a1 a2 a3

/-- C15 at the words of `smallTest`, before and after `finish`. -/
theorem C15_acyclic_witness :
    (∀ w ∈ smallWords, validUTF8 w) ∧
    ∃ b, addAll newDawgBuilder smallWords = .ok b ∧
      (∀ p, Reach b.heap b.root p → ¬ ReachPlus b.heap p p) ∧
      ∀ b3, finish b = .ok b3 → ∀ p, Reach b3.heap b3.root p → ¬ ReachPlus b3.heap p p :=
  ⟨by decide, _, rfl, C15_acyclic smallWords (by decide) _ rfl⟩

/-- C15 as stated fails: after the byte strings "\xc3\xef\xbd", "\xef\xbf\xbd",
"\xfe\xff", "\xff\xc3", which are in increasing order, state 2 is reachable from
the root and has an edge to itself, before `finish` and after it. -/
theorem C15_counterexample :
    nonDecreasing [[0xC3, 0xEF, 0xBD], [0xEF, 0xBF, 0xBD], [0xFE, 0xFF], [0xFF, 0xC3]] ∧
    ∃ b, addAll newDawgBuilder
        [[0xC3, 0xEF, 0xBD], [0xEF, 0xBF, 0xBD], [0xFE, 0xFF], [0xFF, 0xC3]] = .ok b ∧
      Reach b.heap b.root 2 ∧ ReachPlus b.heap 2 2 ∧
      ∃ b3, finish b = .ok b3 ∧ Reach b3.heap b3.root 2 ∧ ReachPlus b3.heap 2 2 :=
  ⟨by decide, _, rfl,
    Reach.step 0 ⟨false, false, [⟨65533, 1⟩]⟩ ⟨65533, 1⟩ 2 rfl (List.mem_cons_self _ _)
      (Reach.step 1 ⟨true, false, [⟨65533, 2⟩]⟩ ⟨65533, 2⟩ 2 rfl (List.mem_cons_self _ _)
        (Reach.refl 2)),
    ⟨⟨false, true, [⟨65533, 3⟩, ⟨65533, 2⟩, ⟨65533, 6⟩]⟩, ⟨65533, 2⟩, rfl,
      List.mem_cons_of_mem _ (List.mem_cons_self _ _), Reach.refl 2⟩,
    _, rfl,
    Reach.step 0 ⟨false, false, [⟨65533, 1⟩]⟩ ⟨65533, 1⟩ 2 rfl (List.mem_cons_self _ _)
      (Reach.step 1 ⟨true, true, [⟨65533, 2⟩]⟩ ⟨65533, 2⟩ 2 rfl (List.mem_cons_self _ _)
        (Reach.refl 2)),
    ⟨⟨false, true, [⟨65533, 3⟩, ⟨65533, 2⟩, ⟨65533, 6⟩]⟩, ⟨65533, 2⟩, rfl,
      List.mem_cons_of_mem _ (List.mem_cons_self _ _), Reach.refl 2⟩⟩

/-! ## Registered states stay reachable -/

theorem reach_mono (h h1 : List node)
    (hsub : ∀ (p : Nat) (n : node), h[p]? = some n →
      ∃ n1, h1[p]? = some n1 ∧ ∀ e ∈ n.edges, e ∈ n1.edges) :
    ∀ p x, Reach h p x → Reach h1 p x := by
  intro p x hr
  induction hr with
  | refl p => exact Reach.refl p
  | step p n e q hn he _ ih =>
    obtain ⟨n1, a1, a2⟩ := hsub p n hn
    exact Reach.step p n1 e q a1 (a2 e he) ih

/-- Redirecting the last edge of `n` from `child` to a state `q` with the edges
of `child` keeps every state other than `child` reachable. -/
theorem reach_redirect (h : List node) (n child q : Nat) (nn cn qn : node) (init : List edge)
    (c : Nat) (hn : h[n]? = some nn) (hne : nn.edges = init ++ [⟨c, child⟩])
    (hc : h[child]? = some cn) (hq : h[q]? = some qn) (he : qn.edges = cn.edges)
    (hnq : n ≠ q) :
    ∀ p x, Reach h p x → x ≠ child →
      Reach (h.set n (setLastDest nn q)) p x ∧
        (p = child → Reach (h.set n (setLastDest nn q)) q x) := by
  intro p x hr
  induction hr with
  | refl p => intro hx; exact ⟨Reach.refl p, fun hp => absurd hp hx⟩
  | step p np e x hp hep _ ih =>
    intro hx
    obtain ⟨i1, i2⟩ := ih hx
    constructor
    · by_cases hpn : p = n
      · subst hpn
        rw [hn] at hp
        cases hp
        have hset : (h.set p (setLastDest nn q))[p]? = some (setLastDest nn q) :=
          get?_set_eq _ p _ (get?_lt _ _ _ hn)
        rw [hne] at hep
        rcases List.mem_append.mp hep with h1 | h1
        · refine Reach.step p _ e x hset ?_ i1
          rw [setLastDest_edges nn init c child q hne]
          exact List.mem_append_left _ h1
        · simp only [List.mem_singleton] at h1
          subst h1
          refine Reach.step p _ ⟨c, q⟩ x hset ?_ (i2 rfl)
          rw [setLastDest_edges nn init c child q hne]
          simp
      · refine Reach.step p np e x ?_ hep i1
        rw [get?_set_ne _ n p _ (Ne.symm hpn)]
        exact hp
    · intro hpc
      subst hpc
      rw [hc] at hp
      cases hp
      refine Reach.step q qn e x ?_ (by rw [he]; exact hep) i1
      rw [get?_set_ne _ n q _ hnq]
      exact hq

theorem seal_reach (b1 : dawgBuilder) (n child : Nat) (nn cn : node) (init : List edge)
    (c root : Nat) (hg : Good b1.heap b1.register)
    (hn : b1.heap[n]? = some nn) (hnr : nn.registered = false)
    (hne : nn.edges = init ++ [⟨c, child⟩])
    (hc : b1.heap[child]? = some cn) (hcr : cn.registered = false)
    (hR : RegReach b1.heap root) (hrn : Reach b1.heap root n) :
    ∀ b2, sealStep b1 n child = .ok b2 →
      RegReach b2.heap root ∧
        ∀ x, x ≠ child → Reach b1.heap root x → Reach b2.heap root x := by
  intro b2 h
  have hlen := get?_lt _ _ _ hn
  have hclen := get?_lt _ _ _ hc
  unfold sealStep at h
  rw [deref_ok _ _ _ hc] at h
  simp only [bind, Except.bind] at h
  cases hf : findRegistered b1 cn with
  | some q =>
    rw [hf] at h
    simp only [deref_ok _ _ _ hn, lastEdge_snoc nn init _ hne, pure, Except.pure] at h
    cases h
    have hmem := mapGet_mem _ _ _ hf
    obtain ⟨qn, hq, hqr, hkey, _, _⟩ := regOK_mem _ _ _ _ hg.regOK hmem
    obtain ⟨_, e2⟩ :=
      buildNodeHash_injective cn qn (hg.letters child cn hc) (hg.letters q qn hq) hkey
    have hnq : n ≠ q := by
      intro hnq
      subst hnq
      rw [hn] at hq
      cases hq
      rw [hnr] at hqr
      cases hqr
    have hred := reach_redirect b1.heap n child q nn cn qn init c hn hne hc hq e2.symm hnq
    have hkeep : ∀ x, x ≠ child → Reach b1.heap root x →
        Reach (b1.heap.set n (setLastDest nn q)) root x :=
      fun x hx hr => (hred root x hr hx).1
    refine ⟨?_, hkeep⟩
    rintro x ⟨m, hm, hr⟩
    simp only at hm
    have hxn : n ≠ x := by
      intro hxn
      subst hxn
      rw [get?_set_eq _ n _ hlen] at hm
      cases hm
      rw [setLastDest_registered, hnr] at hr
      cases hr
    rw [get?_set_ne _ n x _ hxn] at hm
    apply hkeep x
    · intro hxc
      subst hxc
      rw [hc] at hm
      cases hm
      rw [hcr] at hr
      cases hr
    · exact hR x ⟨m, hm, hr⟩
  | none =>
    rw [hf] at h
    simp only [pure, Except.pure, addToRegister] at h
    cases h
    have hmono : ∀ p x, Reach b1.heap p x →
        Reach (b1.heap.set child { cn with registered := true }) p x := by
      apply reach_mono
      intro p m hm
      by_cases hpc : p = child
      · subst hpc
        rw [hc] at hm
        cases hm
        exact ⟨_, get?_set_eq _ p _ hclen, fun e he => he⟩
      · refine ⟨m, ?_, fun e he => he⟩
        rw [get?_set_ne _ child p _ (Ne.symm hpc)]
        exact hm
    refine ⟨?_, fun x _ hr => hmono root x hr⟩
    rintro x ⟨m, hm, hr⟩
    simp only at hm
    apply hmono
    by_cases hxc : x = child
    · subst hxc
      apply reach_trans _ _ _ _ hrn
      have := reach_edge b1.heap n nn ⟨c, x⟩ hn (by rw [hne]; simp)
      exact this
    · rw [get?_set_ne _ child x _ (Ne.symm hxc)] at hm
      exact hR x ⟨m, hm, hr⟩

theorem ror_reach (root : Nat) : ∀ (cs : List Nat) (fuel : Nat) (b : dawgBuilder) (n c q : Nat),
    Good b.heap b.register → Spine b.heap n (c :: cs) q →
    b.heap[q]? = some ⟨true, false, []⟩ → cs.length < fuel →
    RegReach b.heap root → Reach b.heap root n →
    ∀ b2, replaceOrRegister fuel b n = .ok b2 →
      RegReach b2.heap root ∧ ∀ x, x ≤ n → Reach b.heap root x → Reach b2.heap root x := by
  intro cs
  induction cs with
  | nil =>
    intro fuel b n c q hg hs hq hfuel hR hrn b2 h
    obtain ⟨nn, init, nx, hn, hnr, hne, hinit, hlt, hs'⟩ := hs
    simp only [Spine] at hs'
    subst hs'
    cases fuel with
    | zero => simp at hfuel
    | succ fuel =>
      rw [replaceOrRegister_succ] at h
      simp only [deref_ok _ _ _ hn, lastEdge_snoc nn init _ hne, deref_ok _ _ _ hq, bind,
        Except.bind, Bool.not_false, if_true, List.length_nil, gt_iff_lt, Nat.lt_irrefl,
        if_false, pure, Except.pure] at h
      have h' : sealStep b n nx = .ok b2 := h
      obtain ⟨r1, r2⟩ := seal_reach b n nx nn _ init c root hg hn hnr hne hq rfl hR hrn b2 h'
      exact ⟨r1, fun x hx hr => r2 x (by omega) hr⟩
  | cons c1 cs ih =>
    intro fuel b n c q hg hs hq hfuel hR hrn b2 h
    obtain ⟨nn, init, nx, hn, hnr, hne, hinit, hlt, hs'⟩ := hs
    have hs'' := hs'
    obtain ⟨cn, cinit, cnx, hcn, hcnr, hcne, hcinit, hclt, _⟩ := hs''
    cases fuel with
    | zero => simp at hfuel
    | succ fuel =>
      rw [replaceOrRegister_succ] at h
      have hpos : cn.edges.length > 0 := by rw [hcne]; simp
      simp only [deref_ok _ _ _ hn, lastEdge_snoc nn init _ hne, deref_ok _ _ _ hcn, bind,
        Except.bind, hcnr, Bool.not_false, if_true, hpos] at h
      obtain ⟨b1, r1, p1, k1, cn', q1, hcn', hb1, hq1⟩ :=
        ror_spec cs fuel b nx c1 q hg hs' hq (by simp at hfuel; omega)
      rw [hcn] at hcn'
      cases hcn'
      rw [r1] at h
      simp only at h
      have h' : sealStep b1 n nx = .ok b2 := h
      have hrnx : Reach b.heap root nx :=
        reach_trans _ _ _ _ hrn (reach_edge b.heap n nn ⟨c, nx⟩ hn (by rw [hne]; simp))
      obtain ⟨i1, i2⟩ := ih fuel b nx c1 q hg hs' hq (by simp at hfuel; omega) hR hrnx b1 r1
      have hn1 : b1.heap[n]? = some nn := by rw [k1 n hlt]; exact hn
      obtain ⟨s1, s2⟩ := seal_reach b1 n nx nn (setLastDest cn q1) init c root p1.good hn1 hnr
        hne hb1 (by rw [setLastDest_registered]; exact hcnr) i1 (i2 n (by omega) hrn) b2 h'
      exact ⟨s1, fun x hx hr => s2 x (by omega) (i2 x (by omega) hr)⟩

theorem spine_reach (h : List node) : ∀ (cs : List Nat) (p q : Nat),
    Spine h p cs q → Reach h p q := by
  intro cs
  induction cs with
  | nil => intro p q hs; simp only [Spine] at hs; subst hs; exact Reach.refl p
  | cons c cs ih =>
    intro p q hs
    obtain ⟨n, init, nx, h1, _, h3, _, _, h6⟩ := hs
    exact Reach.step p n ⟨c, nx⟩ q h1 (by rw [h3]; simp) (ih nx q h6)

theorem add_reach (b : dawgBuilder) (W : List (List Nat)) (w : GoString) (hI : Inv b W)
    (hv : validUTF8 w) (hlt : strLt b.lastWord w = true) (hR : RegReach b.heap b.root) :
    ∀ b2, add b w = .ok b2 → RegReach b2.heap b2.root := by
  intro b2 hadd
  have hne : ¬ (w = b.lastWord) := by
    intro hh
    rw [hh, strLt_irrefl] at hlt
    cases hlt
  obtain ⟨p, c, rest, tail, e1, e2, e3, e4, e5⟩ := add_strings b.lastWord w hI.validLast hv hlt
  obtain ⟨q, hsp, hq⟩ := hI.spine
  rw [e2] at hsp hq
  obtain ⟨fj, hs1, hs2⟩ := (spine_append b.heap p tail b.root q).mp hsp
  have hfl : fj < b.heap.length := by
    have := spine_bound b.heap tail fj q hs2
    have := get?_lt _ _ _ hq
    omega
  obtain ⟨ls, hls⟩ : ∃ ls, b.heap[fj]? = some ls :=
    ⟨b.heap[fj], List.getElem?_eq_getElem hfl⟩
  have hqf : tail ≠ [] → decide (p ++ tail ≠ []) = true := by
    intro ht
    simp [ht]
  obtain ⟨b1, nf, r1, p1, k1, hnf, hnfr, hnfd, hnfl⟩ :=
    add_close b fj q c tail ls hI.good hs2 _ hq hqf hls e3
  obtain ⟨h2, a1, a2, a3, _, a5⟩ := addSuffix_spec (c :: rest) b1.heap fj nf hnf
  obtain ⟨a5, a6⟩ := a5 c rest rfl
  have hb2 : b2 = { b1 with heap := h2, lastWord := w } := by
    unfold add at hadd
    rw [if_neg hne] at hadd
    simp only [hlt, Bool.not_true, Bool.false_eq_true, if_false, e4, e5] at hadd
    have := walk_spine b.heap p b.root fj hs1
    simp only [bind, Except.bind, this, deref_ok _ _ _ hls, pure, Except.pure] at hadd
    simp only [pure, Except.pure] at r1
    rw [r1] at hadd
    simp only [a1] at hadd
    cases hadd
    rfl
  subst hb2
  simp only
  have hrfj : Reach b.heap b.root fj := spine_reach b.heap p b.root fj hs1
  have hR1 : RegReach b1.heap b.root := by
    rcases e3 with ht | ⟨d, t, ht, hdc⟩
    · subst ht
      simp only [Spine] at hs2
      subst hs2
      rw [hq] at hls
      cases hls
      simp [pure, Except.pure] at r1
      subst r1
      exact hR
    · subst ht
      have hq' : b.heap[q]? = some ⟨true, false, []⟩ := by
        rw [hq, hqf (by simp)]
      have hb := spine_bound b.heap _ fj q hs2
      have hql := get?_lt _ _ _ hq
      have hpos : ls.edges.length > 0 := by
        obtain ⟨n, init, nx, c1, _, c3, _⟩ := hs2
        rw [hls] at c1
        cases c1
        rw [c3]
        simp
      rw [if_pos hpos] at r1
      exact (ror_reach b.root t (b.heap.length + 1) b fj d q hI.good hs2 hq'
        (by simp at hb; omega) hR hrfj b1 r1).1
  rw [p1.root]
  have hmono : ∀ x y, Reach b1.heap x y → Reach h2 x y := by
    apply reach_mono
    intro x m hm
    by_cases hx : x = fj
    · subst hx
      rw [hnf] at hm
      cases hm
      exact ⟨_, a5, fun e he => List.mem_append_left _ he⟩
    · refine ⟨m, ?_, fun e he => he⟩
      rw [a3 x (get?_lt _ _ _ hm) hx]
      exact hm
  obtain ⟨_, hcases⟩ := suffix_cases b1.heap h2 fj nf (c :: rest) hnf a1
  rintro x ⟨m, hm, hr⟩
  apply hmono
  rcases hcases x m hm with ⟨_, c2, _⟩ | ⟨_, c2⟩ | ⟨_, c2, _⟩
  · rw [c2, hnfr] at hr
    cases hr
  · exact hR1 x ⟨m, c2, hr⟩
  · rw [c2] at hr
    cases hr

theorem addAll_reach : ∀ (ws : List GoString) (b : dawgBuilder) (W : List (List Nat)),
    Inv b W → (∀ w ∈ ws, validUTF8 w) → nonDecreasing (b.lastWord :: ws) →
    RegReach b.heap b.root →
    ∀ b2, addAll b ws = .ok b2 → RegReach b2.heap b2.root := by
  intro ws
  induction ws with
  | nil =>
    intro b W _ _ _ hR b2 h
    cases h
    exact hR
  | cons w ws ih =>
    intro b W hI hv ho hR b2 h
    have hvw := hv w (List.mem_cons_self _ _)
    have hvs : ∀ x ∈ ws, validUTF8 x := fun x hx => hv x (List.mem_cons_of_mem _ hx)
    rw [nonDecreasing_cons] at ho
    obtain ⟨ho1, ho2⟩ := ho
    simp only [addAll] at h
    obtain ⟨b1, h1, h2⟩ := (bind_ok _ _ _).mp h
    rcases ho1 with heq | hlt
    · have hadd : add b w = .ok b := by
        unfold add
        rw [if_pos heq.symm]
        rfl
      rw [hadd] at h1
      cases h1
      exact ih b W hI hvs (by rw [heq]; exact ho2) hR b2 h2
    · obtain ⟨b1', c1, c2, _⟩ := add_inv b W w hI hvw hlt
      rw [h1] at c1
      cases c1
      have hlw := add_lastWord b b1 w h1
      exact ih b1 (runes w :: W) c2 hvs (by rw [hlw]; exact ho2)
        (add_reach b W w hI hvw hlt hR b1 h1) b2 h2

theorem finish_reach (b b3 : dawgBuilder) (W : List (List Nat)) (hI : Inv b W)
    (hR : RegReach b.heap b.root) (h : finish b = .ok b3) : RegReach b3.heap b3.root := by
  obtain ⟨hne, p1, _⟩ := finish_inv b b3 W hI h
  obtain ⟨q, hs, hq⟩ := hI.spine
  cases hr : runes b.lastWord with
  | nil => exact absurd hr hne
  | cons c cs =>
    rw [hr] at hs hq
    have hb := spine_bound b.heap _ b.root q hs
    have hql := get?_lt _ _ _ hq
    rw [p1.root]
    unfold finish at h
    exact (ror_reach b.root cs (b.heap.length + 1) b b.root c q hI.good hs (by simpa using hq)
      (by simp at hb; omega) hR (Reach.refl _) b3 h).1

theorem regOK_nodup (h : List node) : ∀ (R : List (GoString × Nat)), RegOK h R →
    (R.map Prod.snd).Nodup ∧ (R.map Prod.fst).Nodup := by
  intro R
  induction R with
  | nil => intro _; simp
  | cons kv post ih =>
    obtain ⟨k, p⟩ := kv
    intro hr
    obtain ⟨h1, h2, n, h3, h4, h5, h6, h7⟩ := hr
    obtain ⟨i1, i2⟩ := ih h1
    simp only [List.map_cons, List.nodup_cons]
    refine ⟨⟨?_, i1⟩, ⟨?_, i2⟩⟩
    · intro hm
      obtain ⟨kv, hkv, hp⟩ := List.mem_map.mp hm
      obtain ⟨k1, v⟩ := kv
      simp only at hp
      subst hp
      obtain ⟨n1, a1, _, a3, _⟩ := regOK_mem h post k1 v h1 hkv
      rw [h3] at a1
      cases a1
      rw [← h5] at a3
      subst a3
      exact mapGet_none_of_mem post k1 v hkv h2
    · intro hm
      obtain ⟨kv, hkv, hp⟩ := List.mem_map.mp hm
      obtain ⟨k1, v⟩ := kv
      simp only at hp
      subst hp
      exact mapGet_none_of_mem post k1 v hkv h2

theorem regReach_new : RegReach newDawgBuilder.heap newDawgBuilder.root := by
  rintro x ⟨n, hn, hr⟩
  have hx := get?_lt _ _ _ hn
  have hx0 : x = 0 := by
    simp [newDawgBuilder] at hx
    omega
  subst hx0
  simp [newDawgBuilder] at hn
  subst hn
  cases hr

/-- C20 (amended): after `add` calls with well-formed UTF-8 words of which one is
non-empty, `finish` succeeds, and then the values of the register are exactly
the states reachable from the root other than the root, no state is stored
twice and no key is used twice, so the register has one entry less than there
are reachable states. -/
theorem C20_register_is_state_set (ws : List GoString) (hv : ∀ w ∈ ws, validUTF8 w)
    (hne : ∃ w ∈ ws, w ≠ []) (b : dawgBuilder) (h : addAll newDawgBuilder ws = .ok b) :
    ∃ b3, finish b = .ok b3 ∧
      (∀ x, x ∈ b3.register.map Prod.snd ↔ (Reach b3.heap b3.root x ∧ x ≠ b3.root)) ∧
      (b3.register.map Prod.snd).Nodup ∧ (b3.register.map Prod.fst).Nodup ∧
      ∃ S : List Nat, S.Nodup ∧ (∀ x, x ∈ S ↔ Reach b3.heap b3.root x) ∧
        b3.register.length + 1 = S.length := by
  obtain ⟨W, hI, _, hW⟩ := run_inv ws hv b h
  have hWne : W ≠ [] := by
    obtain ⟨w, hw, hwn⟩ := hne
    have : runes w ∈ W := (hW (runes w)).mpr ⟨w, hw, hwn, rfl⟩
    intro hh
    rw [hh] at this
    cases this
  have hR : RegReach b.heap b.root :=
    addAll_reach ws newDawgBuilder [] inv_new hv (addAll_ok_order ws _ _ h) regReach_new b h
  obtain ⟨b3, f1, p1, nr, a1, a2, a3⟩ := finish_spec b W hI (hI.lastNe hWne)
  rw [← p1.root] at a1
  have hR3 := finish_reach b b3 W hI hR f1
  have hg := p1.good
  have hiff : ∀ x, x ∈ b3.register.map Prod.snd ↔ (Reach b3.heap b3.root x ∧ x ≠ b3.root) := by
    intro x
    constructor
    · intro hx
      obtain ⟨m, d1, d2, _⟩ := regOK_val _ _ x hg.regOK hx
      refine ⟨hR3 x ⟨m, d1, d2⟩, ?_⟩
      intro hxr
      subst hxr
      rw [a1] at d1
      cases d1
      rw [a2] at d2
      cases d2
    · rintro ⟨hx, hxr⟩
      rcases reach_closed _ _ hg b3.root nr a1 a3 b3.root x hx (Or.inl rfl) with c1 | ⟨m, d1, d2⟩
      · exact absurd c1 hxr
      · exact hg.regIn x m d1 d2
  obtain ⟨n1, n2⟩ := regOK_nodup _ _ hg.regOK
  refine ⟨b3, f1, hiff, n1, n2, b3.root :: b3.register.map Prod.snd, ?_, ?_, by simp⟩
  · rw [List.nodup_cons]
    exact ⟨fun hm => ((hiff _).mp hm).2 rfl, n1⟩
  · intro x
    rw [List.mem_cons, hiff]
    constructor
    · rintro (c1 | c1)
      · rw [c1]; exact Reach.refl _
      · exact c1.1
    · intro hx
      by_cases hxr : x = b3.root
      · exact Or.inl hxr
      · exact Or.inr ⟨hx, hxr⟩

/-- C20 at the words of `smallTest`: four register entries, five reachable states. -/
theorem C20_register_is_state_set_witness :
    (∀ w ∈ smallWords, validUTF8 w) ∧ (∃ w ∈ smallWords, w ≠ []) ∧
    ∃ b, addAll newDawgBuilder smallWords = .ok b ∧
      ∃ b3, finish b = .ok b3 ∧
        (∀ x, x ∈ b3.register.map Prod.snd ↔ (Reach b3.heap b3.root x ∧ x ≠ b3.root)) ∧
        (b3.register.map Prod.snd).Nodup ∧ (b3.register.map Prod.fst).Nodup ∧
        ∃ S : List Nat, S.Nodup ∧ (∀ x, x ∈ S ↔ Reach b3.heap b3.root x) ∧
          b3.register.length + 1 = S.length :=
  ⟨by decide, ⟨[116, 97, 112], by decide, by decide⟩, _, rfl,
    C20_register_is_state_set smallWords (by decide) ⟨[116, 97, 112], by decide, by decide⟩
      _ rfl⟩

/-- C20 as stated fails: after the byte strings "\xc3aaa", "\xef\xbf\xbd", "\xffa",
which are in increasing order, and `finish`, the register holds the states 1,
2, 3 and 4, while the states 5 and 6 are reachable from the root 0 as well. -/
theorem C20_counterexample :
    nonDecreasing [[0xC3, 97, 97, 97], [0xEF, 0xBF, 0xBD], [0xFF, 97]] ∧
    ∃ b, addAll newDawgBuilder [[0xC3, 97, 97, 97], [0xEF, 0xBF, 0xBD], [0xFF, 97]] = .ok b ∧
      ∃ b3, finish b = .ok b3 ∧ b3.root = 0 ∧
        b3.register.map Prod.snd = [1, 2, 3, 4] ∧ b3.register.length = 4 ∧
        Reach b3.heap b3.root 5 ∧ Reach b3.heap b3.root 6 :=
  ⟨by decide, _, rfl, _, rfl, rfl, rfl, rfl,
    Reach.step 0 ⟨false, false, [⟨65533, 1⟩]⟩ ⟨65533, 1⟩ 5 rfl (List.mem_cons_self _ _)
      (Reach.step 1 ⟨true, true, [⟨97, 2⟩]⟩ ⟨97, 2⟩ 5 rfl (List.mem_cons_self _ _)
        (Reach.step 2 ⟨false, true, [⟨97, 3⟩, ⟨65533, 5⟩]⟩ ⟨65533, 5⟩ 5 rfl
          (List.mem_cons_of_mem _ (List.mem_cons_self _ _)) (Reach.refl 5))),
    Reach.step 0 ⟨false, false, [⟨65533, 1⟩]⟩ ⟨65533, 1⟩ 6 rfl (List.mem_cons_self _ _)
      (Reach.step 1 ⟨true, true, [⟨97, 2⟩]⟩ ⟨97, 2⟩ 6 rfl (List.mem_cons_self _ _)
        (Reach.step 2 ⟨false, true, [⟨97, 3⟩, ⟨65533, 5⟩]⟩ ⟨65533, 5⟩ 6 rfl
          (List.mem_cons_of_mem _ (List.mem_cons_self _ _))
          (Reach.step 5 ⟨false, false, [⟨97, 6⟩]⟩ ⟨97, 6⟩ 6 rfl (List.mem_cons_self _ _)
            (Reach.refl 6))))⟩

/-! ## Edge letters are scalar values, whatever the bytes of the words -/

theorem letters_new : Letters newDawgBuilder.heap := by
  intro p n hn e he
  have hp := get?_lt _ _ _ hn
  have hp0 : p = 0 := by
    simp [newDawgBuilder] at hp
    omega
  subst hp0
  simp [newDawgBuilder] at hn
  subst hn
  cases he

theorem letters_set (h : List node) (i : Nat) (x : node) (hl : Letters h)
    (hx : ∀ e ∈ x.edges, validRune e.letter) : Letters (h.set i x) := by
  intro p n hn e he
  by_cases hip : i = p
  · subst hip
    have hlt : i < h.length := by
      have := get?_lt _ _ _ hn
      simpa using this
    rw [get?_set_eq _ i _ hlt] at hn
    cases hn
    exact hx e he
  · rw [get?_set_ne _ i p _ hip] at hn
    exact hl p n hn e he

theorem setLastDest_letter (n : node) (q : Nat) (e : edge) (he : e ∈ (setLastDest n q).edges) :
    ∃ e1 ∈ n.edges, e1.letter = e.letter := by
  unfold setLastDest at he
  simp only [List.mem_append] at he
  rcases he with h | h
  · exact ⟨e, List.dropLast_subset _ h, rfl⟩
  · cases hl : n.edges.getLast? with
    | none => rw [hl] at h; simp at h
    | some e1 =>
      rw [hl] at h
      simp at h
      refine ⟨e1, List.mem_of_getLast?_eq_some hl, ?_⟩
      rw [h]

theorem seal_letters (b1 b2 : dawgBuilder) (n child : Nat) (hl : Letters b1.heap)
    (h : sealStep b1 n child = .ok b2) : Letters b2.heap := by
  unfold sealStep at h
  obtain ⟨c1, hc1, h⟩ := (bind_ok _ _ _).mp h
  have hc := deref_some _ _ _ hc1
  cases hf : findRegistered b1 c1 with
  | some q =>
    rw [hf] at h
    simp only at h
    obtain ⟨n1, hn1, h⟩ := (bind_ok _ _ _).mp h
    obtain ⟨e1, _, h⟩ := (bind_ok _ _ _).mp h
    cases h
    have hn := deref_some _ _ _ hn1
    apply letters_set _ _ _ hl
    intro e he
    obtain ⟨e2, a1, a2⟩ := setLastDest_letter n1 q e he
    rw [← a2]
    exact hl n n1 hn e2 a1
  | none =>
    rw [hf] at h
    simp only [pure, Except.pure, addToRegister] at h
    cases h
    apply letters_set _ _ _ hl
    intro e he
    exact hl child c1 hc e he

theorem ror_letters : ∀ (fuel : Nat) (b b2 : dawgBuilder) (n : Nat), Letters b.heap →
    replaceOrRegister fuel b n = .ok b2 → Letters b2.heap := by
  intro fuel
  induction fuel with
  | zero => intro b b2 n _ h; cases h
  | succ fuel ih =>
    intro b b2 n hl h
    rw [replaceOrRegister_succ] at h
    obtain ⟨nn, _, h⟩ := (bind_ok _ _ _).mp h
    obtain ⟨e, _, h⟩ := (bind_ok _ _ _).mp h
    obtain ⟨c, _, h⟩ := (bind_ok _ _ _).mp h
    by_cases hc : (!c.registered) = true
    · rw [if_pos hc] at h
      obtain ⟨b1, h1, h⟩ := (bind_ok _ _ _).mp h
      have hb1 : Letters b1.heap := by
        by_cases hlen : c.edges.length > 0
        · rw [if_pos hlen] at h1
          exact ih b b1 e.dest hl h1
        · rw [if_neg hlen] at h1
          cases h1
          exact hl
      exact seal_letters b1 b2 n e.dest hb1 h
    · rw [if_neg hc] at h
      cases h
      exact hl

theorem addSuffix_letters : ∀ (sfx : List Nat) (h h2 : List node) (n : Nat), Letters h →
    (∀ r ∈ sfx, validRune r) → addSuffix h n sfx = .ok h2 → Letters h2 := by
  intro sfx
  induction sfx with
  | nil =>
    intro h h2 n hl _ ha
    simp only [addSuffix] at ha
    obtain ⟨nn, hnn, ha⟩ := (bind_ok _ _ _).mp ha
    cases ha
    apply letters_set _ _ _ hl
    intro e he
    exact hl n nn (deref_some _ _ _ hnn) e he
  | cons r rest ih =>
    intro h h2 n hl hv ha
    simp only [addSuffix] at ha
    obtain ⟨nn, hnn, ha⟩ := (bind_ok _ _ _).mp ha
    refine ih _ h2 h.length ?_ (fun x hx => hv x (List.mem_cons_of_mem _ hx)) ha
    apply letters_set
    · intro p m hm e he
      by_cases hp : p < h.length
      · rw [List.getElem?_append_left hp] at hm
        exact hl p m hm e he
      · have hp2 := get?_lt _ _ _ hm
        simp only [List.length_append, List.length_singleton] at hp2
        have hpe : p = h.length := by omega
        subst hpe
        simp at hm
        subst hm
        cases he
    · intro e he
      simp only [List.mem_append, List.mem_singleton] at he
      rcases he with h1 | h1
      · exact hl n nn (deref_some _ _ _ hnn) e h1
      · subst h1
        exact hv r (List.mem_cons_self _ _)

theorem add_letters (b b2 : dawgBuilder) (w : GoString) (hl : Letters b.heap)
    (h : add b w = .ok b2) : Letters b2.heap := by
  unfold add at h
  by_cases h1 : w = b.lastWord
  · rw [if_pos h1] at h
    cases h
    exact hl
  · rw [if_neg h1] at h
    by_cases h2 : (!strLt b.lastWord w) = true
    · rw [if_pos h2] at h; cases h
    · rw [if_neg h2] at h
      obtain ⟨ls, _, h⟩ := (bind_ok _ _ _).mp h
      obtain ⟨lsn, _, h⟩ := (bind_ok _ _ _).mp h
      obtain ⟨b1, hb1, h⟩ := (bind_ok _ _ _).mp h
      obtain ⟨hp2, hsfx, h⟩ := (bind_ok _ _ _).mp h
      cases h
      have k1 : Letters b1.heap := by
        by_cases hlen : lsn.edges.length > 0
        · rw [if_pos hlen] at hb1
          exact ror_letters _ b b1 ls hl hb1
        · rw [if_neg hlen] at hb1
          cases hb1
          exact hl
      exact addSuffix_letters _ b1.heap hp2 ls k1 (validRune_runes _) hsfx

theorem runOps_letters : ∀ (ops : List Op) (b b2 : dawgBuilder), Letters b.heap →
    runOps b ops = .ok b2 → Letters b2.heap := by
  intro ops
  induction ops with
  | nil =>
    intro b b2 hl h
    cases h
    exact hl
  | cons o ops ih =>
    intro b b2 hl h
    simp only [runOps] at h
    obtain ⟨b1, h1, h2⟩ := (bind_ok _ _ _).mp h
    have k : Letters b1.heap := by
      cases o with
      | add w => exact add_letters b b1 w hl h1
      | finish => exact ror_letters _ b b1 b.root hl h1
    exact ih b1 b2 k h2

/-- C10: for all states `a` and `c` that runs of `add` and `finish` calls on a
new builder leave in memory (in the same run or in two runs, whatever the bytes
of the words), `buildNodeHash(a) == buildNodeHash(c)` if and only if `a` and `c`
have the same final flag, the same number of edges, the same edge letters in the
same order and the same destination at each position. -/
theorem C10_fingerprint_injective (ops1 ops2 : List Op) (b1 b2 : dawgBuilder)
    (h1 : runOps newDawgBuilder ops1 = .ok b1) (h2 : runOps newDawgBuilder ops2 = .ok b2)
    (p q : Nat) (a c : node) (ha : b1.heap[p]? = some a) (hc : b2.heap[q]? = some c) :
    buildNodeHash a = buildNodeHash c ↔
      a.final = c.final ∧ a.edges.length = c.edges.length ∧
      a.edges.map edge.letter = c.edges.map edge.letter ∧
      a.edges.map edge.dest = c.edges.map edge.dest := by
  have l1 := runOps_letters ops1 newDawgBuilder b1 letters_new h1 p a ha
  have l2 := runOps_letters ops2 newDawgBuilder b2 letters_new h2 q c hc
  constructor
  · intro h
    obtain ⟨e1, e2⟩ := buildNodeHash_injective a c l1 l2 h
    rw [e1, e2]
    exact ⟨rfl, rfl, rfl, rfl⟩
  · rintro ⟨e1, _, e3, e4⟩
    exact buildNodeHash_congr a c e1 (edges_ext _ _ e3 e4)

/-- C10 after `add("12")`, `add("1|2")`, `finish()`, whose letters are digits and
"|": state 1 with the edges "2" to state 2 and "|" to state 3, against state 3
with the edge "2" to state 2. -/
theorem C10_fingerprint_injective_witness :
    ∃ b, runOps newDawgBuilder [.add [49, 50], .add [49, 124, 50], .finish] = .ok b ∧
      b.heap[1]? = some ⟨false, true, [⟨50, 2⟩, ⟨124, 3⟩]⟩ ∧
      b.heap[3]? = some ⟨false, true, [⟨50, 2⟩]⟩ ∧
      (buildNodeHash ⟨false, true, [⟨50, 2⟩, ⟨124, 3⟩]⟩ = buildNodeHash ⟨false, true, [⟨50, 2⟩]⟩ ↔
        (⟨false, true, [⟨50, 2⟩, ⟨124, 3⟩]⟩ : node).final
          = (⟨false, true, [⟨50, 2⟩]⟩ : node).final ∧
        (⟨false, true, [⟨50, 2⟩, ⟨124, 3⟩]⟩ : node).edges.length
          = (⟨false, true, [⟨50, 2⟩]⟩ : node).edges.length ∧
        (⟨false, true, [⟨50, 2⟩, ⟨124, 3⟩]⟩ : node).edges.map edge.letter
          = (⟨false, true, [⟨50, 2⟩]⟩ : node).edges.map edge.letter ∧
        (⟨false, true, [⟨50, 2⟩, ⟨124, 3⟩]⟩ : node).edges.map edge.dest
          = (⟨false, true, [⟨50, 2⟩]⟩ : node).edges.map edge.dest) :=
  ⟨_, rfl, rfl, rfl,
    C10_fingerprint_injective [.add [49, 50], .add [49, 124, 50], .finish]
      [.add [49, 50], .add [49, 124, 50], .finish] _ _ rfl rfl 1 3 _ _ rfl rfl⟩

end Dawg
